import Mathlib

/-!
The program `mini_serv`: a select-driven TCP broadcast relay

A shallow embedding of `mini_serv.c` and a verification of its specification.

Conventions of the embedding.

* A C `char` is a `Char`; only equality with the line terminator is ever used.
* C `int` and `ssize_t` values that can be negative (descriptors, read results,
  the readiness budget) are `Int`.  `size_t` values and client identities are
  `Nat`: identities start at 0 and only grow, and the signed overflow of
  `next_id` is undefined behaviour in C and outside the model.
* A memory block is the list of its bytes.  `ft_xmalloc` is assumed to succeed
  (it terminates the process otherwise); fresh memory reads as NUL bytes.
* A `Client *` taken from `p->clients[i]` is represented by the slot index `i`;
  the pointed-to session is stored by value in the slot.
* System calls are not executed: their results are arguments of the functions
  that issue them, and the calls issued are returned as a list of `Event`s in
  program order.
* `FD_SETSIZE` is a platform constant; it is a parameter of every function
  that uses it.
-/

namespace MiniServ

/-! ## Dynamic byte buffer (`mini_serv.c`, lines 20-25 and 53-97) -/

/-- The line terminator. -/
def NL : Char := Char.ofNat 10

/-- The byte that uninitialised or out-of-block memory reads as in the model. -/
def NUL : Char := Char.ofNat 0

/-- The growable buffer `struct Vla`: `buf` is the allocated block. -/
structure Vla where
  buf : List Char
  size : Nat
  cap : Nat
deriving DecidableEq, Repr

/-- The fixed chunk `struct Bytes`: `buf` lists the bytes of the 1024-byte
array that have been written so far; `size` is the `ssize_t` field. -/
structure Bytes where
  size : Int
  buf : List Char
deriving DecidableEq, Repr

/-- The array read `data->buf[i]`. -/
def Bytes.at (data : Bytes) (i : Nat) : Char := data.buf.getD i NUL

/-- The allocation `ft_xmalloc(size)`: a fresh block of `size` bytes. -/
def ft_xmalloc (size : Nat) : List Char := List.replicate size NUL

/-- The byte copy `ft_memcpy(dest, src, n)`: `dest[i] = src[i]` for `i < n`. -/
def ft_memcpy (dest src : List Char) (n : Nat) : List Char :=
  (List.range n).foldl (fun d i => d.set i (src.getD i NUL)) dest

/-- The growth step `expand_buf_if_needed`: double the block when it is full. -/
def expand_buf_if_needed (vla : Vla) : Vla :=
  if vla.size < vla.cap then vla
  else
    let old_buf := vla.buf
    let new_cap := vla.cap * 2
    let new_buf := ft_memcpy (ft_xmalloc new_cap) old_buf vla.size
    { vla with buf := new_buf, cap := new_cap }

/-- The append `push_back(vla, c)`. -/
def push_back (vla : Vla) (c : Char) : Vla :=
  let vla := expand_buf_if_needed vla
  { vla with buf := vla.buf.set vla.size c, size := vla.size + 1 }

/-- The loop `push_back_bytes(vla, data)`: `data->buf[i]` for `0 <= i < data->size`. -/
def push_back_bytes (vla : Vla) (data : Bytes) : Vla :=
  (List.range data.size.toNat).foldl (fun v i => push_back v (data.at i)) vla

/-- The buffer `(Vla){.buf = ft_xmalloc(1), .size = 0, .cap = 1}` of `send_msg`. -/
def Vla.init : Vla := { buf := ft_xmalloc 1, size := 0, cap := 1 }

/-- The used part of the buffer: its first `size` bytes. -/
def Vla.contents (vla : Vla) : List Char := vla.buf.take vla.size

/-- The `size` bytes starting at `data` that a `send(fd, data, size, 0)`
transmits. -/
def mem_read (data : List Char) (size : Nat) : List Char :=
  (List.range size).map (fun i => data.getD i NUL)

/-- Representation invariant of the buffer: the block has `cap` bytes, the
used part fits, and the capacity is a power of two. -/
structure VlaOk (v : Vla) : Prop where
  len : v.buf.length = v.cap
  fits : v.size ≤ v.cap
  pow : ∃ k, v.cap = 2 ^ k

/-- The bounds of the buffer: the block has `cap` bytes, at least one, and the
used part fits in it. -/
structure VlaBounds (v : Vla) : Prop where
  len : v.buf.length = v.cap
  pos : 1 ≤ v.cap
  fits : v.size ≤ v.cap

/-! ## Sessions (`mini_serv.c`, lines 27-42, 144-154, 182-201) -/

/-- The session `struct Client`. -/
structure Client where
  id : Nat
  fd : Int
  is_new_line : Bool
  line_prefix : Bytes
  first_msg : Bytes
  last_msg : Bytes
  recv_data : Bytes
deriving DecidableEq, Repr

/-- The effect of `b.size = sprintf(b.buf, ...)` when the formatted text is `s`. -/
def sprintf (s : String) : Bytes := { size := s.length, buf := s.toList }

/-- The constructor `create_client(fd, id)`; `recv_data` is not initialised. -/
def create_client (fd : Int) (id : Nat) : Client :=
  { fd := fd
    id := id
    is_new_line := true
    first_msg := sprintf ("server: client " ++ Nat.repr id ++ " just arrived\n")
    last_msg := sprintf ("server: client " ++ Nat.repr id ++ " just left\n")
    line_prefix := sprintf ("client " ++ Nat.repr id ++ ": ")
    recv_data := { size := 0, buf := [] } }

/-- The system calls the program issues, with their arguments (and, for calls
whose result the program uses, the result). -/
inductive Event where
  | accept (listen_fd : Int) (result : Int)
  | recv (fd : Int) (result : Int)
  | send (fd : Int) (data : List Char)
  | close (fd : Int)
  | write (fd : Int) (data : List Char)
deriving DecidableEq, Repr

/-- The read `recv_msg(c)`, when `recv` returns `n` after storing `data` at the
start of the chunk. -/
def recv_msg (c : Client) (n : Int) (data : List Char) : Int × Client × List Event :=
  (n, { c with recv_data := { size := n, buf := data ++ c.recv_data.buf.drop data.length } },
    [Event.recv c.fd n])

/-- The loop of `send_msg` (lines 190-198): the session after it and the
assembled buffer. -/
def send_msg_loop (c : Client) : Client × Vla :=
  (List.range c.recv_data.size.toNat).foldl
    (fun (s : Client × Vla) i =>
      let vla := if s.1.is_new_line then push_back_bytes s.2 ( Client.line_prefix s.1) else s.2
      let vla := push_back vla (s.1.recv_data.at i)
      ({ s.1 with is_new_line := (s.1.recv_data.at i == NL) }, vla))
    (c, Vla.init)

/-- The bytes `send_msg` passes to `broadcast` for the session `c`. -/
def send_msg_payload (c : Client) : List Char :=
  mem_read (send_msg_loop c).2.buf (send_msg_loop c).2.size

/-- One read of `data` (a `recv` returning `data.length`) followed by the loop
of `send_msg`: the session afterwards and the payload broadcast. -/
def deliver (c : Client) (data : List Char) : Client × List Char :=
  let c1 := (recv_msg c data.length data).2.1
  ((send_msg_loop c1).1, send_msg_payload c1)

/-- A session fed successive read chunks: the final session and the payloads
broadcast, one per chunk.  (A real chunk has 1 to 1024 bytes; nothing below
depends on it.) -/
def session : Client → List (List Char) → Client × List (List Char)
  | c, [] => (c, [])
  | c, chunk :: rest =>
    let r := deliver c chunk
    let r2 := session r.1 rest
    (r2.1, r.2 :: r2.2)

/-! ### The transform of `send_msg` as functions on byte sequences -/

/-- The bytes of a chunk: its first `size` bytes. -/
def Bytes.contents (data : Bytes) : List Char := mem_read data.buf data.size.toNat

/-- The line-reassembly transform as a function on byte lists: the output for
`data` from line-start state `b`, and the state afterwards. -/
def line_transform (P : List Char) : Bool → List Char → List Char × Bool
  | b, [] => ([], b)
  | b, x :: xs =>
    ((if b then P else []) ++ x :: (line_transform P (x == NL) xs).1,
      (line_transform P (x == NL) xs).2)

/-- Position `i` of `D` starts a line: it is position 0 or directly follows a
line terminator. -/
def is_line_start (D : List Char) (i : Nat) : Bool :=
  i == 0 || D.get? (i - 1) == some NL

/-- The sequence `D` with `P` inserted immediately before each byte that starts a line. -/
def insert_at_line_starts (P D : List Char) : List Char :=
  (List.range D.length).flatMap
    (fun i => (if is_line_start D i then P else []) ++ [D.getD i NUL])

/-- The input `D` with `P` inserted at the start of the session and immediately
after every line terminator. -/
def insert_after_terminators (P D : List Char) : List Char :=
  P ++ D.flatMap (fun b => if b = NL then b :: P else [b])

/-- The bytes of `D` with `P` inserted immediately after every line terminator
that is followed by a further byte. -/
def insert_after_inner_terminators (P : List Char) : List Char → List Char
  | [] => []
  | [b] => [b]
  | b :: b2 :: rest =>
    b :: ((if b = NL then P else []) ++ insert_after_inner_terminators P (b2 :: rest))

/-- The input `D` with `P` inserted before its first byte and immediately after
every line terminator that is followed by a further byte; nothing for the empty
input. -/
def insert_before_lines (P D : List Char) : List Char :=
  match D with
  | [] => []
  | _ :: _ => P ++ insert_after_inner_terminators P D

/-! ## Connection pool (`mini_serv.c`, lines 44-51, 126-180, 203-216) -/

/-- A bounds-checked array read `t[i]`: `none` outside the array. -/
def tbl_get {α : Type} (t : List α) (i : Int) : Option α :=
  if i < 0 then none else t.get? i.toNat

/-- The array write `t[i] = v`; a write outside the array (undefined behaviour
in C) leaves the array as it is. -/
def tbl_set {α : Type} (t : List α) (i : Int) (v : α) : List α :=
  if i < 0 then t else t.set i.toNat v

def FD_ZERO (FD_SETSIZE : Nat) : List Bool := List.replicate FD_SETSIZE false

def FD_SET (fd : Int) (set : List Bool) : List Bool := tbl_set set fd true

def FD_CLR (fd : Int) (set : List Bool) : List Bool := tbl_set set fd false

def FD_ISSET (fd : Int) (set : List Bool) : Bool := (tbl_get set fd).getD false

/-- The pool `struct Pool`; `read_set` and `clients` have `FD_SETSIZE` entries. -/
structure Pool where
  max_fd : Int
  listen_fd : Int
  read_set : List Bool
  next_id : Nat
  clients : List (Option Client)
deriving DecidableEq, Repr

/-- The pointer `p->clients[i]`, `none` for `NULL`. -/
def Pool.slot (p : Pool) (i : Int) : Option Client := (tbl_get p.clients i).getD none

/-- The store `*p->clients[i] = c` through the pointer of slot `i`. -/
def Pool.store (p : Pool) (i : Int) (c : Client) : Pool :=
  { p with clients := tbl_set p.clients i (some c) }

def construct_pool (FD_SETSIZE : Nat) (listen_fd : Int) : Pool :=
  { listen_fd := listen_fd
    max_fd := listen_fd
    read_set := FD_SET listen_fd (FD_ZERO FD_SETSIZE)
    next_id := 0
    clients := List.replicate FD_SETSIZE none }

/-- The call `add_client(p)` when `accept` returns `connfd`. -/
def add_client (FD_SETSIZE : Nat) (p : Pool) (connfd : Int) : Int × Pool × List Event :=
  if connfd = -1 ∨ connfd ≥ FD_SETSIZE then (-1, p, [Event.accept p.listen_fd connfd])
  else
    let p1 := if connfd > p.max_fd then { p with max_fd := connfd } else p
    let p2 := { p1 with read_set := FD_SET connfd p1.read_set }
    let p3 := { p2 with clients := tbl_set p2.clients connfd (some (create_client connfd p2.next_id)) }
    (connfd, { p3 with next_id := p3.next_id + 1 }, [Event.accept p.listen_fd connfd])

/-- The fan-out `broadcast(sender_id, p, data, size)`: slots `0 .. max_fd` in
ascending order. -/
def broadcast (sender_id : Nat) (p : Pool) (data : List Char) (size : Nat) : List Event :=
  (List.range (p.max_fd + 1).toNat).filterMap (fun (i : Nat) =>
    match p.slot (i : Int) with
    | none => none
    | some c => if c.id = sender_id then none else some (Event.send c.fd (mem_read data size)))

/-- The call `send_msg(c, p)` for the session `c` of slot `i`. -/
def send_msg (i : Int) (p : Pool) : Pool × List Event :=
  match p.slot i with
  | none => (p, [])
  | some c =>
    let r := send_msg_loop c
    let p1 := p.store i r.1
    (p1, broadcast r.1.id p1 r.2.buf r.2.size)

/-- The loop of `update_max_fd`, at most `n` iterations. -/
def update_max_fd_loop : Nat → Pool → Pool
  | 0, p => p
  | n + 1, p =>
    if p.max_fd > p.listen_fd ∧ p.slot p.max_fd = none then
      update_max_fd_loop n { p with max_fd := p.max_fd - 1 }
    else p

/-- The scan `update_max_fd(p)`; `max_fd - listen_fd` bounds its iterations. -/
def update_max_fd (p : Pool) : Pool :=
  update_max_fd_loop (p.max_fd - p.listen_fd).toNat p

def remove_client (p : Pool) (client_fd : Int) : Pool × List Event :=
  let p1 := { p with read_set := FD_CLR client_fd p.read_set }
  let p2 := { p1 with clients := tbl_set p1.clients client_fd none }
  (update_max_fd p2, [Event.close client_fd])

/-! ## Event loop (`mini_serv.c`, lines 218-267) -/

/-- The body of the loop of `communicate` for a ready live slot `i` (lines
226-232), when `recv` returns `n` with bytes `data`. -/
def communicate_service (i : Int) (p : Pool) (n : Int) (data : List Char) :
    Pool × List Event :=
  match p.slot i with
  | none => (p, [])
  | some c =>
    let r := recv_msg c n data
    let p1 := p.store i r.2.1
    if r.1 = 0 then
      let ev1 := broadcast r.2.1.id p1 r.2.1.last_msg.buf r.2.1.last_msg.size.toNat
      let r2 := remove_client p1 i
      (r2.1, r.2.2 ++ ev1 ++ r2.2)
    else
      let r2 := send_msg i p1
      (r2.1, r.2.2 ++ r2.2)

/-- The loop of `communicate` from index `i`, at most `fuel` iterations; `recv`
gives, for a descriptor, what the read on it returns in this tick. -/
def communicate_loop (recv : Int → Int × List Char) (ready_set : List Bool) :
    Nat → Int → Int → Pool → Pool × List Event
  | 0, _, _, p => (p, [])
  | fuel + 1, i, n_ready, p =>
    if i ≤ p.max_fd ∧ n_ready ≠ 0 then
      match p.slot i with
      | none => communicate_loop recv ready_set fuel (i + 1) n_ready p
      | some c =>
        if !FD_ISSET i ready_set then communicate_loop recv ready_set fuel (i + 1) n_ready p
        else
          let r := communicate_service i p (recv c.fd).1 (recv c.fd).2
          let r2 := communicate_loop recv ready_set fuel (i + 1) (n_ready - 1) r.1
          (r2.1, r.2 ++ r2.2)
    else (p, [])

/-- The call `communicate(p, ready_set, n_ready)`; the index runs from 0 to at
most the `max_fd` of entry, since `max_fd` never grows during the scan. -/
def communicate (recv : Int → Int × List Char) (p : Pool) (ready_set : List Bool)
    (n_ready : Int) : Pool × List Event :=
  communicate_loop recv ready_set (p.max_fd + 1).toNat 0 n_ready p

/-- The call `perform(p, ready_set, n_ready)` when `accept` (if called) returns
`connfd`. -/
def perform (FD_SETSIZE : Nat) (connfd : Int) (recv : Int → Int × List Char)
    (p : Pool) (ready_set : List Bool) (n_ready : Int) : Int × Pool × List Event :=
  if FD_ISSET p.listen_fd ready_set then
    let r := add_client FD_SETSIZE p connfd
    if r.1 = -1 then (-1, r.2.1, r.2.2)
    else
      match r.2.1.slot r.1 with
      | none => (0, r.2.1, r.2.2)
      | some c =>
        let ev1 := broadcast c.id r.2.1 c.first_msg.buf c.first_msg.size.toNat
        let r2 := communicate recv r.2.1 ready_set (n_ready - 1)
        (0, r2.1, r.2.2 ++ ev1 ++ r2.2)
  else
    let r2 := communicate recv p ready_set n_ready
    (0, r2.1, r2.2)

def E_FATAL_ERROR : List Char := "Fatal error\n".toList

def STDERR_FILENO : Int := 2

/-- How one iteration of the loop of `run` ends: the loop goes on with the
pool, or the process has called `exit(EXIT_FAILURE)`. -/
inductive Outcome where
  | next (p : Pool)
  | exit_failure
deriving DecidableEq, Repr

/-- What the environment supplies in one iteration of `run`: the result of
`select` and the ready set it leaves, the result of `accept`, the reads. -/
structure Tick where
  n_ready : Int
  ready_set : List Bool
  connfd : Int
  recv : Int → Int × List Char

/-- One iteration of the `while (true)` loop of `run` (lines 256-265). -/
def run_iteration (FD_SETSIZE : Nat) (p : Pool) (t : Tick) : Outcome × List Event :=
  if t.n_ready = -1 then (Outcome.exit_failure, [Event.write STDERR_FILENO E_FATAL_ERROR])
  else
    let r := perform FD_SETSIZE t.connfd t.recv p t.ready_set t.n_ready
    if r.1 = -1 then (Outcome.exit_failure, r.2.2 ++ [Event.write STDERR_FILENO E_FATAL_ERROR])
    else (Outcome.next r.2.1, r.2.2)

/-- The loop of `run` from pool `p` over the ticks the environment supplies;
it stops at the first iteration that exits. -/
def run_loop (FD_SETSIZE : Nat) : Pool → List Tick → Outcome × List Event
  | p, [] => (Outcome.next p, [])
  | p, t :: ts =>
    match run_iteration FD_SETSIZE p t with
    | (Outcome.next p1, ev) =>
      let r := run_loop FD_SETSIZE p1 ts
      (r.1, ev ++ r.2)
    | (Outcome.exit_failure, ev) => (Outcome.exit_failure, ev)

/-- The call `run(listen_fd)` observed over a finite run of ticks. -/
def run (FD_SETSIZE : Nat) (listen_fd : Int) (ticks : List Tick) : Outcome × List Event :=
  run_loop FD_SETSIZE (construct_pool FD_SETSIZE listen_fd) ticks

/-! ## Reachable pools -/

/-- The descriptors that hold a live session, in ascending order. -/
def live_fds (p : Pool) : List Int :=
  ((List.range p.clients.length).map (fun (i : Nat) => (i : Int))).filter
    (fun fd => (p.slot fd).isSome)

/-- The pool operations the event loop applies, with what the environment
returns: an `add_client` whose `accept` returns `connfd`, a `remove_client`,
and the service of slot `fd` whose `recv` returns `n` with bytes `data`. -/
inductive Op where
  | accept (connfd : Int)
  | remove (fd : Int)
  | read (fd : Int) (n : Int) (data : List Char)
deriving DecidableEq, Repr

/-- What the operating system guarantees of an operation in pool `p`.  `accept`
fails with -1 or returns a descriptor that is not open: descriptors are
allocated lowest-free-first and the program closes only client descriptors, so
every descriptor up to the listener stays open and the result is above
`listen_fd`, and it is not the descriptor of a live session.  Sessions are
removed and read only through a live slot. -/
def Op.ok (p : Pool) : Op → Bool
  | Op.accept connfd => connfd == -1 || (decide (p.listen_fd < connfd) && (p.slot connfd).isNone)
  | Op.remove fd => (p.slot fd).isSome
  | Op.read fd _ _ => (p.slot fd).isSome

/-- The pool after an operation. -/
def Op.apply (FD_SETSIZE : Nat) (p : Pool) : Op → Pool
  | Op.accept connfd => (add_client FD_SETSIZE p connfd).2.1
  | Op.remove fd => (remove_client p fd).1
  | Op.read fd n data => (communicate_service fd p n data).1

/-- The pool after a sequence of operations, `none` if one of them is not one
the operating system allows. -/
def exec (FD_SETSIZE : Nat) : Pool → List Op → Option Pool
  | p, [] => some p
  | p, op :: ops => if op.ok p then exec FD_SETSIZE (op.apply FD_SETSIZE p) ops else none

/-- The pools reachable from `construct_pool(listen_fd)`, for a listener
descriptor inside the descriptor table. -/
def Reachable (FD_SETSIZE : Nat) (listen_fd : Int) (p : Pool) : Prop :=
  0 ≤ listen_fd ∧ listen_fd < FD_SETSIZE ∧
    ∃ ops, exec FD_SETSIZE (construct_pool FD_SETSIZE listen_fd) ops = some p

/-- The identities `add_client` assigns in an operation: the identity of the
session it creates, when it accepts. -/
def Op.assigned (FD_SETSIZE : Nat) (p : Pool) : Op → List Nat
  | Op.accept connfd =>
    if (add_client FD_SETSIZE p connfd).1 = -1 then []
    else
      match (add_client FD_SETSIZE p connfd).2.1.slot connfd with
      | some c => [c.id]
      | none => []
  | _ => []

/-- The identities assigned along a sequence of operations, oldest first. -/
def ids_assigned (FD_SETSIZE : Nat) : Pool → List Op → List Nat
  | _, [] => []
  | p, op :: ops => op.assigned FD_SETSIZE p ++ ids_assigned FD_SETSIZE (op.apply FD_SETSIZE p) ops

/-- The descriptors `broadcast(x, p, ...)` is to reach: those of the live
sessions whose identity is not `x`, in ascending order. -/
def recipients (x : Nat) (p : Pool) : List Int :=
  (live_fds p).filter (fun fd =>
    match p.slot fd with
    | some c => c.id != x
    | none => false)

/-- The invariant of reachable pools. -/
structure PoolInv (FD_SETSIZE : Nat) (p : Pool) : Prop where
  clients_len : p.clients.length = FD_SETSIZE
  set_len : p.read_set.length = FD_SETSIZE
  listen_lo : 0 ≤ p.listen_fd
  listen_hi : p.listen_fd < FD_SETSIZE
  max_lo : p.listen_fd ≤ p.max_fd
  max_hi : p.max_fd < FD_SETSIZE
  live : ∀ i c, p.slot i = some c →
    p.listen_fd < i ∧ i ≤ p.max_fd ∧ c.fd = i ∧ c.id < p.next_id ∧
      c.first_msg = (create_client i c.id).first_msg ∧
      c.last_msg = (create_client i c.id).last_msg ∧
      Client.line_prefix c = Client.line_prefix (create_client i c.id)
  ids : ∀ i j c d, p.slot i = some c → p.slot j = some d → c.id = d.id → i = j
  top : p.max_fd = p.listen_fd ∨ p.slot p.max_fd ≠ none

/-! ## Fan-out with explicit results, well-formedness -/

/-- The loop of `broadcast` with the value each `send` returns made explicit
(`send_result fd` for the send to `fd`): the pool it leaves and the calls it
issues.  The code discards the value. -/
def broadcast_with_results (send_result : Int → Int) (sender_id : Nat) (p : Pool)
    (data : List Char) (size : Nat) : Pool × List Event :=
  (List.range (p.max_fd + 1).toNat).foldl
    (fun (s : Pool × List Event) (i : Nat) =>
      match s.1.slot (i : Int) with
      | none => s
      | some c =>
        if c.id = sender_id then s
        else
          let _result := send_result c.fd
          (s.1, s.2 ++ [Event.send c.fd (mem_read data size)]))
    (p, [])

/-- The readiness set mirrors the monitored descriptors: a descriptor is in
`read_set` exactly when it is the listener or its slot holds a live session. -/
def Mirror (p : Pool) : Prop :=
  ∀ fd, FD_ISSET fd p.read_set = true ↔ (fd = p.listen_fd ∨ p.slot fd ≠ none)

/-- Well-formedness of the pool: the session of every live slot `i` has `fd`
equal to `i` (the table holds one session per live descriptor), and the
readiness set mirrors the monitored descriptors. -/
def WellFormed (p : Pool) : Prop :=
  (∀ i c, p.slot i = some c → c.fd = i) ∧ Mirror p

/-! ## The reads of a tick -/

/-- The descriptors read, in order: those of the `recv` calls of a trace. -/
def reads (evs : List Event) : List Int :=
  evs.filterMap (fun e =>
    match e with
    | Event.recv fd _ => some fd
    | _ => none)

/-- The live sessions whose descriptor is in `ready_set`, in ascending order. -/
def ready_fds (p : Pool) (ready_set : List Bool) : List Int :=
  (live_fds p).filter (fun fd => FD_ISSET fd ready_set)

/-- The first `k` entries of `l`, where `k` is the smaller of the budget `n` and
the number of entries. -/
def first_k (n : Int) (l : List Int) : List Int :=
  l.take (min n (l.length : Int)).toNat

/-- What a readiness budget `n` lets through of `l`: the first `k` entries for
a budget that is not negative, and all of `l` for a negative one, which the
test `n_ready` (non-zero) of the loop never stops. -/
def budget_cut (n : Int) (l : List Int) : List Int :=
  if n < 0 then l else first_k n l

/-! ## The operations with every table access checked -/

/-- The array write `t[i] = v`, `none` outside the array. -/
def tbl_set_checked {α : Type} (t : List α) (i : Int) (v : α) : Option (List α) :=
  if 0 ≤ i ∧ i < t.length then some (tbl_set t i v) else none

/-- The constructor `construct_pool`, `none` if `FD_SET` leaves the set. -/
def construct_pool_checked (FD_SETSIZE : Nat) (listen_fd : Int) : Option Pool :=
  match tbl_set_checked (FD_ZERO FD_SETSIZE) listen_fd true with
  | none => none
  | some rs =>
    some { listen_fd := listen_fd
           max_fd := listen_fd
           read_set := rs
           next_id := 0
           clients := List.replicate FD_SETSIZE none }

/-- The call `add_client`, `none` if `FD_SET` or the store into `clients`
leaves its table. -/
def add_client_checked (FD_SETSIZE : Nat) (p : Pool) (connfd : Int) :
    Option (Int × Pool × List Event) :=
  if connfd = -1 ∨ connfd ≥ FD_SETSIZE then some (-1, p, [Event.accept p.listen_fd connfd])
  else
    let p1 := if connfd > p.max_fd then { p with max_fd := connfd } else p
    match tbl_set_checked p1.read_set connfd true with
    | none => none
    | some rs =>
      let p2 := { p1 with read_set := rs }
      match tbl_set_checked p2.clients connfd (some (create_client connfd p2.next_id)) with
      | none => none
      | some cl =>
        let p3 := { p2 with clients := cl }
        some (connfd, { p3 with next_id := p3.next_id + 1 }, [Event.accept p.listen_fd connfd])

/-- The loop of `broadcast` over the indices `l`, `none` if a read of
`clients[i]` leaves the table. -/
def broadcast_checked_loop (sender_id : Nat) (p : Pool) (data : List Char) (size : Nat) :
    List Nat → Option (List Event)
  | [] => some []
  | i :: rest =>
    match tbl_get p.clients (i : Int) with
    | none => none
    | some none => broadcast_checked_loop sender_id p data size rest
    | some (some c) =>
      if c.id = sender_id then broadcast_checked_loop sender_id p data size rest
      else
        match broadcast_checked_loop sender_id p data size rest with
        | none => none
        | some evs => some (Event.send c.fd (mem_read data size) :: evs)

def broadcast_checked (sender_id : Nat) (p : Pool) (data : List Char) (size : Nat) :
    Option (List Event) :=
  broadcast_checked_loop sender_id p data size (List.range (p.max_fd + 1).toNat)

/-- The call `send_msg(c, p)` for the session of slot `i`, `none` if the slot
is outside the table or empty. -/
def send_msg_checked (i : Int) (p : Pool) : Option (Pool × List Event) :=
  match tbl_get p.clients i with
  | some (some c) =>
    let r := send_msg_loop c
    match tbl_set_checked p.clients i (some r.1) with
    | none => none
    | some cl =>
      let p1 := { p with clients := cl }
      match broadcast_checked r.1.id p1 r.2.buf r.2.size with
      | none => none
      | some evs => some (p1, evs)
  | _ => none

/-- The loop of `update_max_fd`, `none` if a read of `clients[max_fd]` leaves
the table; `clients[max_fd]` is read only when `max_fd > listen_fd`. -/
def update_max_fd_checked_loop : Nat → Pool → Option Pool
  | 0, p => some p
  | n + 1, p =>
    if p.max_fd > p.listen_fd then
      match tbl_get p.clients p.max_fd with
      | none => none
      | some none => update_max_fd_checked_loop n { p with max_fd := p.max_fd - 1 }
      | some (some _) => some p
    else some p

def update_max_fd_checked (p : Pool) : Option Pool :=
  update_max_fd_checked_loop (p.max_fd - p.listen_fd).toNat p

def remove_client_checked (p : Pool) (client_fd : Int) : Option (Pool × List Event) :=
  match tbl_set_checked p.read_set client_fd false with
  | none => none
  | some rs =>
    let p1 := { p with read_set := rs }
    match tbl_set_checked p1.clients client_fd none with
    | none => none
    | some cl =>
      match update_max_fd_checked { p1 with clients := cl } with
      | none => none
      | some q => some (q, [Event.close client_fd])

/-- The body of the loop of `communicate` for slot `i`, `none` if an access
leaves a table or the slot is empty. -/
def communicate_service_checked (i : Int) (p : Pool) (n : Int) (data : List Char) :
    Option (Pool × List Event) :=
  match tbl_get p.clients i with
  | some (some c) =>
    let r := recv_msg c n data
    match tbl_set_checked p.clients i (some r.2.1) with
    | none => none
    | some cl =>
      let p1 := { p with clients := cl }
      if r.1 = 0 then
        match broadcast_checked r.2.1.id p1 r.2.1.last_msg.buf r.2.1.last_msg.size.toNat with
        | none => none
        | some ev1 =>
          match remove_client_checked p1 i with
          | none => none
          | some r2 => some (r2.1, r.2.2 ++ ev1 ++ r2.2)
      else
        match send_msg_checked i p1 with
        | none => none
        | some r2 => some (r2.1, r.2.2 ++ r2.2)
  | _ => none

/-- The loop of `communicate`, `none` if a read of `clients[i]` or of the ready
set leaves its table; `FD_ISSET(i, ready_set)` is evaluated only for a live
slot. -/
def communicate_checked_loop (recv : Int → Int × List Char) (ready_set : List Bool) :
    Nat → Int → Int → Pool → Option (Pool × List Event)
  | 0, _, _, p => some (p, [])
  | fuel + 1, i, n_ready, p =>
    if i ≤ p.max_fd ∧ n_ready ≠ 0 then
      match tbl_get p.clients i with
      | none => none
      | some none => communicate_checked_loop recv ready_set fuel (i + 1) n_ready p
      | some (some c) =>
        match tbl_get ready_set i with
        | none => none
        | some false => communicate_checked_loop recv ready_set fuel (i + 1) n_ready p
        | some true =>
          match communicate_service_checked i p (recv c.fd).1 (recv c.fd).2 with
          | none => none
          | some r =>
            match communicate_checked_loop recv ready_set fuel (i + 1) (n_ready - 1) r.1 with
            | none => none
            | some r2 => some (r2.1, r.2 ++ r2.2)
    else some (p, [])

def communicate_checked (recv : Int → Int × List Char) (p : Pool) (ready_set : List Bool)
    (n_ready : Int) : Option (Pool × List Event) :=
  communicate_checked_loop recv ready_set (p.max_fd + 1).toNat 0 n_ready p

def perform_checked (FD_SETSIZE : Nat) (connfd : Int) (recv : Int → Int × List Char)
    (p : Pool) (ready_set : List Bool) (n_ready : Int) : Option (Int × Pool × List Event) :=
  match tbl_get ready_set p.listen_fd with
  | none => none
  | some true =>
    match add_client_checked FD_SETSIZE p connfd with
    | none => none
    | some r =>
      if r.1 = -1 then some (-1, r.2.1, r.2.2)
      else
        match tbl_get r.2.1.clients r.1 with
        | some (some c) =>
          match broadcast_checked c.id r.2.1 c.first_msg.buf c.first_msg.size.toNat with
          | none => none
          | some ev1 =>
            match communicate_checked recv r.2.1 ready_set (n_ready - 1) with
            | none => none
            | some r2 => some (0, r2.1, r.2.2 ++ ev1 ++ r2.2)
        | _ => none
  | some false =>
    match communicate_checked recv p ready_set n_ready with
    | none => none
    | some r2 => some (0, r2.1, r2.2)

def run_iteration_checked (FD_SETSIZE : Nat) (p : Pool) (t : Tick) :
    Option (Outcome × List Event) :=
  if t.n_ready = -1 then
    some (Outcome.exit_failure, [Event.write STDERR_FILENO E_FATAL_ERROR])
  else
    match perform_checked FD_SETSIZE t.connfd t.recv p t.ready_set t.n_ready with
    | none => none
    | some r =>
      if r.1 = -1 then
        some (Outcome.exit_failure, r.2.2 ++ [Event.write STDERR_FILENO E_FATAL_ERROR])
      else some (Outcome.next r.2.1, r.2.2)

def run_loop_checked (FD_SETSIZE : Nat) : Pool → List Tick → Option (Outcome × List Event)
  | p, [] => some (Outcome.next p, [])
  | p, t :: ts =>
    match run_iteration_checked FD_SETSIZE p t with
    | none => none
    | some (Outcome.next p1, ev) =>
      match run_loop_checked FD_SETSIZE p1 ts with
      | none => none
      | some r => some (r.1, ev ++ r.2)
    | some (Outcome.exit_failure, ev) => some (Outcome.exit_failure, ev)

def run_checked (FD_SETSIZE : Nat) (listen_fd : Int) (ticks : List Tick) :
    Option (Outcome × List Event) :=
  match construct_pool_checked FD_SETSIZE listen_fd with
  | none => none
  | some p => run_loop_checked FD_SETSIZE p ticks

/-- The bounds that keep every table access of the event loop inside its
table. -/
structure TableBounds (FD_SETSIZE : Nat) (p : Pool) : Prop where
  clients_len : p.clients.length = FD_SETSIZE
  set_len : p.read_set.length = FD_SETSIZE
  listen_lo : 0 ≤ p.listen_fd
  max_lo : p.listen_fd ≤ p.max_fd
  max_hi : p.max_fd < FD_SETSIZE

/-- A tick the operating system can supply: `accept` returns -1 or a
descriptor that is not negative, and the ready set is an `fd_set`. -/
def Tick.valid (FD_SETSIZE : Nat) (t : Tick) : Prop :=
  (t.connfd = -1 ∨ 0 ≤ t.connfd) ∧ t.ready_set.length = FD_SETSIZE


/-! ## Example data -/

/-- A ready set over 8 descriptors in which only descriptor 3 is ready. -/
def ready_listener : List Bool := [false, false, false, true, false, false, false, false]

/-- Reads that all return zero bytes. -/
def no_data : Int → Int × List Char := fun _ => (0, [])

/-- The pool of listener 3 (`FD_SETSIZE` 8) after client 0 is accepted on
descriptor 4. -/
def pool_A : Pool := (add_client 8 (construct_pool 8 3) 4).2.1

/-- The pool `pool_A` after client 1 is accepted on descriptor 5. -/
def pool_AB : Pool := (add_client 8 pool_A 5).2.1

/-- A run of operations: two accepts, a removal, a failed accept, an accept
over capacity, an accept that reuses descriptor 4, and a read. -/
def example_ops : List Op :=
  [Op.accept 4, Op.accept 5, Op.remove 4, Op.accept (-1), Op.accept 9, Op.accept 4,
    Op.read 5 3 "hi\n".toList]

/-- The pool of listener 3 (`FD_SETSIZE` 8) after `example_ops`. -/
def example_pool : Pool := example_ops.foldl (Op.apply 8) (construct_pool 8 3)

/-- A ready set over 8 descriptors: the listener 3 and descriptors 4 and 5. -/
def ready_all : List Bool := [false, false, false, true, true, true, false, false]

/-- Reads that all return the three bytes `hi\n`. -/
def hello : Int → Int × List Char := fun _ => (3, "hi\n".toList)

/-- A tick in which only the listener is ready and `accept` returns 4. -/
def tick_accept : Tick :=
  { n_ready := 1, ready_set := ready_listener, connfd := 4, recv := no_data }

/-- A tick in which the listener and descriptor 4 are ready, `accept` returns
5, and the read on descriptor 4 returns zero bytes. -/
def tick_leave : Tick :=
  { n_ready := 2, ready_set := [false, false, false, true, true, false, false, false],
    connfd := 5, recv := no_data }

/-! # Theorems -/

/-! ### Buffer lemmas -/

theorem ft_memcpy_eq (dest src : List Char) (n : Nat)
    (hs : n ≤ src.length) (hd : n ≤ dest.length) :
    ft_memcpy dest src n = src.take n ++ dest.drop n := by
  unfold ft_memcpy
  induction n with
  | zero => simp
  | succ k ih =>
    have hk : k < src.length := by omega
    have hd2 : k < dest.length := by omega
    rw [List.range_succ, List.foldl_append, ih (by omega) (by omega)]
    simp only [List.foldl_cons, List.foldl_nil]
    rw [List.getD_eq_getElem _ _ hk]
    have hlen : (src.take k).length = k := by simp; omega
    rw [List.set_append_right _ _ (by omega), hlen, Nat.sub_self]
    rw [List.take_succ, List.getElem?_eq_getElem hk, List.drop_eq_getElem_cons hd2]
    simp only [List.set_cons_zero, Option.toList_some, List.append_assoc, List.singleton_append]

theorem Vla.init_ok : VlaOk Vla.init :=
  ⟨by simp [Vla.init, ft_xmalloc], by simp [Vla.init], ⟨0, by simp [Vla.init]⟩⟩

theorem Vla.init_contents : Vla.init.contents = [] := by
  simp [Vla.init, Vla.contents]

theorem mem_read_eq_take (data : List Char) (size : Nat) (h : size ≤ data.length) :
    mem_read data size = data.take size := by
  apply List.ext_getElem
  · simp [mem_read]; omega
  · intro i h1 h2
    simp [mem_read] at h1
    have hi : i < data.length := by omega
    simp [mem_read, List.getElem?_eq_getElem hi]

theorem expand_ok (v : Vla) (h : VlaOk v) :
    VlaOk (expand_buf_if_needed v) ∧ (expand_buf_if_needed v).size = v.size ∧
    (expand_buf_if_needed v).contents = v.contents ∧
    (expand_buf_if_needed v).size < (expand_buf_if_needed v).cap := by
  obtain ⟨hl, hf, k, hk⟩ := h
  unfold expand_buf_if_needed
  by_cases hlt : v.size < v.cap
  · rw [if_pos hlt]
    exact ⟨⟨hl, hf, k, hk⟩, rfl, rfl, hlt⟩
  · have hsz : v.size = v.cap := by omega
    have hpos : 0 < v.cap := by rw [hk]; positivity
    rw [if_neg hlt]
    have hcpy := ft_memcpy_eq (ft_xmalloc (v.cap * 2)) v.buf v.size (by omega)
      (by simp [ft_xmalloc]; omega)
    simp only [hcpy]
    refine ⟨⟨?_, ?_, k + 1, ?_⟩, ?_, ?_, ?_⟩
    · simp [ft_xmalloc]; omega
    · show v.size ≤ v.cap * 2
      omega
    · show v.cap * 2 = 2 ^ (k + 1)
      rw [hk, pow_succ]
    · trivial
    · show List.take v.size (List.take v.size v.buf ++ _) = List.take v.size v.buf
      rw [List.take_append_of_le_length (by simp; omega)]
      simp
    · show v.size < v.cap * 2
      omega

theorem push_back_ok (v : Vla) (c : Char) (h : VlaOk v) :
    VlaOk (push_back v c) ∧ (push_back v c).size = v.size + 1 ∧
    (push_back v c).contents = v.contents ++ [c] := by
  obtain ⟨⟨hl, hf, hp⟩, hs, hc, hlt⟩ := expand_ok v h
  unfold push_back
  generalize expand_buf_if_needed v = w at *
  have hw : w.size < w.buf.length := by omega
  refine ⟨⟨?_, ?_, hp⟩, ?_, ?_⟩
  · show (w.buf.set w.size c).length = w.cap
    simpa using hl
  · show w.size + 1 ≤ w.cap
    omega
  · show w.size + 1 = v.size + 1
    omega
  · show List.take (w.size + 1) (w.buf.set w.size c) = v.contents ++ [c]
    rw [← hc, List.take_succ]
    simp only [Vla.contents]
    rw [List.getElem?_set_self (by simpa using hw)]
    congr 1
    apply List.ext_getElem
    · simp
    · intro i h1 h2
      simp at h1
      simp [List.getElem_take, List.getElem_set]
      omega

theorem foldl_push_back_ok (bytes : List Char) (v : Vla) (h : VlaOk v) :
    VlaOk (bytes.foldl push_back v) ∧ (bytes.foldl push_back v).size = v.size + bytes.length ∧
    (bytes.foldl push_back v).contents = v.contents ++ bytes := by
  induction bytes generalizing v with
  | nil => exact ⟨h, by simp, by simp⟩
  | cons b rest ih =>
    obtain ⟨h1, h2, h3⟩ := push_back_ok v b h
    obtain ⟨k1, k2, k3⟩ := ih (push_back v b) h1
    refine ⟨k1, ?_, ?_⟩
    · rw [List.foldl_cons, k2, h2, List.length_cons]; omega
    · rw [List.foldl_cons, k3, h3, List.append_assoc, List.singleton_append]

/-! ## C8: buffer growth -/

/-- C8. Appending the bytes of any sequence, one `push_back` per byte, to the
initial buffer (size 0, capacity 1) gives a buffer whose size is the number of
bytes appended, whose first bytes are the appended bytes in order, and whose
capacity (the size of its block) is a power of two that is at least that
number. -/
theorem push_back_growth (bytes : List Char) :
    (bytes.foldl push_back Vla.init).size = bytes.length ∧
    (bytes.foldl push_back Vla.init).buf.take bytes.length = bytes ∧
    (∃ k, (bytes.foldl push_back Vla.init).cap = 2 ^ k) ∧
    bytes.length ≤ (bytes.foldl push_back Vla.init).cap ∧
    (bytes.foldl push_back Vla.init).buf.length = (bytes.foldl push_back Vla.init).cap := by
  obtain ⟨⟨hl, hf, hp⟩, hs, hc⟩ := foldl_push_back_ok bytes Vla.init Vla.init_ok
  have hs2 : (bytes.foldl push_back Vla.init).size = bytes.length := by
    rw [hs]; simp [Vla.init]
  refine ⟨hs2, ?_, hp, ?_, hl⟩
  · rw [← hs2]
    simpa [Vla.contents, Vla.init] using hc
  · omega

/-! ### The loop of `send_msg` -/

theorem push_back_bytes_ok (v : Vla) (d : Bytes) (h : VlaOk v) :
    VlaOk (push_back_bytes v d) ∧ (push_back_bytes v d).contents = v.contents ++ d.contents := by
  have e : push_back_bytes v d = (d.contents).foldl push_back v := by
    unfold push_back_bytes Bytes.contents mem_read
    rw [List.foldl_map]
    rfl
  rw [e]
  exact ⟨(foldl_push_back_ok _ v h).1, (foldl_push_back_ok _ v h).2.2⟩

theorem send_msg_fold (c : Client) (idx : List Nat) (c0 : Client) (v0 : Vla) (h : VlaOk v0)
    (hp : Client.line_prefix c0 = Client.line_prefix c) (hr : c0.recv_data = c.recv_data) :
    let r := idx.foldl
      (fun (s : Client × Vla) i =>
        let vla := if s.1.is_new_line then push_back_bytes s.2 ( Client.line_prefix s.1) else s.2
        let vla := push_back vla (s.1.recv_data.at i)
        ({ s.1 with is_new_line := (s.1.recv_data.at i == NL) }, vla))
      (c0, v0)
    let t := line_transform ( Client.line_prefix c).contents c0.is_new_line (idx.map c.recv_data.at)
    r.1 = { c0 with is_new_line := t.2 } ∧ VlaOk r.2 ∧ r.2.contents = v0.contents ++ t.1 := by
  induction idx generalizing c0 v0 with
  | nil => simp [line_transform, h]
  | cons i rest ih =>
    simp only [List.foldl_cons, List.map_cons, line_transform]
    have hv : VlaOk (if c0.is_new_line then push_back_bytes v0 ( Client.line_prefix c0) else v0) ∧
        (if c0.is_new_line then push_back_bytes v0 ( Client.line_prefix c0) else v0).contents =
          v0.contents ++ (if c0.is_new_line then ( Client.line_prefix c).contents else []) := by
      cases hb : c0.is_new_line
      · simp [h]
      · simp only [if_true]
        rw [← hp]
        exact push_back_bytes_ok v0 _ h
    obtain ⟨hv1, hv2⟩ := hv
    obtain ⟨w1, w2, w3⟩ := push_back_ok _ (c0.recv_data.at i) hv1
    have := ih { c0 with is_new_line := (c0.recv_data.at i == NL) } _ w1 hp hr
    simp only at this
    obtain ⟨k1, k2, k3⟩ := this
    rw [hr] at k1 k2 k3 w3
    rw [hr]
    refine ⟨k1, k2, ?_⟩
    rw [k3, w3, hv2]
    simp

theorem send_msg_loop_eq (c : Client) :
    (send_msg_loop c).1 =
      { c with is_new_line :=
          (line_transform ( Client.line_prefix c).contents c.is_new_line c.recv_data.contents).2 } ∧
    send_msg_payload c =
      (line_transform ( Client.line_prefix c).contents c.is_new_line c.recv_data.contents).1 := by
  have h := send_msg_fold c (List.range c.recv_data.size.toNat) c Vla.init Vla.init_ok rfl rfl
  simp only at h
  obtain ⟨h1, h2, h3⟩ := h
  change VlaOk (send_msg_loop c).2 at h2
  change (send_msg_loop c).2.contents = _ at h3
  refine ⟨h1, ?_⟩
  unfold send_msg_payload
  rw [mem_read_eq_take _ _ (by rw [h2.len]; exact h2.fits)]
  rw [Vla.init_contents, List.nil_append] at h3
  exact h3

theorem recv_msg_contents (c : Client) (data : List Char) :
    (recv_msg c data.length data).2.1.recv_data.contents = data := by
  simp only [recv_msg, Bytes.contents, Int.toNat_ofNat]
  rw [mem_read_eq_take _ _ (by simp)]
  simp

theorem deliver_eq (c : Client) (data : List Char) :
    (deliver c data).2 = (line_transform ( Client.line_prefix c).contents c.is_new_line data).1 ∧
    (deliver c data).1.is_new_line =
      (line_transform ( Client.line_prefix c).contents c.is_new_line data).2 ∧
    Client.line_prefix (deliver c data).1 = Client.line_prefix c := by
  obtain ⟨h1, h2⟩ := send_msg_loop_eq (recv_msg c data.length data).2.1
  rw [recv_msg_contents] at h1 h2
  simp only [deliver]
  rw [h1, h2]
  exact ⟨rfl, rfl, rfl⟩

theorem line_transform_append (P : List Char) (b : Bool) (xs ys : List Char) :
    line_transform P b (xs ++ ys) =
      ((line_transform P b xs).1 ++ (line_transform P (line_transform P b xs).2 ys).1,
        (line_transform P (line_transform P b xs).2 ys).2) := by
  induction xs generalizing b with
  | nil => simp [line_transform]
  | cons x rest ih => simp [line_transform, ih]

theorem session_eq (c : Client) (chunks : List (List Char)) :
    (session c chunks).2.flatten =
      (line_transform ( Client.line_prefix c).contents c.is_new_line chunks.flatten).1 ∧
    (session c chunks).1.is_new_line =
      (line_transform ( Client.line_prefix c).contents c.is_new_line chunks.flatten).2 := by
  induction chunks generalizing c with
  | nil => simp [session, line_transform]
  | cons chunk rest ih =>
    obtain ⟨d1, d2, d3⟩ := deliver_eq c chunk
    obtain ⟨i1, i2⟩ := ih (deliver c chunk).1
    simp only [session, List.flatten_cons, line_transform_append]
    rw [i1, i2, d1, d2, d3]
    exact ⟨rfl, rfl⟩

theorem getElem?_append_cons_length (pre : List Char) (x : Char) (xs : List Char) :
    (pre ++ x :: xs)[pre.length]? = some x := by
  rw [List.getElem?_append_right (Nat.le_refl _)]
  simp

theorem line_transform_index (P pre D : List Char) (b : Bool)
    (hb : b = is_line_start (pre ++ D) pre.length) :
    (line_transform P b D).1 =
      (List.range D.length).flatMap
        (fun i => (if is_line_start (pre ++ D) (pre.length + i) then P else []) ++
          [(pre ++ D).getD (pre.length + i) NUL]) := by
  induction D generalizing pre b with
  | nil => simp [line_transform]
  | cons x xs ih =>
    have hb2 : (x == NL) = is_line_start ((pre ++ [x]) ++ xs) (pre ++ [x]).length := by
      simp only [is_line_start, List.length_append, List.length_singleton, Nat.add_sub_cancel,
        List.append_assoc, List.singleton_append, List.get?_eq_getElem?,
        getElem?_append_cons_length]
      simp
    have := ih (pre ++ [x]) (x == NL) hb2
    simp only [List.append_assoc, List.singleton_append, List.length_append,
      List.length_singleton] at this
    simp only [line_transform, List.length_cons, List.range_succ_eq_map, List.flatMap_cons,
      List.flatMap_map]
    rw [this]
    simp only [Nat.add_zero]
    subst hb
    have hx : (pre ++ x :: xs).getD pre.length NUL = x := by
      rw [List.getD_eq_getElem?_getD, getElem?_append_cons_length]
      rfl
    rw [hx]
    simp only [List.append_assoc, List.singleton_append]
    congr 2
    apply List.flatMap_congr
    intro i _
    simp only [Function.comp, Nat.succ_eq_add_one]
    rw [show pre.length + 1 + i = pre.length + (i + 1) by omega]

theorem line_transform_inner (P : List Char) (b : Bool) (x : Char) (xs : List Char) :
    (line_transform P b (x :: xs)).1 =
      (if b then P else []) ++ insert_after_inner_terminators P (x :: xs) := by
  induction xs generalizing b x with
  | nil => simp [line_transform, insert_after_inner_terminators]
  | cons y ys ih =>
    rw [line_transform, ih]
    simp [insert_after_inner_terminators]

theorem sprintf_contents (s : String) : (sprintf s).contents = s.toList := by
  cases s with
  | mk data =>
    show mem_read data (Int.toNat data.length) = data
    rw [Int.toNat_ofNat, mem_read_eq_take _ _ (Nat.le_refl _), List.take_length]

theorem create_client_prefix (fd : Int) (id : Nat) :
    ( Client.line_prefix (create_client fd id)).contents =
      ("client " ++ Nat.repr id ++ ": ").toList :=
  sprintf_contents _

/-! ### Table lemmas -/

theorem tbl_set_length {α : Type} (t : List α) (i : Int) (v : α) :
    (tbl_set t i v).length = t.length := by
  unfold tbl_set
  split <;> simp

theorem tbl_get_set {α : Type} (t : List α) (i j : Int) (v : α) :
    tbl_get (tbl_set t i v) j =
      if i = j ∧ 0 ≤ i ∧ i < t.length then some v else tbl_get t j := by
  unfold tbl_get tbl_set
  by_cases hj : j < 0
  · have : ¬ (i = j ∧ 0 ≤ i ∧ i < t.length) := by omega
    simp [hj, this]
  · by_cases hi : i < 0
    · have : ¬ (i = j ∧ 0 ≤ i ∧ i < t.length) := by omega
      simp [hj, hi, this]
    · simp only [hj, hi, if_false, List.get?_eq_getElem?]
      by_cases hij : i = j
      · subst hij
        by_cases hlt : i < t.length
        · have h2 : i.toNat < t.length := by omega
          simp [hlt, h2, List.getElem?_set_self, show 0 ≤ i by omega]
        · have h2 : ¬ i.toNat < t.length := by omega
          have h3 : t.length ≤ i.toNat := by omega
          simp [hlt, List.getElem?_eq_none h3, h3]
      · have h2 : i.toNat ≠ j.toNat := by omega
        simp [hij, List.getElem?_set_ne h2]

theorem tbl_get_none {α : Type} (t : List α) (i : Int) (h : i < 0 ∨ (t.length : Int) ≤ i) :
    tbl_get t i = none := by
  unfold tbl_get
  by_cases hi : i < 0
  · simp [hi]
  · have : t.length ≤ i.toNat := by omega
    simp [hi, List.getElem?_eq_none this]

theorem slot_none_of_range (p : Pool) (i : Int) (h : i < 0 ∨ (p.clients.length : Int) ≤ i) :
    p.slot i = none := by
  simp [Pool.slot, tbl_get_none _ _ h]

theorem slot_range (p : Pool) (i : Int) (c : Client) (h : p.slot i = some c) :
    0 ≤ i ∧ i < p.clients.length := by
  by_contra hc
  rw [slot_none_of_range p i (by omega)] at h
  exact Option.noConfusion h

theorem slot_set_some (p : Pool) (i j : Int) (c : Client) (cl : List (Option Client))
    (hcl : cl = tbl_set p.clients i (some c)) (q : Pool) (hq : q.clients = cl) :
    q.slot j = if i = j ∧ 0 ≤ i ∧ i < p.clients.length then some c else p.slot j := by
  simp only [Pool.slot, hq, hcl, tbl_get_set]
  split <;> simp

theorem slot_set_none (p : Pool) (i j : Int) (q : Pool)
    (hq : q.clients = tbl_set p.clients i none) :
    q.slot j = if i = j then none else p.slot j := by
  simp only [Pool.slot, hq, tbl_get_set]
  by_cases hij : i = j
  · subst hij
    by_cases hr : 0 ≤ i ∧ i < p.clients.length
    · simp [hr]
    · simp [hr, tbl_get_none p.clients i (by omega)]
  · simp [hij]

/-! ### The pool operations preserve the invariant -/

theorem construct_pool_inv (F : Nat) (lfd : Int) (h0 : 0 ≤ lfd) (h1 : lfd < F) :
    PoolInv F (construct_pool F lfd) := by
  have hs : ∀ i, (construct_pool F lfd).slot i = none := by
    intro i
    simp only [Pool.slot, construct_pool, tbl_get]
    split
    · rfl
    · cases h : (List.replicate F (none : Option Client)).get? i.toNat with
      | none => rfl
      | some v =>
        have := List.get?_mem h
        rw [List.mem_replicate] at this
        simp [this.2]
  refine ⟨by simp [construct_pool], ?_, h0, h1, le_refl _, h1, ?_, ?_, Or.inl rfl⟩
  · simp [construct_pool, FD_SET, FD_ZERO, tbl_set_length]
  · intro i c h
    rw [hs] at h
    exact Option.noConfusion h
  · intro i j c d h
    rw [hs] at h
    exact Option.noConfusion h

theorem add_client_reject (F : Nat) (p : Pool) (connfd : Int)
    (h : connfd = -1 ∨ connfd ≥ F) :
    add_client F p connfd = (-1, p, [Event.accept p.listen_fd connfd]) := by
  unfold add_client
  rw [if_pos h]

theorem add_client_accept (F : Nat) (p : Pool) (connfd : Int)
    (h : ¬ (connfd = -1 ∨ connfd ≥ F)) :
    (add_client F p connfd).1 = connfd ∧
    (add_client F p connfd).2.2 = [Event.accept p.listen_fd connfd] ∧
    (add_client F p connfd).2.1.max_fd = max p.max_fd connfd ∧
    (add_client F p connfd).2.1.listen_fd = p.listen_fd ∧
    (add_client F p connfd).2.1.read_set = FD_SET connfd p.read_set ∧
    (add_client F p connfd).2.1.next_id = p.next_id + 1 ∧
    (add_client F p connfd).2.1.clients =
      tbl_set p.clients connfd (some (create_client connfd p.next_id)) := by
  unfold add_client
  rw [if_neg h]
  by_cases hm : connfd > p.max_fd
  · simp only [hm, if_true, true_and, and_true]
    omega
  · simp only [hm, if_false, true_and, and_true]
    omega

theorem add_client_slot (F : Nat) (p : Pool) (connfd : Int) (hinv : PoolInv F p)
    (h0 : 0 ≤ connfd) (h1 : connfd < F) (j : Int) :
    (add_client F p connfd).2.1.slot j =
      if connfd = j then some (create_client connfd p.next_id) else p.slot j := by
  obtain ⟨_, _, _, _, _, _, hc⟩ := add_client_accept F p connfd (by omega)
  rw [slot_set_some p connfd j _ _ rfl _ hc, hinv.clients_len]
  by_cases hj : connfd = j
  · subst hj
    rw [if_pos ⟨rfl, h0, by exact_mod_cast h1⟩, if_pos rfl]
  · rw [if_neg (fun h => hj h.1), if_neg hj]

theorem add_client_inv (F : Nat) (p : Pool) (connfd : Int) (hinv : PoolInv F p)
    (hok : connfd = -1 ∨ (p.listen_fd < connfd ∧ p.slot connfd = none)) :
    PoolInv F (add_client F p connfd).2.1 := by
  by_cases hrej : connfd = -1 ∨ connfd ≥ F
  · rw [add_client_reject F p connfd hrej]
    exact hinv
  · have hl : p.listen_fd < connfd := by
      rcases hok with h | h
      · exact absurd (Or.inl h) hrej
      · exact h.1
    have hfresh : p.slot connfd = none := by
      rcases hok with h | h
      · exact absurd (Or.inl h) hrej
      · exact h.2
    have h0 : 0 ≤ connfd := by have := hinv.listen_lo; omega
    have h1 : connfd < F := by omega
    obtain ⟨_, _, hmax, hlis, hset, hnext, hc⟩ := add_client_accept F p connfd hrej
    have hslot := add_client_slot F p connfd hinv h0 h1
    generalize (add_client F p connfd).2.1 = q at *
    have hml := hinv.max_lo
    have hmh := hinv.max_hi
    refine ⟨?_, ?_, ?_, ?_, ?_, ?_, ?_, ?_, ?_⟩
    · rw [hc, tbl_set_length, hinv.clients_len]
    · rw [hset, FD_SET, tbl_set_length, hinv.set_len]
    · rw [hlis]; exact hinv.listen_lo
    · rw [hlis]; exact hinv.listen_hi
    · rw [hlis, hmax]; omega
    · rw [hmax]; omega
    · intro i c hs
      rw [hslot i] at hs
      by_cases hi : connfd = i
      · rw [if_pos hi] at hs
        have hc2 : c = create_client connfd p.next_id := (Option.some.inj hs).symm
        subst hi
        rw [hlis, hmax, hnext, hc2]
        refine ⟨hl, by omega, rfl, ?_, rfl, rfl, rfl⟩
        show p.next_id < p.next_id + 1
        omega
      · rw [if_neg hi] at hs
        obtain ⟨a1, a2, a3, a4, a5⟩ := hinv.live i c hs
        rw [hlis, hmax, hnext]
        exact ⟨a1, by omega, a3, by omega, a5⟩
    · intro i j c d hi hj hid
      rw [hslot i] at hi
      rw [hslot j] at hj
      by_cases ci : connfd = i <;> by_cases cj : connfd = j
      · omega
      · rw [if_pos ci] at hi
        rw [if_neg cj] at hj
        have hc2 : c = create_client connfd p.next_id := (Option.some.inj hi).symm
        have := (hinv.live j d hj).2.2.2.1
        rw [hc2] at hid
        have : (create_client connfd p.next_id).id = p.next_id := rfl
        omega
      · rw [if_neg ci] at hi
        rw [if_pos cj] at hj
        have hc2 : d = create_client connfd p.next_id := (Option.some.inj hj).symm
        have := (hinv.live i c hi).2.2.2.1
        rw [hc2] at hid
        have : (create_client connfd p.next_id).id = p.next_id := rfl
        omega
      · rw [if_neg ci] at hi
        rw [if_neg cj] at hj
        exact hinv.ids i j c d hi hj hid
    · rw [hmax, hlis]
      by_cases hm : p.max_fd < connfd
      · right
        rw [show max p.max_fd connfd = connfd by omega, hslot, if_pos rfl]
        exact Option.noConfusion
      · rw [show max p.max_fd connfd = p.max_fd by omega]
        rcases hinv.top with h | h
        · omega
        · right
          rw [hslot]
          have : connfd ≠ p.max_fd := by
            intro he
            rw [← he, hfresh] at h
            exact h rfl
          rw [if_neg this]
          exact h

theorem update_max_fd_loop_spec (n : Nat) (p : Pool)
    (hn : (p.max_fd - p.listen_fd).toNat ≤ n) :
    (update_max_fd_loop n p).listen_fd = p.listen_fd ∧
    (update_max_fd_loop n p).read_set = p.read_set ∧
    (update_max_fd_loop n p).next_id = p.next_id ∧
    (update_max_fd_loop n p).clients = p.clients ∧
    (update_max_fd_loop n p).max_fd ≤ p.max_fd ∧
    (p.listen_fd ≤ p.max_fd → p.listen_fd ≤ (update_max_fd_loop n p).max_fd) ∧
    ¬ ((update_max_fd_loop n p).max_fd > p.listen_fd ∧
        p.slot (update_max_fd_loop n p).max_fd = none) ∧
    (∀ j, (update_max_fd_loop n p).max_fd < j → j ≤ p.max_fd → p.slot j = none) := by
  induction n generalizing p with
  | zero =>
    have e : update_max_fd_loop 0 p = p := rfl
    rw [e]
    refine ⟨rfl, rfl, rfl, rfl, le_refl _, fun h => h, ?_, ?_⟩
    · intro h; omega
    · intro j h1 h2; omega
  | succ k ih =>
    unfold update_max_fd_loop
    by_cases hc : p.max_fd > p.listen_fd ∧ p.slot p.max_fd = none
    · rw [if_pos hc]
      obtain ⟨a1, a2, a3, a4, a5, a6, a7, a8⟩ := ih { p with max_fd := p.max_fd - 1 }
        (by show (p.max_fd - 1 - p.listen_fd).toNat ≤ k; omega)
      refine ⟨a1, a2, a3, a4, ?_, ?_, a7, ?_⟩
      · have : (update_max_fd_loop k { p with max_fd := p.max_fd - 1 }).max_fd ≤ p.max_fd - 1 := a5
        omega
      · intro _
        exact a6 (by show p.listen_fd ≤ p.max_fd - 1; omega)
      · intro j h1 h2
        by_cases hj : j = p.max_fd
        · rw [hj]; exact hc.2
        · exact a8 j h1 (by show j ≤ p.max_fd - 1; omega)
    · rw [if_neg hc]
      refine ⟨rfl, rfl, rfl, rfl, le_refl _, fun h => h, hc, ?_⟩
      intro j h1 h2; omega

/-- The iteration bound of `update_max_fd` is never what stops its loop: any
larger bound gives the same pool. -/
theorem update_max_fd_loop_fuel (n : Nat) (p : Pool)
    (hn : (p.max_fd - p.listen_fd).toNat ≤ n) :
    update_max_fd_loop n p = update_max_fd p := by
  unfold update_max_fd
  induction n generalizing p with
  | zero =>
    have : (p.max_fd - p.listen_fd).toNat = 0 := by omega
    rw [this]
  | succ k ih =>
    by_cases hc : p.max_fd > p.listen_fd ∧ p.slot p.max_fd = none
    · have hv : (p.max_fd - p.listen_fd).toNat = (p.max_fd - 1 - p.listen_fd).toNat + 1 := by
        omega
      rw [hv]
      simp only [update_max_fd_loop, if_pos hc]
      exact ih { p with max_fd := p.max_fd - 1 }
        (by show (p.max_fd - 1 - p.listen_fd).toNat ≤ k; omega)
    · cases hm : (p.max_fd - p.listen_fd).toNat with
      | zero => simp only [update_max_fd_loop, if_neg hc]
      | succ m => simp only [update_max_fd_loop, if_neg hc]

theorem slot_congr (p q : Pool) (h : q.clients = p.clients) (j : Int) : q.slot j = p.slot j := by
  simp [Pool.slot, h]

theorem remove_client_spec (p : Pool) (i : Int) :
    (remove_client p i).2 = [Event.close i] ∧
    (remove_client p i).1.listen_fd = p.listen_fd ∧
    (remove_client p i).1.read_set = FD_CLR i p.read_set ∧
    (remove_client p i).1.next_id = p.next_id ∧
    (remove_client p i).1.clients = tbl_set p.clients i none ∧
    (∀ j, (remove_client p i).1.slot j = if i = j then none else p.slot j) ∧
    (remove_client p i).1.max_fd ≤ p.max_fd ∧
    (p.listen_fd ≤ p.max_fd → p.listen_fd ≤ (remove_client p i).1.max_fd) ∧
    ¬ ((remove_client p i).1.max_fd > p.listen_fd ∧
        (remove_client p i).1.slot (remove_client p i).1.max_fd = none) ∧
    (∀ j, (remove_client p i).1.max_fd < j → j ≤ p.max_fd →
      (remove_client p i).1.slot j = none) := by
  have hq : (remove_client p i).1 = update_max_fd
      { p with read_set := FD_CLR i p.read_set, clients := tbl_set p.clients i none } := rfl
  rw [hq]
  generalize hp2 : ({ p with read_set := FD_CLR i p.read_set, clients := tbl_set p.clients i none } : Pool) = p2
  have e1 : p2.listen_fd = p.listen_fd := by rw [← hp2]
  have e2 : p2.read_set = FD_CLR i p.read_set := by rw [← hp2]
  have e3 : p2.next_id = p.next_id := by rw [← hp2]
  have e4 : p2.clients = tbl_set p.clients i none := by rw [← hp2]
  have e5 : p2.max_fd = p.max_fd := by rw [← hp2]
  have hs2 : ∀ j, p2.slot j = if i = j then none else p.slot j :=
    fun j => slot_set_none p i j p2 e4
  obtain ⟨a1, a2, a3, a4, a5, a6, a7, a8⟩ :=
    update_max_fd_loop_spec (p2.max_fd - p2.listen_fd).toNat p2 (le_refl _)
  change (update_max_fd p2).listen_fd = _ at a1
  change (update_max_fd p2).read_set = _ at a2
  change (update_max_fd p2).next_id = _ at a3
  change (update_max_fd p2).clients = _ at a4
  change (update_max_fd p2).max_fd ≤ _ at a5
  change _ → _ ≤ (update_max_fd p2).max_fd at a6
  change ¬ ((update_max_fd p2).max_fd > _ ∧ p2.slot (update_max_fd p2).max_fd = none) at a7
  change ∀ j, (update_max_fd p2).max_fd < j → _ at a8
  generalize update_max_fd p2 = q at *
  have hs : ∀ j, q.slot j = p2.slot j := fun j => slot_congr p2 q a4 j
  refine ⟨rfl, by rw [a1, e1], by rw [a2, e2], by rw [a3, e3], by rw [a4, e4], ?_, ?_, ?_, ?_, ?_⟩
  · intro j; rw [hs, hs2]
  · rw [← e5]; exact a5
  · rw [← e5, ← e1]; exact a6
  · rw [hs, ← e1]; exact a7
  · intro j h1 h2
    rw [hs]
    exact a8 j h1 (by rw [e5]; exact h2)

theorem remove_client_inv (F : Nat) (p : Pool) (i : Int) (hinv : PoolInv F p) :
    PoolInv F (remove_client p i).1 := by
  obtain ⟨_, b1, b2, b3, b4, b5, b6, b7, b8, b9⟩ := remove_client_spec p i
  generalize (remove_client p i).1 = q at *
  have hlive : ∀ j c, q.slot j = some c → p.slot j = some c := by
    intro j c h
    rw [b5] at h
    by_cases hij : i = j
    · rw [if_pos hij] at h; exact Option.noConfusion h
    · rw [if_neg hij] at h; exact h
  refine ⟨?_, ?_, ?_, ?_, ?_, ?_, ?_, ?_, ?_⟩
  · rw [b4, tbl_set_length, hinv.clients_len]
  · rw [b2, FD_CLR, tbl_set_length, hinv.set_len]
  · rw [b1]; exact hinv.listen_lo
  · rw [b1]; exact hinv.listen_hi
  · rw [b1]; exact b7 hinv.max_lo
  · have := hinv.max_hi; omega
  · intro j c h
    obtain ⟨a1, a2, a3, a4, a5⟩ := hinv.live j c (hlive j c h)
    rw [b1, b3]
    refine ⟨a1, ?_, a3, a4, a5⟩
    by_contra hc
    rw [b9 j (by omega) a2] at h
    exact Option.noConfusion h
  · intro j k c d hj hk hid
    exact hinv.ids j k c d (hlive j c hj) (hlive k d hk) hid
  · rw [b1]
    by_cases hm : q.max_fd > p.listen_fd
    · right
      intro hn
      exact b8 ⟨hm, hn⟩
    · left
      have := b7 hinv.max_lo
      omega

theorem store_slot (F : Nat) (p : Pool) (i : Int) (c c2 : Client) (_hinv : PoolInv F p)
    (hs : p.slot i = some c) (j : Int) :
    (p.store i c2).slot j = if i = j then some c2 else p.slot j := by
  have hr := slot_range p i c hs
  rw [slot_set_some p i j c2 _ rfl (p.store i c2) rfl]
  by_cases hij : i = j
  · rw [if_pos ⟨hij, hr.1, hr.2⟩, if_pos hij]
  · rw [if_neg (fun h => hij h.1), if_neg hij]

theorem store_inv (F : Nat) (p : Pool) (i : Int) (c c2 : Client) (hinv : PoolInv F p)
    (hs : p.slot i = some c) (hid : c2.id = c.id) (hfd : c2.fd = c.fd)
    (h1 : c2.first_msg = c.first_msg) (h2 : c2.last_msg = c.last_msg)
    (h3 : Client.line_prefix c2 = Client.line_prefix c) :
    PoolInv F (p.store i c2) := by
  have hslot := store_slot F p i c c2 hinv hs
  have hl := hinv.live i c hs
  refine ⟨?_, hinv.set_len, hinv.listen_lo, hinv.listen_hi, hinv.max_lo, hinv.max_hi, ?_, ?_, ?_⟩
  · show (tbl_set p.clients i (some c2)).length = F
    rw [tbl_set_length, hinv.clients_len]
  · intro j d hj
    rw [hslot] at hj
    by_cases hij : i = j
    · rw [if_pos hij] at hj
      have : d = c2 := (Option.some.inj hj).symm
      subst hij
      rw [this, hid, hfd, h1, h2, h3]
      exact hl
    · rw [if_neg hij] at hj
      exact hinv.live j d hj
  · intro j k d e hj hk hde
    rw [hslot] at hj hk
    by_cases cj : i = j <;> by_cases ck : i = k
    · omega
    · rw [if_pos cj] at hj
      rw [if_neg ck] at hk
      have : d = c2 := (Option.some.inj hj).symm
      rw [this, hid] at hde
      rw [← cj]
      exact hinv.ids i k c e hs hk hde
    · rw [if_neg cj] at hj
      rw [if_pos ck] at hk
      have : e = c2 := (Option.some.inj hk).symm
      rw [this, hid] at hde
      rw [← ck]
      exact hinv.ids j i d c hj hs hde
    · rw [if_neg cj] at hj
      rw [if_neg ck] at hk
      exact hinv.ids j k d e hj hk hde
  · rcases hinv.top with h | h
    · exact Or.inl h
    · right
      show (p.store i c2).slot p.max_fd ≠ none
      rw [hslot]
      by_cases hij : i = p.max_fd
      · rw [if_pos hij]; exact Option.noConfusion
      · rw [if_neg hij]; exact h

/-- The session of slot `i` after `recv_msg`. -/
theorem recv_msg_fields (c : Client) (n : Int) (data : List Char) :
    (recv_msg c n data).1 = n ∧ (recv_msg c n data).2.2 = [Event.recv c.fd n] ∧
    (recv_msg c n data).2.1.id = c.id ∧ (recv_msg c n data).2.1.fd = c.fd ∧
    (recv_msg c n data).2.1.first_msg = c.first_msg ∧
    (recv_msg c n data).2.1.last_msg = c.last_msg ∧
    Client.line_prefix (recv_msg c n data).2.1 = Client.line_prefix c ∧
    (recv_msg c n data).2.1.is_new_line = c.is_new_line :=
  ⟨rfl, rfl, rfl, rfl, rfl, rfl, rfl, rfl⟩

theorem send_msg_loop_fields (c : Client) :
    (send_msg_loop c).1.id = c.id ∧ (send_msg_loop c).1.fd = c.fd ∧
    (send_msg_loop c).1.first_msg = c.first_msg ∧
    (send_msg_loop c).1.last_msg = c.last_msg ∧
    Client.line_prefix (send_msg_loop c).1 = Client.line_prefix c ∧
    (send_msg_loop c).1.recv_data = c.recv_data := by
  rw [(send_msg_loop_eq c).1]
  exact ⟨rfl, rfl, rfl, rfl, rfl, rfl⟩

theorem communicate_service_zero (F : Nat) (p : Pool) (i : Int) (c : Client) (data : List Char)
    (hinv : PoolInv F p) (hs : p.slot i = some c) :
    communicate_service i p 0 data =
      ((remove_client p i).1,
        Event.recv i 0 ::
          (broadcast c.id (p.store i (recv_msg c 0 data).2.1) c.last_msg.buf c.last_msg.size.toNat ++
            [Event.close i])) := by
  have hfd : c.fd = i := (hinv.live i c hs).2.2.1
  unfold communicate_service
  rw [hs]
  simp only [recv_msg_fields, if_true, List.singleton_append, List.cons_append, List.nil_append,
    (remove_client_spec _ _).1, hfd]
  congr 1
  show (remove_client (p.store i (recv_msg c 0 data).2.1) i).1 = (remove_client p i).1
  have e : tbl_set (p.store i (recv_msg c 0 data).2.1).clients i none = tbl_set p.clients i none := by
    apply List.ext_getElem?
    intro k
    have h1 := tbl_get_set (tbl_set p.clients i (some (recv_msg c 0 data).2.1)) i k none
    have h2 := tbl_get_set p.clients i k none
    have h3 := tbl_get_set p.clients i k (some (recv_msg c 0 data).2.1)
    rw [tbl_set_length] at h1
    simp only [tbl_get, show ¬ ((k : Int) < 0) by omega, if_false, Int.toNat_ofNat,
      List.get?_eq_getElem?] at h1 h2 h3
    show (tbl_set (tbl_set p.clients i (some (recv_msg c 0 data).2.1)) i none)[k]? = _
    rw [h1, h2]
    split
    · rfl
    · rename_i hne
      rw [h3, if_neg hne]
  simp only [remove_client, Pool.store] at e ⊢
  rw [e]

theorem communicate_service_data (F : Nat) (p : Pool) (i : Int) (c : Client) (n : Int)
    (data : List Char) (hinv : PoolInv F p) (hs : p.slot i = some c) (hn : n ≠ 0) :
    communicate_service i p n data =
      (p.store i (send_msg_loop (recv_msg c n data).2.1).1,
        Event.recv i n ::
          broadcast c.id (p.store i (send_msg_loop (recv_msg c n data).2.1).1)
            (send_msg_loop (recv_msg c n data).2.1).2.buf
            (send_msg_loop (recv_msg c n data).2.1).2.size) := by
  have hfd : c.fd = i := (hinv.live i c hs).2.2.1
  have hr := slot_range p i c hs
  unfold communicate_service
  rw [hs]
  simp only [recv_msg_fields, if_neg hn, List.singleton_append, hfd]
  have hs1 : (p.store i (recv_msg c n data).2.1).slot i = some (recv_msg c n data).2.1 := by
    rw [store_slot F p i c _ hinv hs, if_pos rfl]
  unfold send_msg
  rw [hs1]
  simp only [(send_msg_loop_fields _).1, recv_msg_fields]
  have e : (p.store i (recv_msg c n data).2.1).store i (send_msg_loop (recv_msg c n data).2.1).1 =
      p.store i (send_msg_loop (recv_msg c n data).2.1).1 := by
    have : tbl_set (tbl_set p.clients i (some (recv_msg c n data).2.1)) i
        (some (send_msg_loop (recv_msg c n data).2.1).1) =
        tbl_set p.clients i (some (send_msg_loop (recv_msg c n data).2.1).1) := by
      apply List.ext_getElem?
      intro k
      have h1 := tbl_get_set (tbl_set p.clients i (some (recv_msg c n data).2.1)) i k
        (some (send_msg_loop (recv_msg c n data).2.1).1)
      have h2 := tbl_get_set p.clients i k (some (send_msg_loop (recv_msg c n data).2.1).1)
      have h3 := tbl_get_set p.clients i k (some (recv_msg c n data).2.1)
      rw [tbl_set_length] at h1
      simp only [tbl_get, show ¬ ((k : Int) < 0) by omega, if_false, Int.toNat_ofNat,
        List.get?_eq_getElem?] at h1 h2 h3
      rw [h1, h2]
      split
      · rfl
      · rename_i hne
        rw [h3, if_neg hne]
    simp only [Pool.store]
    rw [this]
  rw [e]

theorem communicate_service_inv (F : Nat) (p : Pool) (i : Int) (n : Int) (data : List Char)
    (hinv : PoolInv F p) : PoolInv F (communicate_service i p n data).1 := by
  cases hs : p.slot i with
  | none =>
    unfold communicate_service
    rw [hs]
    exact hinv
  | some c =>
    by_cases hn : n = 0
    · subst hn
      rw [communicate_service_zero F p i c data hinv hs]
      exact remove_client_inv F p i hinv
    · rw [communicate_service_data F p i c n data hinv hs hn]
      obtain ⟨a1, a2, a3, a4, a5, _⟩ := send_msg_loop_fields (recv_msg c n data).2.1
      exact store_inv F p i c _ hinv hs a1 a2 a3 a4 a5

theorem Op.apply_inv (F : Nat) (p : Pool) (op : Op) (hinv : PoolInv F p) (hok : op.ok p = true) :
    PoolInv F (op.apply F p) := by
  cases op with
  | accept connfd =>
    apply add_client_inv F p connfd hinv
    simp only [Op.ok, Bool.or_eq_true, beq_iff_eq, Bool.and_eq_true, decide_eq_true_eq,
      Option.isNone_iff_eq_none] at hok
    exact hok
  | remove fd => exact remove_client_inv F p fd hinv
  | read fd n data => exact communicate_service_inv F p fd n data hinv

theorem exec_inv (F : Nat) (ops : List Op) (p q : Pool) (hinv : PoolInv F p)
    (h : exec F p ops = some q) : PoolInv F q := by
  induction ops generalizing p with
  | nil =>
    simp only [exec] at h
    rw [← Option.some.inj h]
    exact hinv
  | cons op rest ih =>
    simp only [exec] at h
    by_cases hok : op.ok p = true
    · rw [if_pos hok] at h
      exact ih _ (Op.apply_inv F p op hinv hok) h
    · rw [if_neg hok] at h
      exact Option.noConfusion h

theorem Reachable.inv (F : Nat) (lfd : Int) (p : Pool) (h : Reachable F lfd p) :
    PoolInv F p := by
  obtain ⟨h0, h1, ops, hx⟩ := h
  exact exec_inv F ops _ p (construct_pool_inv F lfd h0 h1) hx

/-! ### The fan-out -/

theorem filterMap_range_extend {β : Type} (g : Nat → Option β) (n m : Nat) (hnm : n ≤ m)
    (h : ∀ i, n ≤ i → i < m → g i = none) :
    (List.range m).filterMap g = (List.range n).filterMap g := by
  induction m with
  | zero =>
    have : n = 0 := by omega
    rw [this]
  | succ k ih =>
    by_cases hk : n = k + 1
    · rw [hk]
    · rw [List.range_succ, List.filterMap_append, ih (by omega) (fun i h1 h2 => h i h1 (by omega))]
      simp [h k (by omega) (by omega)]

theorem filterMap_eq_map_filter {α β : Type} (l : List α) (g : α → Option β) (pr : α → Bool)
    (f : α → β) (h : ∀ a ∈ l, g a = if pr a then some (f a) else none) :
    l.filterMap g = (l.filter pr).map f := by
  induction l with
  | nil => rfl
  | cons a rest ih =>
    have ha := h a (List.mem_cons_self _ _)
    have hr := ih (fun b hb => h b (List.mem_cons_of_mem _ hb))
    cases hp : pr a
    · rw [hp] at ha
      simp [List.filterMap_cons, ha, hp, hr]
    · rw [hp] at ha
      simp [List.filterMap_cons, ha, hp, hr]

theorem mem_live_fds (p : Pool) (fd : Int) : fd ∈ live_fds p ↔ p.slot fd ≠ none := by
  unfold live_fds
  rw [List.mem_filter]
  constructor
  · intro h
    have := h.2
    intro hn
    rw [hn] at this
    exact Bool.noConfusion this
  · intro h
    cases hs : p.slot fd with
    | none => exact absurd hs h
    | some c =>
      have hr := slot_range p fd c hs
      refine ⟨?_, rfl⟩
      rw [List.mem_map]
      exact ⟨fd.toNat, List.mem_range.mpr (by omega), by omega⟩

theorem live_fds_sorted (p : Pool) : (live_fds p).Pairwise (fun a b => a < b) := by
  unfold live_fds
  apply List.Pairwise.filter
  rw [List.pairwise_map]
  have := List.pairwise_lt_range p.clients.length
  exact this.imp (fun h => by exact_mod_cast h)

theorem broadcast_eq (F : Nat) (p : Pool) (hinv : PoolInv F p) (x : Nat) (data : List Char)
    (size : Nat) :
    broadcast x p data size =
      (recipients x p).map (fun fd => Event.send fd (mem_read data size)) := by
  unfold broadcast recipients live_fds
  have hle : (p.max_fd + 1).toNat ≤ p.clients.length := by
    have := hinv.max_hi; have := hinv.clients_len; omega
  rw [← filterMap_range_extend _ _ _ hle]
  · rw [List.filter_filter, List.filter_map, List.map_map]
    apply filterMap_eq_map_filter
    intro i _
    simp only [Function.comp]
    cases hs : p.slot (i : Int) with
    | none => rfl
    | some c =>
      have hfd := (hinv.live i c hs).2.2.1
      by_cases hx : c.id = x
      · simp [hx]
      · simp [hx, hfd]
  · intro i h1 h2
    cases hs : p.slot (i : Int) with
    | none => rfl
    | some c =>
      have := (hinv.live i c hs).2.1
      omega

/-! ## C1, C2, C3: the line-reassembly transform -/

/-- C1. For the session of any client (descriptor `fd`, identity `id`, prefix
`client <id>: `) starting in the fresh at-line-start state, and any way of
cutting the bytes it sends into successive read chunks, the concatenation of
the payloads that `send_msg` broadcasts is the concatenation `D` of the chunks
with the prefix inserted immediately before exactly the bytes of `D` that start
a line (position 0 and every position directly after a line terminator), the
bytes of `D` being otherwise verbatim; one payload is broadcast per chunk. -/
theorem session_prefix_at_line_starts (fd : Int) (id : Nat) (chunks : List (List Char)) :
    (session (create_client fd id) chunks).2.flatten =
      insert_at_line_starts ("client " ++ Nat.repr id ++ ": ").toList chunks.flatten ∧
    (session (create_client fd id) chunks).2.length = chunks.length := by
  constructor
  · rw [(session_eq _ _).1, create_client_prefix]
    have := line_transform_index ("client " ++ Nat.repr id ++ ": ").toList [] chunks.flatten
      true (by simp [is_line_start])
    simpa [insert_at_line_starts, create_client] using this
  · generalize create_client fd id = c
    induction chunks generalizing c with
    | nil => rfl
    | cons chunk rest ih => simp [session, ih]

/-- C2, as stated, fails: when client 0 sends the single chunk `a\n`, the
payload broadcast is `client 0: a\n`, with no prefix after the final
terminator. -/
theorem session_after_terminators_counterexample :
    (session (create_client 4 0) ["a\n".toList]).2.flatten ≠
      insert_after_terminators ("client " ++ Nat.repr 0 ++ ": ").toList ["a\n".toList].flatten := by
  decide

/-- C2, amended. For any client and any byte sequence it sends, however the
sequence is cut into read chunks, the bytes broadcast (the concatenated payloads
of `send_msg`, from a freshly created session) are the input with the prefix of
the sender inserted before its first byte and immediately after every line
terminator that is followed by a further byte. -/
theorem session_prefix_before_lines (fd : Int) (id : Nat) (chunks : List (List Char)) :
    (session (create_client fd id) chunks).2.flatten =
      insert_before_lines ("client " ++ Nat.repr id ++ ": ").toList chunks.flatten := by
  rw [(session_eq _ _).1, create_client_prefix]
  cases h : chunks.flatten with
  | nil => simp [line_transform, insert_before_lines]
  | cons x xs =>
    rw [line_transform_inner]
    simp [insert_before_lines, create_client]

/-- C3. From any session state and for any byte sequences `a` and `b`, reading
`a` and then `b` broadcasts payloads whose concatenation is the payload of
reading `a ++ b` at once, and both runs end in the same `is_new_line` state.
From the fresh state of client 0, `hel` then `lo\n` give `client 0: hel` then
`lo\n`. -/
theorem deliver_chunking :
    (∀ (c : Client) (a b : List Char),
      (deliver c a).2 ++ (deliver (deliver c a).1 b).2 = (deliver c (a ++ b)).2 ∧
      (deliver (deliver c a).1 b).1.is_new_line = (deliver c (a ++ b)).1.is_new_line) ∧
    (∀ fd : Int,
      (deliver (create_client fd 0) "hel".toList).2 = "client 0: hel".toList ∧
      (deliver (deliver (create_client fd 0) "hel".toList).1 "lo\n".toList).2 = "lo\n".toList) := by
  constructor
  · intro c a b
    obtain ⟨a1, a2, a3⟩ := deliver_eq c a
    obtain ⟨b1, b2, _⟩ := deliver_eq (deliver c a).1 b
    obtain ⟨c1, c2, _⟩ := deliver_eq c (a ++ b)
    rw [a1, b1, b2, c1, c2, a2, a3, line_transform_append]
    exact ⟨rfl, rfl⟩
  · intro fd
    have hs : (create_client fd 0).is_new_line = true := rfl
    constructor
    · rw [(deliver_eq _ _).1, create_client_prefix, hs]
      decide
    · rw [(deliver_eq _ _).1, (deliver_eq _ _).2.2, (deliver_eq _ _).2.1, create_client_prefix, hs]
      decide

/-! ### The fan-out on reachable pools -/

theorem recipients_add_client (F : Nat) (p : Pool) (connfd : Int) (hinv : PoolInv F p)
    (h1 : p.listen_fd < connfd) (h2 : connfd < F) (h3 : p.slot connfd = none) :
    recipients p.next_id (add_client F p connfd).2.1 = live_fds p := by
  have h0 : 0 ≤ connfd := by have := hinv.listen_lo; omega
  have hslot := add_client_slot F p connfd hinv h0 h2
  have hlen : (add_client F p connfd).2.1.clients.length = p.clients.length := by
    rw [(add_client_accept F p connfd (by omega)).2.2.2.2.2.2, tbl_set_length]
  unfold recipients live_fds
  rw [List.filter_filter, hlen]
  apply List.filter_congr
  intro fd _
  rw [hslot fd]
  by_cases hc : connfd = fd
  · rw [if_pos hc, ← hc, h3]
    simp [create_client]
  · rw [if_neg hc]
    cases hs : p.slot fd with
    | none => rfl
    | some c =>
      have := (hinv.live fd c hs).2.2.2.1
      have hne : c.id ≠ p.next_id := by omega
      simp [hne]

theorem first_msg_read (fd : Int) (id : Nat) :
    mem_read (create_client fd id).first_msg.buf (create_client fd id).first_msg.size.toNat =
      ("server: client " ++ Nat.repr id ++ " just arrived\n").toList :=
  sprintf_contents _

theorem last_msg_read (fd : Int) (id : Nat) :
    mem_read (create_client fd id).last_msg.buf (create_client fd id).last_msg.size.toNat =
      ("server: client " ++ Nat.repr id ++ " just left\n").toList :=
  sprintf_contents _

theorem recipients_store (F : Nat) (p : Pool) (i : Int) (c c2 : Client) (hinv : PoolInv F p)
    (hs : p.slot i = some c) (hid : c2.id = c.id) :
    recipients c.id (p.store i c2) = (live_fds p).filter (fun fd => fd != i) := by
  have hslot := store_slot F p i c c2 hinv hs
  have hlen : (p.store i c2).clients.length = p.clients.length := tbl_set_length _ _ _
  unfold recipients live_fds
  rw [List.filter_filter, List.filter_filter, hlen]
  apply List.filter_congr
  intro fd _
  rw [hslot fd]
  by_cases hc : i = fd
  · rw [if_pos hc, ← hc, hs]
    simp [hid]
  · rw [if_neg hc]
    cases hs2 : p.slot fd with
    | none => simp
    | some d =>
      have hne : d.id ≠ c.id := fun he => hc (hinv.ids i fd c d hs hs2 he.symm)
      have hc2 : fd ≠ i := fun he => hc he.symm
      have e1 : (d.id != c.id) = true := bne_iff_ne.mpr hne
      have e2 : (fd != i) = true := bne_iff_ne.mpr hc2
      simp [e1, e2]

theorem broadcast_no_send (F : Nat) (p : Pool) (hinv : PoolInv F p) (i : Int)
    (hs : p.slot i = none) (x : Nat) (data : List Char) (size : Nat) (payload : List Char) :
    Event.send i payload ∉ broadcast x p data size := by
  rw [broadcast_eq F p hinv]
  intro h
  rw [List.mem_map] at h
  obtain ⟨fd, hfd, he⟩ := h
  have hi : fd = i := by injection he
  have := (List.mem_filter.mp hfd).1
  rw [mem_live_fds, hi] at this
  exact this hs

theorem Op.apply_slot_none (F : Nat) (p : Pool) (op : Op) (i : Int) (hinv : PoolInv F p)
    (hok : op.ok p = true) (hne : op ≠ Op.accept i) (hs : p.slot i = none) :
    (op.apply F p).slot i = none := by
  cases op with
  | accept connfd =>
    simp only [Op.ok, Bool.or_eq_true, beq_iff_eq, Bool.and_eq_true, decide_eq_true_eq,
      Option.isNone_iff_eq_none] at hok
    show (add_client F p connfd).2.1.slot i = none
    by_cases hrej : connfd = -1 ∨ connfd ≥ F
    · rw [add_client_reject F p connfd hrej]
      exact hs
    · have := hinv.listen_lo
      rw [add_client_slot F p connfd hinv (by omega) (by omega)]
      have hci : connfd ≠ i := fun h => hne (by rw [h])
      rw [if_neg hci]
      exact hs
  | remove fd =>
    show (remove_client p fd).1.slot i = none
    rw [(remove_client_spec p fd).2.2.2.2.2.1 i]
    split
    · rfl
    · exact hs
  | read fd n data =>
    show (communicate_service fd p n data).1.slot i = none
    cases hfd : p.slot fd with
    | none =>
      unfold communicate_service
      rw [hfd]
      exact hs
    | some c =>
      have hfi : fd ≠ i := by
        intro h
        rw [h, hs] at hfd
        exact Option.noConfusion hfd
      by_cases hn : n = 0
      · subst hn
        rw [communicate_service_zero F p fd c data hinv hfd]
        show (remove_client p fd).1.slot i = none
        rw [(remove_client_spec p fd).2.2.2.2.2.1 i, if_neg hfi]
        exact hs
      · rw [communicate_service_data F p fd c n data hinv hfd hn]
        show (p.store fd _).slot i = none
        rw [store_slot F p fd c _ hinv hfd, if_neg hfi]
        exact hs

theorem exec_slot_none (F : Nat) (ops : List Op) (p q : Pool) (i : Int) (hinv : PoolInv F p)
    (hx : exec F p ops = some q) (hne : ∀ op ∈ ops, op ≠ Op.accept i) (hs : p.slot i = none) :
    q.slot i = none := by
  induction ops generalizing p with
  | nil =>
    simp only [exec] at hx
    rw [← Option.some.inj hx]
    exact hs
  | cons op rest ih =>
    simp only [exec] at hx
    by_cases hok : op.ok p = true
    · rw [if_pos hok] at hx
      exact ih _ (Op.apply_inv F p op hinv hok) hx
        (fun o ho => hne o (List.mem_cons_of_mem _ ho))
        (Op.apply_slot_none F p op i hinv hok (hne op (List.mem_cons_self _ _)) hs)
    · rw [if_neg hok] at hx
      exact Option.noConfusion hx

/-! ### Frame of the operations -/

theorem communicate_service_frame (F : Nat) (p : Pool) (i : Int) (n : Int) (data : List Char)
    (hinv : PoolInv F p) :
    (communicate_service i p n data).1.listen_fd = p.listen_fd ∧
    (communicate_service i p n data).1.next_id = p.next_id ∧
    (communicate_service i p n data).1.max_fd ≤ p.max_fd := by
  cases hs : p.slot i with
  | none =>
    unfold communicate_service
    rw [hs]
    exact ⟨rfl, rfl, le_refl _⟩
  | some c =>
    by_cases hn : n = 0
    · subst hn
      rw [communicate_service_zero F p i c data hinv hs]
      obtain ⟨_, b1, _, b3, _, _, b6, _⟩ := remove_client_spec p i
      exact ⟨b1, b3, b6⟩
    · rw [communicate_service_data F p i c n data hinv hs hn]
      exact ⟨rfl, rfl, le_refl _⟩

theorem Op.apply_frame (F : Nat) (p : Pool) (op : Op) (hinv : PoolInv F p)
    (hok : op.ok p = true) :
    (op.apply F p).listen_fd = p.listen_fd ∧
    (op.apply F p).next_id = p.next_id + (op.assigned F p).length ∧
    op.assigned F p = List.range' p.next_id (op.assigned F p).length := by
  cases op with
  | accept connfd =>
    simp only [Op.ok, Bool.or_eq_true, beq_iff_eq, Bool.and_eq_true, decide_eq_true_eq,
      Option.isNone_iff_eq_none] at hok
    by_cases hrej : connfd = -1 ∨ connfd ≥ F
    · have e := add_client_reject F p connfd hrej
      have e1 : (Op.accept connfd).apply F p = p := by
        show (add_client F p connfd).2.1 = p
        rw [e]
      have e2 : (Op.accept connfd).assigned F p = [] := by
        show (if (add_client F p connfd).1 = -1 then [] else _) = []
        rw [e, if_pos rfl]
      rw [e1, e2]
      exact ⟨rfl, rfl, rfl⟩
    · have := hinv.listen_lo
      obtain ⟨a1, _, _, a4, _, a6, _⟩ := add_client_accept F p connfd hrej
      have hslot : (add_client F p connfd).2.1.slot connfd =
          some (create_client connfd p.next_id) := by
        rw [add_client_slot F p connfd hinv (by omega) (by omega), if_pos rfl]
      have hne : ¬ ((add_client F p connfd).1 = -1) := by rw [a1]; omega
      simp only [Op.apply, Op.assigned, if_neg hne, hslot]
      exact ⟨a4, a6, rfl⟩
  | remove fd =>
    obtain ⟨_, b1, _, b3, _⟩ := remove_client_spec p fd
    exact ⟨b1, b3, rfl⟩
  | read fd n data =>
    obtain ⟨c1, c2, _⟩ := communicate_service_frame F p fd n data hinv
    exact ⟨c1, c2, rfl⟩

theorem exec_frame (F : Nat) (ops : List Op) (p q : Pool) (hinv : PoolInv F p)
    (hx : exec F p ops = some q) :
    q.listen_fd = p.listen_fd ∧
    q.next_id = p.next_id + (ids_assigned F p ops).length ∧
    ids_assigned F p ops = List.range' p.next_id (ids_assigned F p ops).length := by
  induction ops generalizing p with
  | nil =>
    simp only [exec] at hx
    rw [← Option.some.inj hx]
    exact ⟨rfl, rfl, rfl⟩
  | cons op rest ih =>
    simp only [exec] at hx
    by_cases hok : op.ok p = true
    · rw [if_pos hok] at hx
      obtain ⟨a1, a2, a3⟩ := Op.apply_frame F p op hinv hok
      obtain ⟨b1, b2, b3⟩ := ih _ (Op.apply_inv F p op hinv hok) hx
      simp only [ids_assigned, List.length_append]
      refine ⟨by rw [b1, a1], by rw [b2, a2]; omega, ?_⟩
      rw [Nat.add_comm, ← List.range'_append_1, ← a3, ← a2, ← b3]
    · rw [if_neg hok] at hx
      exact Option.noConfusion hx

theorem communicate_service_payload (F : Nat) (p : Pool) (i : Int) (c : Client) (n : Int)
    (data : List Char) (hinv : PoolInv F p) (hs : p.slot i = some c) (hn : n ≠ 0) :
    (communicate_service i p n data).2 =
      Event.recv i n ::
        ((live_fds p).filter (fun fd => fd != i)).map
          (fun fd => Event.send fd (send_msg_payload (recv_msg c n data).2.1)) := by
  rw [communicate_service_data F p i c n data hinv hs hn]
  obtain ⟨a1, a2, a3, a4, a5, _⟩ := send_msg_loop_fields (recv_msg c n data).2.1
  have hinv1 : PoolInv F (p.store i (send_msg_loop (recv_msg c n data).2.1).1) :=
    store_inv F p i c _ hinv hs a1 a2 a3 a4 a5
  rw [broadcast_eq F _ hinv1,
    recipients_store F p i c (send_msg_loop (recv_msg c n data).2.1).1 hinv hs a1]
  rfl

/-! ### The loop of `communicate` -/

theorem communicate_loop_succ (recv : Int → Int × List Char) (ready_set : List Bool)
    (fuel : Nat) (i n_ready : Int) (p : Pool) :
    communicate_loop recv ready_set (fuel + 1) i n_ready p =
      if i ≤ p.max_fd ∧ n_ready ≠ 0 then
        match p.slot i with
        | none => communicate_loop recv ready_set fuel (i + 1) n_ready p
        | some c =>
          if !FD_ISSET i ready_set then communicate_loop recv ready_set fuel (i + 1) n_ready p
          else
            ((communicate_loop recv ready_set fuel (i + 1) (n_ready - 1)
                (communicate_service i p (recv c.fd).1 (recv c.fd).2).1).1,
              (communicate_service i p (recv c.fd).1 (recv c.fd).2).2 ++
                (communicate_loop recv ready_set fuel (i + 1) (n_ready - 1)
                  (communicate_service i p (recv c.fd).1 (recv c.fd).2).1).2)
      else (p, []) := by
  rw [communicate_loop]

/-- The iteration bound of `communicate` is never what stops its loop: one
more iteration allowed gives the same result. -/
theorem communicate_loop_fuel_succ (F : Nat) (recv : Int → Int × List Char)
    (ready_set : List Bool) (fuel : Nat) (i n_ready : Int) (p : Pool) (hinv : PoolInv F p)
    (hf : (p.max_fd + 1 - i).toNat ≤ fuel) :
    communicate_loop recv ready_set (fuel + 1) i n_ready p =
      communicate_loop recv ready_set fuel i n_ready p := by
  induction fuel generalizing i n_ready p with
  | zero =>
    have hg : ¬ (i ≤ p.max_fd ∧ n_ready ≠ 0) := by omega
    rw [communicate_loop_succ, if_neg hg]
    rfl
  | succ k ih =>
    rw [communicate_loop_succ recv ready_set k i n_ready p,
      communicate_loop_succ recv ready_set (k + 1) i n_ready p]
    by_cases hg : i ≤ p.max_fd ∧ n_ready ≠ 0
    · rw [if_pos hg, if_pos hg]
      cases hs : p.slot i with
      | none =>
        simp only []
        exact ih (i + 1) n_ready p hinv (by omega)
      | some c =>
        simp only []
        by_cases hr : (!FD_ISSET i ready_set) = true
        · rw [if_pos hr, if_pos hr]
          exact ih (i + 1) n_ready p hinv (by omega)
        · rw [if_neg hr, if_neg hr]
          have hm := (communicate_service_frame F p i (recv c.fd).1 (recv c.fd).2 hinv).2.2
          rw [ih (i + 1) (n_ready - 1) _ (communicate_service_inv F p i _ _ hinv) (by omega)]
    · rw [if_neg hg, if_neg hg]

theorem communicate_fuel (F : Nat) (recv : Int → Int × List Char) (ready_set : List Bool)
    (n_ready : Int) (p : Pool) (hinv : PoolInv F p) (k : Nat) :
    communicate_loop recv ready_set ((p.max_fd + 1).toNat + k) 0 n_ready p =
      communicate recv p ready_set n_ready := by
  induction k with
  | zero => rfl
  | succ j ih =>
    rw [← ih, ← Nat.add_assoc]
    exact communicate_loop_fuel_succ F recv ready_set _ 0 n_ready p hinv (by omega)

/-! ### The event loop stays inside the reachable pools -/

theorem exec_snoc (F : Nat) (ops : List Op) (op : Op) (p q : Pool)
    (hx : exec F p ops = some q) (hok : op.ok q = true) :
    exec F p (ops ++ [op]) = some (op.apply F q) := by
  induction ops generalizing p with
  | nil =>
    simp only [exec] at hx
    rw [Option.some.inj hx]
    simp only [List.nil_append, exec, if_pos hok]
  | cons o rest ih =>
    simp only [exec] at hx
    by_cases ho : o.ok p = true
    · rw [if_pos ho] at hx
      simp only [List.cons_append, exec, if_pos ho]
      exact ih _ hx
    · rw [if_neg ho] at hx
      exact Option.noConfusion hx

theorem Reachable.step (F : Nat) (lfd : Int) (p : Pool) (op : Op) (hr : Reachable F lfd p)
    (hok : op.ok p = true) : Reachable F lfd (op.apply F p) := by
  obtain ⟨h0, h1, ops, hx⟩ := hr
  exact ⟨h0, h1, ops ++ [op], exec_snoc F ops op _ p hx hok⟩

theorem communicate_loop_reachable (F : Nat) (lfd : Int) (recv : Int → Int × List Char)
    (ready_set : List Bool) (fuel : Nat) (i n_ready : Int) (p : Pool)
    (hr : Reachable F lfd p) :
    Reachable F lfd (communicate_loop recv ready_set fuel i n_ready p).1 := by
  induction fuel generalizing i n_ready p with
  | zero => exact hr
  | succ k ih =>
    rw [communicate_loop_succ]
    by_cases hg : i ≤ p.max_fd ∧ n_ready ≠ 0
    · rw [if_pos hg]
      cases hs : p.slot i with
      | none => exact ih (i + 1) n_ready p hr
      | some c =>
        simp only []
        by_cases hrd : (!FD_ISSET i ready_set) = true
        · rw [if_pos hrd]
          exact ih (i + 1) n_ready p hr
        · rw [if_neg hrd]
          apply ih
          have hok : (Op.read i (recv c.fd).1 (recv c.fd).2).ok p = true := by
            simp [Op.ok, hs]
          exact Reachable.step F lfd p _ hr hok
    · rw [if_neg hg]
      exact hr

/-- The pool a successful `perform` leaves is reachable, when `accept` keeps to
its contract. -/
theorem perform_reachable (F : Nat) (lfd : Int) (connfd : Int) (recv : Int → Int × List Char)
    (ready_set : List Bool) (n_ready : Int) (p : Pool) (hr : Reachable F lfd p)
    (hacc : (Op.accept connfd).ok p = true) :
    Reachable F lfd (perform F connfd recv p ready_set n_ready).2.1 := by
  have hr1 : Reachable F lfd (add_client F p connfd).2.1 :=
    Reachable.step F lfd p (Op.accept connfd) hr hacc
  unfold perform
  by_cases hl : FD_ISSET p.listen_fd ready_set = true
  · rw [if_pos hl]
    by_cases hrej : (add_client F p connfd).1 = -1
    · rw [if_pos hrej]
      exact hr1
    · rw [if_neg hrej]
      cases hs : (add_client F p connfd).2.1.slot (add_client F p connfd).1 with
      | none => exact hr1
      | some c => exact communicate_loop_reachable F lfd recv ready_set _ 0 _ _ hr1
  · rw [if_neg hl]
    exact communicate_loop_reachable F lfd recv ready_set _ 0 _ _ hr

/-! ## C4: the greeting -/

/-- C4. In every reachable pool, when the listener is ready and `accept` returns
a fresh descriptor `connfd` (above the listener, below `FD_SETSIZE`, its slot
empty), `perform` stores in slot `connfd` a session whose identity is the
`next_id` of the pool, and the calls it issues are the `accept`, then exactly
one send of `server: client <next_id> just arrived\n` to each descriptor that
held a live session before the accept, in ascending descriptor order, then
whatever `communicate` issues.  The accepted descriptor is not among the
descriptors greeted; with no live session nothing is sent. -/
theorem perform_accept_greeting (F : Nat) (lfd : Int) (p : Pool) (connfd : Int)
    (recv : Int → Int × List Char) (ready_set : List Bool) (n_ready : Int)
    (hr : Reachable F lfd p) (hready : FD_ISSET p.listen_fd ready_set = true)
    (h1 : p.listen_fd < connfd) (h2 : connfd < F) (h3 : p.slot connfd = none) :
    (add_client F p connfd).2.1.slot connfd = some (create_client connfd p.next_id) ∧
    (create_client connfd p.next_id).id = p.next_id ∧
    perform F connfd recv p ready_set n_ready =
      (0, (communicate recv (add_client F p connfd).2.1 ready_set (n_ready - 1)).1,
        Event.accept p.listen_fd connfd ::
          ((live_fds p).map (fun fd => Event.send fd
              ("server: client " ++ Nat.repr p.next_id ++ " just arrived\n").toList) ++
            (communicate recv (add_client F p connfd).2.1 ready_set (n_ready - 1)).2)) ∧
    connfd ∉ live_fds p ∧
    (live_fds p).Pairwise (fun a b => a < b) ∧
    (∀ fd, fd ∈ live_fds p ↔ p.slot fd ≠ none) := by
  have hinv := hr.inv
  have h0 : 0 ≤ connfd := by have := hinv.listen_lo; omega
  have hnr : ¬ (connfd = -1 ∨ connfd ≥ F) := by omega
  have hinv1 : PoolInv F (add_client F p connfd).2.1 :=
    add_client_inv F p connfd hinv (Or.inr ⟨h1, h3⟩)
  have hslot : (add_client F p connfd).2.1.slot connfd = some (create_client connfd p.next_id) := by
    rw [add_client_slot F p connfd hinv h0 h2, if_pos rfl]
  obtain ⟨a1, a2, _⟩ := add_client_accept F p connfd hnr
  refine ⟨hslot, rfl, ?_, ?_, live_fds_sorted p, mem_live_fds p⟩
  · unfold perform
    rw [if_pos hready]
    simp only [a1, a2]
    rw [if_neg (by omega), hslot]
    simp only [List.singleton_append, List.cons_append, List.nil_append]
    rw [broadcast_eq F _ hinv1, first_msg_read]
    show (0, _, Event.accept p.listen_fd connfd ::
      ((recipients p.next_id (add_client F p connfd).2.1).map _ ++ _)) = _
    rw [recipients_add_client F p connfd hinv h1 h2 h3]
  · rw [mem_live_fds]
    exact fun h => h h3

/-- C4 at concrete inputs: the first client of a fresh pool gets identity 0 and
nothing is sent; with that client on descriptor 4, the arrival of a second one
sends `server: client 1 just arrived\n` to descriptor 4 only. -/
theorem perform_accept_greeting_witness :
    (construct_pool 8 3).next_id = 0 ∧
    (perform 8 4 no_data (construct_pool 8 3) ready_listener 1).2.2 = [Event.accept 3 4] ∧
    (perform 8 5 no_data pool_A ready_listener 1).2.2 =
      [Event.accept 3 5, Event.send 4 "server: client 1 just arrived\n".toList] := by
  have h0 := perform_accept_greeting 8 3 (construct_pool 8 3) 4 no_data ready_listener 1
    ⟨by decide, by decide, [], by decide⟩ (by decide) (by decide) (by decide) (by decide)
  have h1 := perform_accept_greeting 8 3 pool_A 5 no_data ready_listener 1
    ⟨by decide, by decide, [Op.accept 4], by decide⟩ (by decide) (by decide) (by decide)
    (by decide)
  refine ⟨rfl, ?_, ?_⟩
  · rw [h0.2.2.1]; decide
  · rw [h1.2.2.1]; decide

/-! ## C5: the farewell -/

/-- C5. In every reachable pool, when the read on the live session of slot `i`
(identity `c.id`) returns zero bytes, the service step issues the read, then
exactly one send of `server: client <c.id> just left\n` to each other live
descriptor in ascending order and none to `i`, and only then closes `i`; the
pool it leaves is `remove_client(p, i)`, in which slot `i` is empty.  From
there on, through any operations of this tick or later ones that do not accept
descriptor `i` again, the slot stays empty and no broadcast sends to `i`. -/
theorem communicate_service_farewell (F : Nat) (lfd : Int) (p : Pool) (i : Int) (c : Client)
    (data : List Char) (hr : Reachable F lfd p) (hs : p.slot i = some c) :
    communicate_service i p 0 data =
      ((remove_client p i).1,
        Event.recv i 0 ::
          (((live_fds p).filter (fun fd => fd != i)).map (fun fd => Event.send fd
              ("server: client " ++ Nat.repr c.id ++ " just left\n").toList) ++
            [Event.close i])) ∧
    (remove_client p i).1.slot i = none ∧
    (∀ ops q, exec F (remove_client p i).1 ops = some q →
      (∀ op ∈ ops, op ≠ Op.accept i) →
      q.slot i = none ∧
      ∀ x data size payload, Event.send i payload ∉ broadcast x q data size) ∧
    (live_fds p).Pairwise (fun a b => a < b) ∧
    (∀ fd, fd ∈ live_fds p ↔ p.slot fd ≠ none) := by
  have hinv := hr.inv
  have hl := hinv.live i c hs
  have hinv2 := remove_client_inv F p i hinv
  have hnone : (remove_client p i).1.slot i = none := by
    rw [(remove_client_spec p i).2.2.2.2.2.1 i, if_pos rfl]
  refine ⟨?_, hnone, ?_, live_fds_sorted p, mem_live_fds p⟩
  · rw [communicate_service_zero F p i c data hinv hs]
    have hinv1 : PoolInv F (p.store i (recv_msg c 0 data).2.1) :=
      store_inv F p i c _ hinv hs rfl rfl rfl rfl rfl
    rw [broadcast_eq F _ hinv1, recipients_store F p i c (recv_msg c 0 data).2.1 hinv hs rfl,
      hl.2.2.2.2.2.1, last_msg_read]
  · intro ops q hx hne
    have hq := exec_slot_none F ops _ q i hinv2 hx hne hnone
    exact ⟨hq, fun x data size payload =>
      broadcast_no_send F q (exec_inv F ops _ q hinv2 hx) i hq x data size payload⟩

/-- C5 at a concrete input: with clients 0 and 1 on descriptors 4 and 5, the
zero-byte read of client 0 sends the farewell to descriptor 5 only, then closes
descriptor 4. -/
theorem communicate_service_farewell_witness :
    (communicate_service 4 pool_AB 0 []).2 =
      [Event.recv 4 0, Event.send 5 "server: client 0 just left\n".toList, Event.close 4] ∧
    (remove_client pool_AB 4).1.slot 4 = none := by
  have h := communicate_service_farewell 8 3 pool_AB 4 (create_client 4 0) []
    ⟨by decide, by decide, [Op.accept 4, Op.accept 5], by decide⟩ (by decide)
  exact ⟨by rw [h.1]; decide, h.2.1⟩

/-! ## C6: an accept failure is fatal -/

/-- C6, as stated, fails: with one client connected and the listener ready, an
`accept` that returns -1, or a descriptor equal to `FD_SETSIZE`, makes the
iteration of `run` write `Fatal error\n` to standard error and exit; the loop
does not go on with the pool. -/
theorem accept_failure_counterexample :
    run_iteration 8 pool_A
        { n_ready := 1, ready_set := ready_listener, connfd := -1, recv := no_data } =
      (Outcome.exit_failure, [Event.accept 3 (-1), Event.write 2 "Fatal error\n".toList]) ∧
    run_iteration 8 pool_A
        { n_ready := 1, ready_set := ready_listener, connfd := 8, recv := no_data } =
      (Outcome.exit_failure, [Event.accept 3 8, Event.write 2 "Fatal error\n".toList]) ∧
    (run_iteration 8 pool_A
        { n_ready := 1, ready_set := ready_listener, connfd := -1, recv := no_data }).1 ≠
      Outcome.next pool_A := by
  decide

/-- C6, amended. When the listener is ready and `accept` returns -1 or a
descriptor at or above `FD_SETSIZE`, `perform` returns -1 with the pool
unchanged and no client serviced, and the iteration of `run` writes
`Fatal error\n` to standard error and exits with failure: the loop does not
reach a next iteration. -/
theorem accept_failure_fatal (F : Nat) (p : Pool) (t : Tick) (ts : List Tick)
    (hn : t.n_ready ≠ -1) (hready : FD_ISSET p.listen_fd t.ready_set = true)
    (hrej : t.connfd = -1 ∨ t.connfd ≥ F) :
    perform F t.connfd t.recv p t.ready_set t.n_ready =
      (-1, p, [Event.accept p.listen_fd t.connfd]) ∧
    run_iteration F p t =
      (Outcome.exit_failure,
        [Event.accept p.listen_fd t.connfd, Event.write STDERR_FILENO E_FATAL_ERROR]) ∧
    run_loop F p (t :: ts) =
      (Outcome.exit_failure,
        [Event.accept p.listen_fd t.connfd, Event.write STDERR_FILENO E_FATAL_ERROR]) := by
  have hp : perform F t.connfd t.recv p t.ready_set t.n_ready =
      (-1, p, [Event.accept p.listen_fd t.connfd]) := by
    unfold perform
    rw [if_pos hready, add_client_reject F p t.connfd hrej]
    rfl
  have hi : run_iteration F p t =
      (Outcome.exit_failure,
        [Event.accept p.listen_fd t.connfd, Event.write STDERR_FILENO E_FATAL_ERROR]) := by
    unfold run_iteration
    rw [if_neg hn, hp]
    rfl
  refine ⟨hp, hi, ?_⟩
  unfold run_loop
  rw [hi]

/-- C6 (amended) at a concrete input: one client connected, `accept` fails. -/
theorem accept_failure_fatal_witness :
    run_loop 8 pool_A
        [{ n_ready := 1, ready_set := ready_listener, connfd := -1, recv := no_data },
         { n_ready := 1, ready_set := ready_listener, connfd := 5, recv := no_data }] =
      (Outcome.exit_failure, [Event.accept 3 (-1), Event.write 2 "Fatal error\n".toList]) :=
  (accept_failure_fatal 8 pool_A
    { n_ready := 1, ready_set := ready_listener, connfd := -1, recv := no_data }
    [{ n_ready := 1, ready_set := ready_listener, connfd := 5, recv := no_data }]
    (by decide) (by decide) (by decide)).2.2

/-! ## C7: rejection leaves the pool as it was -/

/-- C7. `add_client` returns -1 exactly when `accept` returned -1 or a
descriptor at or above `FD_SETSIZE`; then the pool is unchanged (no slot
filled, `next_id`, `max_fd` and the readiness set as before), and a `perform`
whose listener is ready returns -1 with the pool unchanged having issued the
`accept` and no send. -/
theorem add_client_reject_atomic (F : Nat) (p : Pool) (connfd : Int) :
    ((add_client F p connfd).1 = -1 ↔ (connfd = -1 ∨ connfd ≥ F)) ∧
    ((connfd = -1 ∨ connfd ≥ F) →
      (add_client F p connfd).1 = -1 ∧ (add_client F p connfd).2.1 = p ∧
      ∀ (recv : Int → Int × List Char) (ready_set : List Bool) (n_ready : Int),
        FD_ISSET p.listen_fd ready_set = true →
        perform F connfd recv p ready_set n_ready = (-1, p, [Event.accept p.listen_fd connfd])) := by
  constructor
  · constructor
    · intro h
      by_contra hrej
      rw [(add_client_accept F p connfd hrej).1] at h
      exact hrej (Or.inl h)
    · intro hrej
      rw [add_client_reject F p connfd hrej]
  · intro hrej
    refine ⟨by rw [add_client_reject F p connfd hrej], by rw [add_client_reject F p connfd hrej], ?_⟩
    intro recv ready_set n_ready hready
    unfold perform
    rw [if_pos hready, add_client_reject F p connfd hrej]
    rfl

/-- C7 at a concrete input: one client connected, `accept` returns descriptor
8 with `FD_SETSIZE` 8. -/
theorem add_client_reject_atomic_witness :
    (add_client 8 pool_A 8).1 = -1 ∧ (add_client 8 pool_A 8).2.1 = pool_A ∧
    perform 8 8 no_data pool_A ready_listener 1 = (-1, pool_A, [Event.accept 3 8]) := by
  have h := (add_client_reject_atomic 8 pool_A 8).2 (by decide)
  exact ⟨h.1, h.2.1, h.2.2 no_data ready_listener 1 (by decide)⟩

/-! ## C9: `max_fd` -/

/-- C9. In every pool reachable from `construct_pool(listen_fd)` by
`add_client` (accepting or rejecting), `remove_client` of a live descriptor and
the service of live sessions, where `accept` returns -1 or a descriptor above
the listener that holds no live session: every live descriptor is at most
`max_fd`; if some session is live, `max_fd` is a live descriptor, hence the
highest one; if none is, `max_fd` is `listen_fd`. -/
theorem max_fd_highest_live (F : Nat) (lfd : Int) (p : Pool) (hr : Reachable F lfd p) :
    p.listen_fd = lfd ∧
    (∀ fd ∈ live_fds p, fd ≤ p.max_fd) ∧
    (live_fds p ≠ [] → p.max_fd ∈ live_fds p) ∧
    (live_fds p = [] → p.max_fd = lfd) := by
  have hinv := hr.inv
  obtain ⟨h0, h1, ops, hx⟩ := hr
  have hl : p.listen_fd = lfd := (exec_frame F ops _ p (construct_pool_inv F lfd h0 h1) hx).1
  have hnone : p.max_fd ∉ live_fds p → p.max_fd = p.listen_fd := by
    intro hm
    rcases hinv.top with h | h
    · exact h
    · exact absurd ((mem_live_fds p _).mpr h) hm
  refine ⟨hl, ?_, ?_, ?_⟩
  · intro fd hfd
    rw [mem_live_fds] at hfd
    cases hs : p.slot fd with
    | none => exact absurd hs hfd
    | some c => exact (hinv.live fd c hs).2.1
  · intro hne
    by_contra hm
    have he := hnone hm
    obtain ⟨fd, hfd⟩ := List.exists_mem_of_ne_nil _ hne
    rw [mem_live_fds] at hfd
    cases hs : p.slot fd with
    | none => exact hfd hs
    | some c =>
      have := hinv.live fd c hs
      omega
  · intro he
    rw [← hl]
    apply hnone
    rw [he]
    exact List.not_mem_nil _

/-- C9 at a concrete input. -/
theorem max_fd_highest_live_witness :
    live_fds example_pool = [4, 5] ∧ example_pool.max_fd = 5 ∧
    (example_pool.listen_fd = 3 ∧
      (∀ fd ∈ live_fds example_pool, fd ≤ example_pool.max_fd) ∧
      (live_fds example_pool ≠ [] → example_pool.max_fd ∈ live_fds example_pool) ∧
      (live_fds example_pool = [] → example_pool.max_fd = 3)) :=
  ⟨by decide, by decide,
    max_fd_highest_live 8 3 example_pool ⟨by decide, by decide, example_ops, by decide⟩⟩

/-! ## C10: identities -/

/-- C10. Along any sequence of operations from `construct_pool(listen_fd)`, the
identities `add_client` assigns are 0, 1, 2, ... in order: the k-th accepted
connection gets identity k - 1 whatever removals, reads and rejected accepts
come in between, and `next_id` is the number of connections accepted so far.
So no identity is assigned twice, every live session has an identity below
`next_id`, and no two live sessions share an identity.  (`next_id` is
unbounded in the model.) -/
theorem ids_strictly_increase (F : Nat) (lfd : Int) (ops : List Op) (p : Pool)
    (h0 : 0 ≤ lfd) (h1 : lfd < F) (hx : exec F (construct_pool F lfd) ops = some p) :
    ids_assigned F (construct_pool F lfd) ops = List.range p.next_id ∧
    (ids_assigned F (construct_pool F lfd) ops).Nodup ∧
    (∀ i c, p.slot i = some c → c.id < p.next_id) ∧
    (∀ i j c d, p.slot i = some c → p.slot j = some d → c.id = d.id → i = j) := by
  have hinv0 := construct_pool_inv F lfd h0 h1
  have hinv := exec_inv F ops _ p hinv0 hx
  obtain ⟨_, a2, a3⟩ := exec_frame F ops _ p hinv0 hx
  have hn : (construct_pool F lfd).next_id = 0 := rfl
  rw [hn, Nat.zero_add] at a2
  rw [hn, ← a2, ← List.range_eq_range'] at a3
  refine ⟨a3, ?_, fun i c hs => (hinv.live i c hs).2.2.2.1, hinv.ids⟩
  rw [a3]
  exact List.nodup_range _

/-- C10 at a concrete input: three accepted connections among a rejected
accept, an over-capacity descriptor, a removal and a read. -/
theorem ids_strictly_increase_witness :
    ids_assigned 8 (construct_pool 8 3) example_ops = [0, 1, 2] ∧
    ids_assigned 8 (construct_pool 8 3) example_ops = List.range example_pool.next_id := by
  have h := ids_strictly_increase 8 3 example_ops example_pool (by decide) (by decide)
    (by decide)
  exact ⟨by decide, h.1⟩

theorem broadcast_with_results_fold (send_result : Int → Int) (x : Nat) (p : Pool)
    (data : List Char) (size : Nat) (l : List Nat) (acc : List Event) :
    l.foldl
      (fun (s : Pool × List Event) (i : Nat) =>
        match s.1.slot (i : Int) with
        | none => s
        | some c =>
          if c.id = x then s
          else
            let _result := send_result c.fd
            (s.1, s.2 ++ [Event.send c.fd (mem_read data size)]))
      (p, acc) =
    (p, acc ++ l.filterMap (fun (i : Nat) =>
      match p.slot (i : Int) with
      | none => none
      | some c => if c.id = x then none else some (Event.send c.fd (mem_read data size)))) := by
  induction l generalizing acc with
  | nil => simp
  | cons i rest ih =>
    rw [List.foldl_cons, List.filterMap_cons]
    cases hs : p.slot (i : Int) with
    | none =>
      simp only []
      exact ih acc
    | some c =>
      simp only []
      by_cases hx : c.id = x
      · rw [if_pos hx, if_pos hx]
        exact ih acc
      · rw [if_neg hx, if_neg hx, ih]
        simp

theorem broadcast_with_results_eq (send_result : Int → Int) (x : Nat) (p : Pool)
    (data : List Char) (size : Nat) :
    broadcast_with_results send_result x p data size = (p, broadcast x p data size) := by
  unfold broadcast_with_results broadcast
  rw [broadcast_with_results_fold send_result]
  rfl

theorem mem_recipients (p : Pool) (x : Nat) (fd : Int) :
    fd ∈ recipients x p ↔ ∃ c, p.slot fd = some c ∧ c.id ≠ x := by
  unfold recipients
  rw [List.mem_filter, mem_live_fds]
  constructor
  · rintro ⟨h1, h2⟩
    cases hs : p.slot fd with
    | none => exact absurd hs h1
    | some c =>
      rw [hs] at h2
      exact ⟨c, rfl, by simpa using h2⟩
  · rintro ⟨c, hs, hx⟩
    rw [hs]
    exact ⟨Option.noConfusion, by simpa using hx⟩

theorem mem_read_self (b : List Char) : mem_read b b.length = b := by
  rw [mem_read_eq_take _ _ (Nat.le_refl _), List.take_length]

/-! ## C11: the fan-out -/

/-- C11. In every reachable pool, for every identity `x` and byte string `b`,
`broadcast(x, pool, b)` issues exactly the sends of `b`, unchanged, to the
descriptors of the live sessions whose identity is not `x`, one each, in
ascending descriptor order (`recipients` is that list: strictly ascending, and
a descriptor is in it exactly when its slot holds a session with another
identity).  Whatever the sends return, the pool is left as it was and the same
sends are issued: nothing is removed, nothing retried.  When no live session
has an identity other than `x`, no send is issued. -/
theorem broadcast_fanout (F : Nat) (lfd : Int) (p : Pool) (x : Nat) (b : List Char)
    (hr : Reachable F lfd p) :
    broadcast x p b b.length = (recipients x p).map (fun fd => Event.send fd b) ∧
    (∀ fd, fd ∈ recipients x p ↔ ∃ c, p.slot fd = some c ∧ c.id ≠ x) ∧
    (recipients x p).Pairwise (fun a b => a < b) ∧
    (∀ send_result : Int → Int,
      broadcast_with_results send_result x p b b.length = (p, broadcast x p b b.length)) ∧
    ((∀ fd c, p.slot fd = some c → c.id = x) → broadcast x p b b.length = []) := by
  have hinv := hr.inv
  have he : broadcast x p b b.length = (recipients x p).map (fun fd => Event.send fd b) := by
    rw [broadcast_eq F p hinv, mem_read_self]
  refine ⟨he, mem_recipients p x, ?_, fun sr => broadcast_with_results_eq sr x p b b.length, ?_⟩
  · exact List.Pairwise.filter _ (live_fds_sorted p)
  · intro h
    rw [he]
    have : recipients x p = [] := by
      apply List.eq_nil_iff_forall_not_mem.mpr
      intro fd hfd
      obtain ⟨c, hs, hx⟩ := (mem_recipients p x fd).mp hfd
      exact hx (h fd c hs)
    rw [this]
    rfl

/-- C11 at concrete inputs: with clients 0 and 1 on descriptors 4 and 5, a
broadcast excluding identity 0 sends to descriptor 5 only; with client 0 alone
it sends nothing. -/
theorem broadcast_fanout_witness :
    broadcast 0 pool_AB "hi".toList 2 = [Event.send 5 "hi".toList] ∧
    broadcast 0 pool_A "hi".toList 2 = [] := by
  have h := broadcast_fanout 8 3 pool_AB 0 "hi".toList
    ⟨by decide, by decide, [Op.accept 4, Op.accept 5], by decide⟩
  have h2 := broadcast_fanout 8 3 pool_A 0 "hi".toList
    ⟨by decide, by decide, [Op.accept 4], by decide⟩
  have hA : Reachable 8 3 pool_A := ⟨by decide, by decide, [Op.accept 4], by decide⟩
  have hone : pool_A.next_id = 1 := by decide
  refine ⟨by rw [show (2 : Nat) = "hi".toList.length from rfl, h.1]; decide, h2.2.2.2.2 ?_⟩
  intro fd c hs
  have := ((Reachable.inv 8 3 pool_A hA).live fd c hs).2.2.2.1
  omega

/-! ### The readiness set -/

theorem FD_ISSET_set (s : List Bool) (d j : Int) (v : Bool) :
    FD_ISSET j (tbl_set s d v) =
      if d = j ∧ 0 ≤ d ∧ d < s.length then v else FD_ISSET j s := by
  unfold FD_ISSET
  rw [tbl_get_set]
  split <;> rfl

theorem FD_ISSET_range (s : List Bool) (j : Int) (h : FD_ISSET j s = true) :
    0 ≤ j ∧ j < s.length := by
  by_contra hc
  unfold FD_ISSET at h
  rw [tbl_get_none s j (by omega)] at h
  exact Bool.noConfusion h

theorem FD_ISSET_clr (s : List Bool) (d j : Int) :
    FD_ISSET j (FD_CLR d s) = if d = j then false else FD_ISSET j s := by
  unfold FD_CLR
  rw [FD_ISSET_set]
  by_cases hd : d = j
  · rw [if_pos hd]
    by_cases hr : 0 ≤ d ∧ d < s.length
    · rw [if_pos ⟨hd, hr⟩]
    · rw [if_neg (fun h => hr h.2)]
      cases hj : FD_ISSET j s with
      | false => rfl
      | true =>
        have := FD_ISSET_range s j hj
        omega
  · rw [if_neg hd, if_neg (fun h => hd h.1)]

/-! ## C12: the frame of `remove_client` -/

/-- C12. In every reachable pool, for every live descriptor `d`,
`remove_client(p, d)` empties slot `d` and clears `d` from the readiness set,
and leaves every other slot, every other readiness bit, `listen_fd` and
`next_id` as they were.  If `d` was not `max_fd`, `max_fd` is unchanged; if it
was, `max_fd` becomes the highest live descriptor below `d`, or `listen_fd` if
no other session is live. -/
theorem remove_client_frame (F : Nat) (lfd : Int) (p : Pool) (d : Int) (c : Client)
    (hr : Reachable F lfd p) (hs : p.slot d = some c) :
    (remove_client p d).1.slot d = none ∧
    FD_ISSET d (remove_client p d).1.read_set = false ∧
    (∀ j, j ≠ d → (remove_client p d).1.slot j = p.slot j ∧
      FD_ISSET j (remove_client p d).1.read_set = FD_ISSET j p.read_set) ∧
    (remove_client p d).1.listen_fd = p.listen_fd ∧
    (remove_client p d).1.next_id = p.next_id ∧
    (d ≠ p.max_fd → (remove_client p d).1.max_fd = p.max_fd) ∧
    (d = p.max_fd →
      (p.slot (remove_client p d).1.max_fd ≠ none ∧ (remove_client p d).1.max_fd < d ∧
        ∀ j, j < d → p.slot j ≠ none → j ≤ (remove_client p d).1.max_fd) ∨
      ((remove_client p d).1.max_fd = p.listen_fd ∧ ∀ j, j ≠ d → p.slot j = none)) := by
  have hinv := hr.inv
  have hinv2 := remove_client_inv F p d hinv
  have hl := hinv.live d c hs
  obtain ⟨_, b1, b2, b3, _, b5, b6, b7, b8, b9⟩ := remove_client_spec p d
  generalize (remove_client p d).1 = q at *
  refine ⟨?_, ?_, ?_, b1, b3, ?_, ?_⟩
  · rw [b5, if_pos rfl]
  · rw [b2, FD_ISSET_clr, if_pos rfl]
  · intro j hj
    have hdj : ¬ d = j := fun h => hj h.symm
    exact ⟨by rw [b5, if_neg hdj], by rw [b2, FD_ISSET_clr, if_neg hdj]⟩
  · intro hd
    have htop : p.slot p.max_fd ≠ none := by
      rcases hinv.top with h | h
      · omega
      · exact h
    by_contra hne
    have hlt : q.max_fd < p.max_fd := by omega
    have := b9 p.max_fd hlt (le_refl _)
    rw [b5, if_neg hd] at this
    exact htop this
  · intro hd
    by_cases hm : q.max_fd > p.listen_fd
    · left
      have hq : q.slot q.max_fd ≠ none := fun hn => b8 ⟨hm, hn⟩
      have hqd : ¬ d = q.max_fd := by
        intro he
        rw [← he, b5, if_pos rfl] at hq
        exact hq rfl
      rw [b5, if_neg hqd] at hq
      refine ⟨hq, by omega, ?_⟩
      intro j hjd hj
      cases hsj : p.slot j with
      | none => exact absurd hsj hj
      | some e =>
        have hqj : q.slot j = some e := by
          rw [b5, if_neg (by omega), hsj]
        exact (hinv2.live j e hqj).2.1
    · right
      have hml := b7 hinv.max_lo
      refine ⟨by omega, ?_⟩
      intro j hj
      cases hsj : p.slot j with
      | none => rfl
      | some e =>
        have hqj : q.slot j = some e := by
          rw [b5, if_neg (fun h => hj h.symm), hsj]
        have := hinv2.live j e hqj
        rw [b1] at this
        omega

/-- C12 at concrete inputs: with clients on descriptors 4 and 5 and the listener
on 3, removing 5 lowers `max_fd` to 4, removing 4 leaves it 5, and removing the
only client leaves it 3. -/
theorem remove_client_frame_witness :
    (remove_client pool_AB 5).1.max_fd = 4 ∧ (remove_client pool_AB 4).1.max_fd = 5 ∧
    (remove_client pool_A 4).1.max_fd = 3 ∧
    (remove_client pool_AB 5).1.slot 5 = none ∧
    FD_ISSET 5 (remove_client pool_AB 5).1.read_set = false := by
  have h := remove_client_frame 8 3 pool_AB 5 (create_client 5 1)
    ⟨by decide, by decide, [Op.accept 4, Op.accept 5], by decide⟩ (by decide)
  exact ⟨by decide, by decide, by decide, h.1, h.2.1⟩

/-! ## C13: a negative read result -/

/-- C13. In every reachable pool, when the read on the live session of slot `i`
returns a negative value `n`, the service step takes the `send_msg` branch: it
issues the read and then one send of an empty payload to each other live
descriptor (the loop of `send_msg` runs zero times), no farewell and no close.
The session stays in its slot with `is_new_line` and identity as before (only
`recv_data` changes), and every other slot, `max_fd`, the readiness set and the
live descriptors are unchanged. -/
theorem communicate_service_negative (F : Nat) (lfd : Int) (p : Pool) (i : Int) (c : Client)
    (n : Int) (data : List Char) (hr : Reachable F lfd p) (hs : p.slot i = some c)
    (hn : n < 0) :
    (communicate_service i p n data).2 =
      Event.recv i n ::
        ((live_fds p).filter (fun fd => fd != i)).map (fun fd => Event.send fd []) ∧
    (communicate_service i p n data).1.slot i = some (recv_msg c n data).2.1 ∧
    (recv_msg c n data).2.1.is_new_line = c.is_new_line ∧
    (recv_msg c n data).2.1.id = c.id ∧
    (∀ j, j ≠ i → (communicate_service i p n data).1.slot j = p.slot j) ∧
    (communicate_service i p n data).1.max_fd = p.max_fd ∧
    (communicate_service i p n data).1.read_set = p.read_set ∧
    live_fds (communicate_service i p n data).1 = live_fds p := by
  have hinv := hr.inv
  have hne : n ≠ 0 := by omega
  have hz : (recv_msg c n data).2.1.recv_data.size.toNat = 0 := by
    show n.toNat = 0
    omega
  have hloop : send_msg_loop (recv_msg c n data).2.1 = ((recv_msg c n data).2.1, Vla.init) := by
    unfold send_msg_loop
    rw [hz]
    rfl
  have hpay : send_msg_payload (recv_msg c n data).2.1 = [] := by
    unfold send_msg_payload
    rw [hloop]
    rfl
  have hq := communicate_service_data F p i c n data hinv hs hne
  rw [hloop] at hq
  have hslot := store_slot F p i c (recv_msg c n data).2.1 hinv hs
  refine ⟨?_, ?_, rfl, rfl, ?_, ?_, ?_, ?_⟩
  · rw [communicate_service_payload F p i c n data hinv hs hne, hpay]
  · rw [hq]
    show (p.store i (recv_msg c n data).2.1).slot i = _
    rw [hslot, if_pos rfl]
  · intro j hj
    rw [hq]
    show (p.store i (recv_msg c n data).2.1).slot j = _
    rw [hslot, if_neg (fun h => hj h.symm)]
  · rw [hq]; rfl
  · rw [hq]; rfl
  · rw [hq]
    show live_fds (p.store i (recv_msg c n data).2.1) = _
    unfold live_fds
    have hlen : (p.store i (recv_msg c n data).2.1).clients.length = p.clients.length :=
      tbl_set_length _ _ _
    rw [hlen]
    apply List.filter_congr
    intro fd _
    rw [hslot]
    by_cases hfd : i = fd
    · rw [if_pos hfd, ← hfd, hs]; rfl
    · rw [if_neg hfd]

/-- C13 at a concrete input: with clients on descriptors 4 and 5, a read of -1
on descriptor 4 sends an empty payload to descriptor 5. -/
theorem communicate_service_negative_witness :
    communicate_service 4 pool_AB (-1) [] =
      (pool_AB.store 4 (recv_msg (create_client 4 0) (-1) []).2.1,
        [Event.recv 4 (-1), Event.send 5 []]) ∧
    (communicate_service 4 pool_AB (-1) []).2 =
      Event.recv 4 (-1) ::
        ((live_fds pool_AB).filter (fun fd => fd != 4)).map (fun fd => Event.send fd []) :=
  ⟨by decide, (communicate_service_negative 8 3 pool_AB 4 (create_client 4 0) (-1) []
    ⟨by decide, by decide, [Op.accept 4, Op.accept 5], by decide⟩ (by decide) (by decide)).1⟩

/-! ### The readiness set mirrors the monitored descriptors -/

theorem FD_ISSET_zero (F : Nat) (j : Int) : FD_ISSET j (FD_ZERO F) = false := by
  unfold FD_ISSET FD_ZERO tbl_get
  split
  · rfl
  · cases h : (List.replicate F false).get? j.toNat with
    | none => rfl
    | some v =>
      have := List.get?_mem h
      rw [List.mem_replicate] at this
      rw [this.2]
      rfl

theorem construct_pool_mirror (F : Nat) (lfd : Int) (h0 : 0 ≤ lfd) (h1 : lfd < F) :
    Mirror (construct_pool F lfd) := by
  have hinv := construct_pool_inv F lfd h0 h1
  intro fd
  have hs : (construct_pool F lfd).slot fd = none := by
    cases h : (construct_pool F lfd).slot fd with
    | none => rfl
    | some c =>
      have := hinv.live fd c h
      have e1 : (construct_pool F lfd).listen_fd = lfd := rfl
      have e2 : (construct_pool F lfd).max_fd = lfd := rfl
      omega
  show FD_ISSET fd (FD_SET lfd (FD_ZERO F)) = true ↔ _
  unfold FD_SET
  rw [FD_ISSET_set, FD_ISSET_zero, hs]
  have hlen : (FD_ZERO F).length = F := by simp [FD_ZERO]
  rw [hlen]
  show _ ↔ (fd = lfd ∨ _)
  constructor
  · intro h
    by_cases hc : lfd = fd ∧ 0 ≤ lfd ∧ lfd < (F : Int)
    · exact Or.inl hc.1.symm
    · rw [if_neg hc] at h
      exact Bool.noConfusion h
  · intro h
    rcases h with h | h
    · rw [if_pos ⟨h.symm, h0, h1⟩]
    · exact absurd rfl h

theorem add_client_mirror (F : Nat) (p : Pool) (connfd : Int) (hinv : PoolInv F p)
    (hm : Mirror p) (hok : connfd = -1 ∨ (p.listen_fd < connfd ∧ p.slot connfd = none)) :
    Mirror (add_client F p connfd).2.1 := by
  by_cases hrej : connfd = -1 ∨ connfd ≥ F
  · rw [add_client_reject F p connfd hrej]
    exact hm
  · have hl : p.listen_fd < connfd := by
      rcases hok with h | h
      · exact absurd (Or.inl h) hrej
      · exact h.1
    have h0 : 0 ≤ connfd := by have := hinv.listen_lo; omega
    have h1 : connfd < F := by omega
    obtain ⟨_, _, _, hlis, hset, _, _⟩ := add_client_accept F p connfd hrej
    have hslot := add_client_slot F p connfd hinv h0 h1
    intro fd
    rw [hset, hlis, hslot fd]
    unfold FD_SET
    rw [FD_ISSET_set, hinv.set_len]
    by_cases hc : connfd = fd
    · rw [if_pos ⟨hc, h0, h1⟩, if_pos hc]
      exact ⟨fun _ => Or.inr Option.noConfusion, fun _ => rfl⟩
    · rw [if_neg (fun h => hc h.1), if_neg hc]
      exact hm fd

theorem remove_client_mirror (F : Nat) (p : Pool) (d : Int) (c : Client) (hinv : PoolInv F p)
    (hm : Mirror p) (hs : p.slot d = some c) : Mirror (remove_client p d).1 := by
  obtain ⟨_, b1, b2, _, _, b5, _⟩ := remove_client_spec p d
  have hl := hinv.live d c hs
  intro fd
  rw [b1, b2, b5, FD_ISSET_clr]
  by_cases hd : d = fd
  · rw [if_pos hd, if_pos hd]
    constructor
    · intro h; exact Bool.noConfusion h
    · intro h
      rcases h with h | h
      · omega
      · exact absurd rfl h
  · rw [if_neg hd, if_neg hd]
    exact hm fd

theorem store_mirror (F : Nat) (p : Pool) (i : Int) (c c2 : Client) (hinv : PoolInv F p)
    (hm : Mirror p) (hs : p.slot i = some c) : Mirror (p.store i c2) := by
  intro fd
  rw [store_slot F p i c c2 hinv hs]
  show FD_ISSET fd p.read_set = true ↔ (fd = p.listen_fd ∨ _)
  rw [hm fd]
  by_cases hi : i = fd
  · rw [if_pos hi, ← hi, hs]
    exact ⟨fun _ => Or.inr Option.noConfusion, fun _ => Or.inr Option.noConfusion⟩
  · rw [if_neg hi]

theorem communicate_service_mirror (F : Nat) (p : Pool) (i : Int) (n : Int) (data : List Char)
    (hinv : PoolInv F p) (hm : Mirror p) : Mirror (communicate_service i p n data).1 := by
  cases hs : p.slot i with
  | none =>
    unfold communicate_service
    rw [hs]
    exact hm
  | some c =>
    by_cases hn : n = 0
    · subst hn
      rw [communicate_service_zero F p i c data hinv hs]
      exact remove_client_mirror F p i c hinv hm hs
    · rw [communicate_service_data F p i c n data hinv hs hn]
      exact store_mirror F p i c _ hinv hm hs

theorem Op.apply_mirror (F : Nat) (p : Pool) (op : Op) (hinv : PoolInv F p) (hm : Mirror p)
    (hok : op.ok p = true) : Mirror (op.apply F p) := by
  cases op with
  | accept connfd =>
    apply add_client_mirror F p connfd hinv hm
    simp only [Op.ok, Bool.or_eq_true, beq_iff_eq, Bool.and_eq_true, decide_eq_true_eq,
      Option.isNone_iff_eq_none] at hok
    exact hok
  | remove fd =>
    simp only [Op.ok] at hok
    cases hs : p.slot fd with
    | none => rw [hs] at hok; exact Bool.noConfusion hok
    | some c => exact remove_client_mirror F p fd c hinv hm hs
  | read fd n data => exact communicate_service_mirror F p fd n data hinv hm

theorem exec_mirror (F : Nat) (ops : List Op) (p q : Pool) (hinv : PoolInv F p) (hm : Mirror p)
    (h : exec F p ops = some q) : Mirror q := by
  induction ops generalizing p with
  | nil =>
    simp only [exec] at h
    rw [← Option.some.inj h]
    exact hm
  | cons op rest ih =>
    simp only [exec] at h
    by_cases hok : op.ok p = true
    · rw [if_pos hok] at h
      exact ih _ (Op.apply_inv F p op hinv hok) (Op.apply_mirror F p op hinv hm hok) h
    · rw [if_neg hok] at h
      exact Option.noConfusion h

theorem Reachable.well_formed (F : Nat) (lfd : Int) (p : Pool) (h : Reachable F lfd p) :
    WellFormed p := by
  have hinv := Reachable.inv F lfd p h
  obtain ⟨h0, h1, ops, hx⟩ := h
  exact ⟨fun i c hs => (hinv.live i c hs).2.2.1,
    exec_mirror F ops _ p (construct_pool_inv F lfd h0 h1) (construct_pool_mirror F lfd h0 h1) hx⟩

theorem send_msg_well_formed (F : Nat) (lfd : Int) (p : Pool) (i : Int)
    (hr : Reachable F lfd p) : WellFormed (send_msg i p).1 := by
  have hinv := Reachable.inv F lfd p hr
  have hw := Reachable.well_formed F lfd p hr
  unfold send_msg
  cases hs : p.slot i with
  | none => exact hw
  | some c =>
    obtain ⟨a1, a2, a3, a4, a5, _⟩ := send_msg_loop_fields c
    have hinv1 := store_inv F p i c (send_msg_loop c).1 hinv hs a1 a2 a3 a4 a5
    exact ⟨fun j d hj => (hinv1.live j d hj).2.2.1,
      store_mirror F p i c (send_msg_loop c).1 hinv hw.2 hs⟩

/-! ## C17: well-formedness -/

/-- C17. The pool `construct_pool(listen_fd)` is well-formed, every reachable
pool is well-formed, and from a reachable pool so is the pool left by
`add_client` (rejecting, or accepting a fresh descriptor), by `remove_client`
of a live descriptor, by `send_msg` and by `perform`: each live slot `i` holds
a session whose `fd` is `i`, and a descriptor is in the readiness set exactly
when it is the listener or its slot holds a live session. -/
theorem pool_well_formed (F : Nat) (lfd : Int) (h0 : 0 ≤ lfd) (h1 : lfd < F) :
    WellFormed (construct_pool F lfd) ∧
    ∀ p, Reachable F lfd p →
      WellFormed p ∧
      (∀ connfd, (Op.accept connfd).ok p = true → WellFormed (add_client F p connfd).2.1) ∧
      (∀ d, p.slot d ≠ none → WellFormed (remove_client p d).1) ∧
      (∀ i, WellFormed (send_msg i p).1) ∧
      (∀ connfd recv ready_set n_ready, (Op.accept connfd).ok p = true →
        WellFormed (perform F connfd recv p ready_set n_ready).2.1) := by
  refine ⟨Reachable.well_formed F lfd _ ⟨h0, h1, [], rfl⟩, ?_⟩
  intro p hr
  refine ⟨Reachable.well_formed F lfd p hr, ?_, ?_, fun i => send_msg_well_formed F lfd p i hr, ?_⟩
  · intro connfd hok
    exact Reachable.well_formed F lfd _ (Reachable.step F lfd p (Op.accept connfd) hr hok)
  · intro d hd
    have hok : (Op.remove d).ok p = true := by
      cases hs : p.slot d with
      | none => exact absurd hs hd
      | some c => simp [Op.ok, hs]
    exact Reachable.well_formed F lfd _ (Reachable.step F lfd p (Op.remove d) hr hok)
  · intro connfd recv ready_set n_ready hok
    exact Reachable.well_formed F lfd _
      (perform_reachable F lfd connfd recv ready_set n_ready p hr hok)

/-- C17 at concrete inputs. -/
theorem pool_well_formed_witness :
    WellFormed (construct_pool 8 3) ∧ WellFormed pool_AB ∧
    WellFormed (remove_client pool_AB 4).1 := by
  have h := pool_well_formed 8 3 (by decide) (by decide)
  have h2 := h.2 pool_AB ⟨by decide, by decide, [Op.accept 4, Op.accept 5], by decide⟩
  exact ⟨h.1, h2.1, h2.2.2.1 4 (by decide)⟩

/-! ### The reads of `communicate` -/

theorem reads_append (a b : List Event) : reads (a ++ b) = reads a ++ reads b := by
  unfold reads
  rw [List.filterMap_append]

theorem reads_broadcast (x : Nat) (p : Pool) (data : List Char) (size : Nat) :
    reads (broadcast x p data size) = [] := by
  apply List.eq_nil_iff_forall_not_mem.mpr
  intro fd hfd
  unfold reads at hfd
  rw [List.mem_filterMap] at hfd
  obtain ⟨e, he, hm⟩ := hfd
  unfold broadcast at he
  rw [List.mem_filterMap] at he
  obtain ⟨i, _, hi⟩ := he
  cases hs : p.slot (i : Int) with
  | none =>
    rw [hs] at hi
    exact Option.noConfusion hi
  | some c =>
    rw [hs] at hi
    simp only [] at hi
    by_cases hx : c.id = x
    · rw [if_pos hx] at hi
      exact Option.noConfusion hi
    · rw [if_neg hx] at hi
      rw [← Option.some.inj hi] at hm
      exact Option.noConfusion hm

theorem reads_cons_recv (i n : Int) (l : List Event) :
    reads (Event.recv i n :: l) = i :: reads l := rfl

theorem reads_communicate_service (F : Nat) (p : Pool) (i : Int) (c : Client) (n : Int)
    (data : List Char) (hinv : PoolInv F p) (hs : p.slot i = some c) :
    reads (communicate_service i p n data).2 = [i] := by
  by_cases hn : n = 0
  · subst hn
    rw [communicate_service_zero F p i c data hinv hs, reads_cons_recv, reads_append,
      reads_broadcast]
    rfl
  · rw [communicate_service_data F p i c n data hinv hs hn, reads_cons_recv, reads_broadcast]

theorem communicate_service_slot (F : Nat) (p : Pool) (i j : Int) (n : Int) (data : List Char)
    (hinv : PoolInv F p) (hij : i ≠ j) :
    (communicate_service i p n data).1.slot j = p.slot j := by
  cases hs : p.slot i with
  | none =>
    unfold communicate_service
    rw [hs]
  | some c =>
    by_cases hn : n = 0
    · subst hn
      rw [communicate_service_zero F p i c data hinv hs,
        (remove_client_spec p i).2.2.2.2.2.1 j, if_neg hij]
    · rw [communicate_service_data F p i c n data hinv hs hn]
      show (p.store i _).slot j = _
      rw [store_slot F p i c _ hinv hs, if_neg hij]

theorem filter_ge_cons (l : List Int) (i : Int) (hl : l.Pairwise (fun a b => a < b))
    (hi : i ∈ l) :
    l.filter (fun fd => decide (i ≤ fd)) = i :: l.filter (fun fd => decide (i + 1 ≤ fd)) := by
  induction l with
  | nil => exact absurd hi (List.not_mem_nil _)
  | cons a t ih =>
    rw [List.pairwise_cons] at hl
    by_cases ha : a = i
    · subst ha
      have e1 : List.filter (fun fd => decide (a ≤ fd)) (a :: t) =
          a :: List.filter (fun fd => decide (a ≤ fd)) t := by simp
      have e2 : List.filter (fun fd => decide (a + 1 ≤ fd)) (a :: t) =
          List.filter (fun fd => decide (a + 1 ≤ fd)) t := by simp
      rw [e1, e2]
      congr 1
      apply List.filter_congr
      intro b hb
      have := hl.1 b hb
      simp only [decide_eq_decide]
      omega
    · have hit : i ∈ t := by
        rcases List.mem_cons.mp hi with h | h
        · exact absurd h.symm ha
        · exact h
      have hlt := hl.1 i hit
      have e1 : List.filter (fun fd => decide (i ≤ fd)) (a :: t) =
          List.filter (fun fd => decide (i ≤ fd)) t := by
        rw [List.filter_cons, if_neg]
        simp only [decide_eq_true_eq]; omega
      have e2 : List.filter (fun fd => decide (i + 1 ≤ fd)) (a :: t) =
          List.filter (fun fd => decide (i + 1 ≤ fd)) t := by
        rw [List.filter_cons, if_neg]
        simp only [decide_eq_true_eq]; omega
      rw [e1, e2]
      exact ih hl.2 hit

theorem filter_ge_skip (l : List Int) (i : Int) (hi : i ∉ l) :
    l.filter (fun fd => decide (i ≤ fd)) = l.filter (fun fd => decide (i + 1 ≤ fd)) := by
  apply List.filter_congr
  intro b hb
  have : b ≠ i := fun h => hi (h ▸ hb)
  simp only [decide_eq_decide]
  omega

theorem ready_fds_sorted (p : Pool) (rs : List Bool) :
    (ready_fds p rs).Pairwise (fun a b => a < b) :=
  List.Pairwise.filter _ (live_fds_sorted p)

theorem mem_ready_fds (p : Pool) (rs : List Bool) (fd : Int) :
    fd ∈ ready_fds p rs ↔ p.slot fd ≠ none ∧ FD_ISSET fd rs = true := by
  unfold ready_fds
  rw [List.mem_filter, mem_live_fds]

theorem ready_fds_above (F : Nat) (p q : Pool) (rs : List Bool) (i : Int)
    (hp : PoolInv F p) (hq : PoolInv F q) (h : ∀ j, i ≤ j → q.slot j = p.slot j) :
    (ready_fds q rs).filter (fun fd => decide (i ≤ fd)) =
      (ready_fds p rs).filter (fun fd => decide (i ≤ fd)) := by
  unfold ready_fds live_fds
  rw [hp.clients_len, hq.clients_len]
  simp only [List.filter_filter]
  apply List.filter_congr
  intro fd _
  by_cases hfd : i ≤ fd
  · rw [h fd hfd]
  · simp [hfd]

theorem budget_cut_cons (n : Int) (i : Int) (l : List Int) (hn : n ≠ 0) :
    budget_cut n (i :: l) = i :: budget_cut (n - 1) l := by
  unfold budget_cut first_k
  by_cases hneg : n < 0
  · rw [if_pos hneg, if_pos (by omega)]
  · rw [if_neg hneg, if_neg (by omega)]
    have e1 : (min n ((i :: l).length : Int)).toNat = (min (n - 1) (l.length : Int)).toNat + 1 := by
      simp only [List.length_cons]
      omega
    rw [e1, List.take_succ_cons]

theorem budget_cut_zero (l : List Int) : budget_cut 0 l = [] := by
  simp [budget_cut, first_k]

theorem budget_cut_nil (n : Int) : budget_cut n [] = [] := by
  unfold budget_cut first_k
  split <;> simp

theorem communicate_loop_reads (F : Nat) (recv : Int → Int × List Char) (rs : List Bool)
    (fuel : Nat) (i n : Int) (p : Pool) (hinv : PoolInv F p)
    (hf : (p.max_fd + 1 - i).toNat ≤ fuel) :
    reads (communicate_loop recv rs fuel i n p).2 =
      budget_cut n ((ready_fds p rs).filter (fun fd => decide (i ≤ fd))) := by
  have hbeyond : ∀ q : Pool, PoolInv F q → ∀ k : Int, q.max_fd < k →
      (ready_fds q rs).filter (fun fd => decide (k ≤ fd)) = [] := by
    intro q hq k hk
    apply List.eq_nil_iff_forall_not_mem.mpr
    intro fd hfd
    rw [List.mem_filter, mem_ready_fds] at hfd
    cases hs : q.slot fd with
    | none => exact hfd.1.1 hs
    | some c =>
      have := (hq.live fd c hs).2.1
      have := hfd.2
      simp only [decide_eq_true_eq] at this
      omega
  induction fuel generalizing i n p with
  | zero =>
    rw [hbeyond p hinv i (by omega), budget_cut_nil]
    rfl
  | succ k ih =>
    rw [communicate_loop_succ]
    by_cases hg : i ≤ p.max_fd ∧ n ≠ 0
    · rw [if_pos hg]
      cases hs : p.slot i with
      | none =>
        simp only []
        rw [ih (i + 1) n p hinv (by omega)]
        rw [filter_ge_skip _ i]
        rw [mem_ready_fds]
        exact fun h => h.1 hs
      | some c =>
        simp only []
        by_cases hrd : (!FD_ISSET i rs) = true
        · rw [if_pos hrd, ih (i + 1) n p hinv (by omega)]
          rw [filter_ge_skip _ i]
          rw [mem_ready_fds]
          intro h
          rw [h.2] at hrd
          exact Bool.noConfusion hrd
        · rw [if_neg hrd]
          have hready : FD_ISSET i rs = true := by
            cases h : FD_ISSET i rs with
            | true => rfl
            | false => rw [h] at hrd; exact absurd rfl hrd
          have hfd : c.fd = i := (hinv.live i c hs).2.2.1
          have hinv2 := communicate_service_inv F p i (recv c.fd).1 (recv c.fd).2 hinv
          have hm := (communicate_service_frame F p i (recv c.fd).1 (recv c.fd).2 hinv).2.2
          show reads (_ ++ _) = _
          rw [reads_append, reads_communicate_service F p i c _ _ hinv hs,
            ih (i + 1) (n - 1) _ hinv2 (by omega)]
          rw [ready_fds_above F p _ rs (i + 1) hinv hinv2
            (fun j hj => communicate_service_slot F p i j _ _ hinv (by omega))]
          rw [filter_ge_cons _ i (ready_fds_sorted p rs)
            ((mem_ready_fds p rs i).mpr ⟨by rw [hs]; exact Option.noConfusion, hready⟩)]
          rw [budget_cut_cons n i _ hg.2]
          rfl
    · rw [if_neg hg]
      by_cases hn : n = 0
      · rw [hn, budget_cut_zero]
        rfl
      · rw [hbeyond p hinv i (by omega), budget_cut_nil]
        rfl

theorem communicate_reads (F : Nat) (recv : Int → Int × List Char) (rs : List Bool)
    (n : Int) (p : Pool) (hinv : PoolInv F p) :
    reads (communicate recv p rs n).2 = budget_cut n (ready_fds p rs) := by
  unfold communicate
  rw [communicate_loop_reads F recv rs _ 0 n p hinv (by omega)]
  congr 1
  apply List.filter_eq_self.mpr
  intro fd hfd
  rw [mem_ready_fds] at hfd
  cases hs : p.slot fd with
  | none => exact absurd hs hfd.1
  | some c =>
    have := (slot_range p fd c hs).1
    simpa using this


theorem reads_map_send (l : List Int) (b : List Char) :
    reads (l.map (fun fd => Event.send fd b)) = [] := by
  induction l with
  | nil => rfl
  | cons a t ih =>
    rw [List.map_cons]
    exact ih

theorem perform_accept_eq (F : Nat) (p : Pool) (connfd : Int)
    (recv : Int → Int × List Char) (rs : List Bool) (n : Int)
    (hinv : PoolInv F p) (hready : FD_ISSET p.listen_fd rs = true)
    (h1 : p.listen_fd < connfd) (h2 : connfd < F) (h3 : p.slot connfd = none) :
    perform F connfd recv p rs n =
      (0, (communicate recv (add_client F p connfd).2.1 rs (n - 1)).1,
        Event.accept p.listen_fd connfd ::
          ((live_fds p).map (fun fd => Event.send fd
              ("server: client " ++ Nat.repr p.next_id ++ " just arrived\n").toList) ++
            (communicate recv (add_client F p connfd).2.1 rs (n - 1)).2)) := by
  have h0 : 0 ≤ connfd := by have := hinv.listen_lo; omega
  have hnr : ¬ (connfd = -1 ∨ connfd ≥ F) := by omega
  have hinv1 : PoolInv F (add_client F p connfd).2.1 :=
    add_client_inv F p connfd hinv (Or.inr ⟨h1, h3⟩)
  have hslot : (add_client F p connfd).2.1.slot connfd = some (create_client connfd p.next_id) := by
    rw [add_client_slot F p connfd hinv h0 h2, if_pos rfl]
  obtain ⟨a1, a2, _⟩ := add_client_accept F p connfd hnr
  unfold perform
  rw [if_pos hready]
  simp only [a1, a2]
  rw [if_neg (by omega), hslot]
  simp only [List.singleton_append, List.cons_append, List.nil_append]
  rw [broadcast_eq F _ hinv1, first_msg_read]
  show (0, _, Event.accept p.listen_fd connfd ::
    ((recipients p.next_id (add_client F p connfd).2.1).map _ ++ _)) = _
  rw [recipients_add_client F p connfd hinv h1 h2 h3]

theorem perform_reject_eq (F : Nat) (p : Pool) (connfd : Int)
    (recv : Int → Int × List Char) (rs : List Bool) (n : Int)
    (hready : FD_ISSET p.listen_fd rs = true) (hrej : connfd = -1 ∨ connfd ≥ F) :
    perform F connfd recv p rs n = (-1, p, [Event.accept p.listen_fd connfd]) := by
  unfold perform
  rw [if_pos hready, add_client_reject F p connfd hrej]
  rfl

theorem perform_idle_eq (F : Nat) (p : Pool) (connfd : Int)
    (recv : Int → Int × List Char) (rs : List Bool) (n : Int)
    (hready : FD_ISSET p.listen_fd rs = false) :
    perform F connfd recv p rs n = (0, (communicate recv p rs n).1, (communicate recv p rs n).2) := by
  unfold perform
  rw [hready]
  rfl

theorem Op.ok_accept (p : Pool) (connfd : Int) (hok : (Op.accept connfd).ok p = true) :
    connfd = -1 ∨ (p.listen_fd < connfd ∧ p.slot connfd = none) := by
  simp only [Op.ok, Bool.or_eq_true, beq_iff_eq, Bool.and_eq_true, decide_eq_true_eq,
    Option.isNone_iff_eq_none] at hok
  exact hok

theorem perform_reads (F : Nat) (p : Pool) (connfd : Int)
    (recv : Int → Int × List Char) (rs : List Bool) (n : Int)
    (hinv : PoolInv F p) (hok : (Op.accept connfd).ok p = true) :
    (FD_ISSET p.listen_fd rs = true → (connfd = -1 ∨ connfd ≥ F) →
      reads (perform F connfd recv p rs n).2.2 = []) ∧
    (FD_ISSET p.listen_fd rs = true → ¬ (connfd = -1 ∨ connfd ≥ F) →
      reads (perform F connfd recv p rs n).2.2 =
        budget_cut (n - 1) (ready_fds (add_client F p connfd).2.1 rs)) ∧
    (FD_ISSET p.listen_fd rs = false →
      reads (perform F connfd recv p rs n).2.2 = budget_cut n (ready_fds p rs)) := by
  refine ⟨?_, ?_, ?_⟩
  · intro hl hrej
    rw [perform_reject_eq F p connfd recv rs n hl hrej]
    rfl
  · intro hl hrej
    have hc := Op.ok_accept p connfd hok
    have h13 : p.listen_fd < connfd ∧ p.slot connfd = none := by
      rcases hc with h | h
      · exact absurd (Or.inl h) hrej
      · exact h
    rw [perform_accept_eq F p connfd recv rs n hinv hl h13.1 (by omega) h13.2]
    show reads ([Event.accept p.listen_fd connfd] ++ (_ ++ _)) = _
    rw [reads_append, reads_append, reads_map_send,
      communicate_reads F recv rs (n - 1) _ (add_client_inv F p connfd hinv hc)]
    rfl
  · intro hl
    rw [perform_idle_eq F p connfd recv rs n hl, communicate_reads F recv rs n p hinv]

/-! ## C14: the readiness budget -/

/-- C14, as stated, fails twice.  With clients on descriptors 4 and 5 ready,
the listener ready and a budget of 3, an `accept` that returns -1 ends
`perform` before any client is read, although the budget left would allow both.
With a budget of 0 and the listener ready, the budget left is -1, the test
`n_ready` of the loop never becomes zero, and both clients are read. -/
theorem perform_budget_counterexample :
    reads (perform 8 (-1) hello pool_AB ready_all 3).2.2 ≠
      first_k 2 (ready_fds pool_AB ready_all) ∧
    reads (perform 8 6 hello pool_AB ready_all 0).2.2 ≠
      first_k (-1) (ready_fds (add_client 8 pool_AB 6).2.1 ready_all) := by
  decide

/-- C14, amended. In one call of `perform` on a reachable pool: if the listener
is ready and the `accept` is rejected, `perform` returns -1 and no client is
read.  If the listener is ready and the `accept` succeeds, the calls issued are
the `accept`, then the greeting sends, then those of `communicate` run with the
budget less one; if the listener is not ready, `communicate` runs with the
whole budget.  For a budget `m` given to `communicate` that is not negative,
the clients read are exactly the first `k` live ready clients in ascending
descriptor order, `k` the smaller of `m` and their number, each read once, the
ready clients above them left unread; for a negative `m` every live ready
client is read. -/
theorem perform_budget (F : Nat) (lfd : Int) (p : Pool) (connfd : Int)
    (recv : Int → Int × List Char) (rs : List Bool) (n : Int)
    (hr : Reachable F lfd p) (hok : (Op.accept connfd).ok p = true) :
    (FD_ISSET p.listen_fd rs = true → (connfd = -1 ∨ connfd ≥ F) →
      perform F connfd recv p rs n = (-1, p, [Event.accept p.listen_fd connfd])) ∧
    (FD_ISSET p.listen_fd rs = true → ¬ (connfd = -1 ∨ connfd ≥ F) →
      (perform F connfd recv p rs n).2.2 =
        Event.accept p.listen_fd connfd ::
          ((live_fds p).map (fun fd => Event.send fd
              ("server: client " ++ Nat.repr p.next_id ++ " just arrived\n").toList) ++
            (communicate recv (add_client F p connfd).2.1 rs (n - 1)).2) ∧
      (0 ≤ n - 1 → reads (perform F connfd recv p rs n).2.2 =
        first_k (n - 1) (ready_fds (add_client F p connfd).2.1 rs)) ∧
      (n - 1 < 0 → reads (perform F connfd recv p rs n).2.2 =
        ready_fds (add_client F p connfd).2.1 rs)) ∧
    (FD_ISSET p.listen_fd rs = false →
      (0 ≤ n → reads (perform F connfd recv p rs n).2.2 = first_k n (ready_fds p rs)) ∧
      (n < 0 → reads (perform F connfd recv p rs n).2.2 = ready_fds p rs)) ∧
    (∀ q : Pool, (ready_fds q rs).Pairwise (fun a b => a < b)) ∧
    (∀ (q : Pool) (fd : Int), fd ∈ ready_fds q rs ↔ q.slot fd ≠ none ∧ FD_ISSET fd rs = true) := by
  have hinv := hr.inv
  obtain ⟨r1, r2, r3⟩ := perform_reads F p connfd recv rs n hinv hok
  refine ⟨fun hl hrej => perform_reject_eq F p connfd recv rs n hl hrej, ?_, ?_,
    fun q => ready_fds_sorted q rs, fun q fd => mem_ready_fds q rs fd⟩
  · intro hl hrej
    have hc := Op.ok_accept p connfd hok
    have h13 : p.listen_fd < connfd ∧ p.slot connfd = none := by
      rcases hc with h | h
      · exact absurd (Or.inl h) hrej
      · exact h
    refine ⟨?_, ?_, ?_⟩
    · rw [perform_accept_eq F p connfd recv rs n hinv hl h13.1 (by omega) h13.2]
    · intro hn
      rw [r2 hl hrej, budget_cut, if_neg (by omega)]
    · intro hn
      rw [r2 hl hrej, budget_cut, if_pos hn]
  · intro hl
    refine ⟨?_, ?_⟩
    · intro hn
      rw [r3 hl, budget_cut, if_neg (by omega)]
    · intro hn
      rw [r3 hl, budget_cut, if_pos hn]

/-- C14 (amended) at a concrete input: listener and clients 4 and 5 ready, budget
2: the listener takes one unit and only client 4 is read. -/
theorem perform_budget_witness :
    reads (perform 8 6 hello pool_AB ready_all 2).2.2 = [4] ∧
    reads (perform 8 6 hello pool_AB ready_all 2).2.2 =
      first_k (2 - 1) (ready_fds (add_client 8 pool_AB 6).2.1 ready_all) := by
  have h := perform_budget 8 3 pool_AB 6 hello ready_all 2
    ⟨by decide, by decide, [Op.accept 4, Op.accept 5], by decide⟩ (by decide)
  exact ⟨by decide, (h.2.1 (by decide) (by decide)).2.1 (by decide)⟩


theorem communicate_loop_slot (F : Nat) (recv : Int → Int × List Char) (rs : List Bool)
    (fuel : Nat) (i n : Int) (p : Pool) (j : Int) (hinv : PoolInv F p)
    (hj : FD_ISSET j rs = false) :
    (communicate_loop recv rs fuel i n p).1.slot j = p.slot j := by
  induction fuel generalizing i n p with
  | zero => rfl
  | succ k ih =>
    rw [communicate_loop_succ]
    by_cases hg : i ≤ p.max_fd ∧ n ≠ 0
    · rw [if_pos hg]
      cases hs : p.slot i with
      | none => exact ih (i + 1) n p hinv
      | some c =>
        simp only []
        by_cases hrd : (!FD_ISSET i rs) = true
        · rw [if_pos hrd]
          exact ih (i + 1) n p hinv
        · rw [if_neg hrd]
          have hij : i ≠ j := by
            intro h
            rw [h, hj] at hrd
            exact hrd rfl
          show (communicate_loop recv rs k (i + 1) (n - 1) _).1.slot j = _
          rw [ih (i + 1) (n - 1) _ (communicate_service_inv F p i _ _ hinv),
            communicate_service_slot F p i j _ _ hinv hij]
    · rw [if_neg hg]

theorem not_ready_of_fresh (p : Pool) (rs : List Bool) (connfd : Int)
    (hm : Mirror p) (hsub : ∀ fd, FD_ISSET fd rs = true → FD_ISSET fd p.read_set = true)
    (h1 : p.listen_fd < connfd) (h3 : p.slot connfd = none) :
    FD_ISSET connfd rs = false := by
  cases h : FD_ISSET connfd rs with
  | false => rfl
  | true =>
    have := (hm connfd).mp (hsub connfd h)
    rcases this with e | e
    · omega
    · exact absurd h3 e

theorem ready_fds_add_client (F : Nat) (p : Pool) (rs : List Bool) (connfd : Int)
    (hinv : PoolInv F p) (h1 : p.listen_fd < connfd) (h2 : connfd < F)
    (hnr : FD_ISSET connfd rs = false) :
    ready_fds (add_client F p connfd).2.1 rs = ready_fds p rs := by
  have h0 : 0 ≤ connfd := by have := hinv.listen_lo; omega
  have hslot := add_client_slot F p connfd hinv h0 h2
  have hlen : (add_client F p connfd).2.1.clients.length = p.clients.length := by
    rw [(add_client_accept F p connfd (by omega)).2.2.2.2.2.2, tbl_set_length]
  unfold ready_fds live_fds
  rw [List.filter_filter, List.filter_filter, hlen]
  apply List.filter_congr
  intro fd _
  rw [hslot fd]
  by_cases hc : connfd = fd
  · rw [← hc, hnr]
    rfl
  · rw [if_neg hc]

/-! ## C15: the one-tick lag -/

/-- C15. In every reachable pool, for a ready set contained in the readiness
set of the pool at the start of the tick and whatever the budget, a fresh
descriptor accepted by the listener step of `perform` is not read in that call
of `perform`: when `perform` returns, its slot still holds the session as
created, with `is_new_line` true. -/
theorem perform_one_tick_lag (F : Nat) (lfd : Int) (p : Pool) (connfd : Int)
    (recv : Int → Int × List Char) (rs : List Bool) (n : Int)
    (hr : Reachable F lfd p)
    (hsub : ∀ fd, FD_ISSET fd rs = true → FD_ISSET fd p.read_set = true)
    (hready : FD_ISSET p.listen_fd rs = true)
    (h1 : p.listen_fd < connfd) (h2 : connfd < F) (h3 : p.slot connfd = none) :
    connfd ∉ reads (perform F connfd recv p rs n).2.2 ∧
    (perform F connfd recv p rs n).2.1.slot connfd = some (create_client connfd p.next_id) ∧
    (create_client connfd p.next_id).is_new_line = true := by
  have hinv := hr.inv
  have hw := Reachable.well_formed F lfd p hr
  have hnr := not_ready_of_fresh p rs connfd hw.2 hsub h1 h3
  have h0 : 0 ≤ connfd := by have := hinv.listen_lo; omega
  have hinv1 : PoolInv F (add_client F p connfd).2.1 :=
    add_client_inv F p connfd hinv (Or.inr ⟨h1, h3⟩)
  have hok : (Op.accept connfd).ok p = true := by
    simp [Op.ok, h1, h3]
  refine ⟨?_, ?_, rfl⟩
  · rw [(perform_reads F p connfd recv rs n hinv hok).2.1 hready (by omega)]
    intro hmem
    have hsubset : connfd ∈ ready_fds (add_client F p connfd).2.1 rs := by
      unfold budget_cut first_k at hmem
      split at hmem
      · exact hmem
      · exact List.mem_of_mem_take hmem
    rw [mem_ready_fds, hnr] at hsubset
    exact Bool.noConfusion hsubset.2
  · rw [perform_accept_eq F p connfd recv rs n hinv hready h1 h2 h3]
    show (communicate recv (add_client F p connfd).2.1 rs (n - 1)).1.slot connfd = _
    unfold communicate
    rw [communicate_loop_slot F recv rs _ 0 (n - 1) _ connfd hinv1 hnr,
      add_client_slot F p connfd hinv h0 h2, if_pos rfl]

theorem ready_all_monitored (fd : Int) (hfd : FD_ISSET fd ready_all = true) :
    FD_ISSET fd pool_AB.read_set = true := by
  have hrg := FD_ISSET_range ready_all fd hfd
  have h8 : (ready_all.length : Int) = 8 := rfl
  rw [h8] at hrg
  have : fd = 0 ∨ fd = 1 ∨ fd = 2 ∨ fd = 3 ∨ fd = 4 ∨ fd = 5 ∨ fd = 6 ∨ fd = 7 := by omega
  rcases this with e | e | e | e | e | e | e | e <;> subst e <;> revert hfd <;> decide

/-- C15 at a concrete input: descriptor 6 is accepted while 4 and 5 are ready;
4 and 5 are read, 6 is not. -/
theorem perform_one_tick_lag_witness :
    6 ∉ reads (perform 8 6 hello pool_AB ready_all 3).2.2 ∧
    (perform 8 6 hello pool_AB ready_all 3).2.1.slot 6 = some (create_client 6 2) ∧
    reads (perform 8 6 hello pool_AB ready_all 3).2.2 = [4, 5] := by
  have h := perform_one_tick_lag 8 3 pool_AB 6 hello ready_all 3
    ⟨by decide, by decide, [Op.accept 4, Op.accept 5], by decide⟩ ready_all_monitored
    (by decide) (by decide) (by decide) (by decide)
  exact ⟨h.1, h.2.1, by decide⟩

theorem filter_length_split {α : Type} [DecidableEq α] (l : List α) (a : α) (pr : α → Bool)
    (hl : l.Nodup) (ha : a ∈ l) :
    (l.filter pr).length =
      (l.filter (fun x => pr x && decide (x ≠ a))).length + (if pr a then 1 else 0) := by
  induction l with
  | nil => exact absurd ha (List.not_mem_nil _)
  | cons b t ih =>
    rw [List.nodup_cons] at hl
    by_cases hb : b = a
    · subst hb
      have hrest : t.filter (fun x => pr x && decide (x ≠ b)) = t.filter pr := by
        apply List.filter_congr
        intro x hx
        have : x ≠ b := fun h => hl.1 (h ▸ hx)
        simp [this]
      rw [List.filter_cons, List.filter_cons]
      simp only [ne_eq, not_true_eq_false, decide_False, Bool.and_false]
      rw [hrest]
      cases pr b <;> simp
    · have hat : a ∈ t := by
        rcases List.mem_cons.mp ha with h | h
        · exact absurd h.symm hb
        · exact h
      have := ih hl.2 hat
      rw [List.filter_cons, List.filter_cons]
      have hd : decide (b ≠ a) = true := by simp [hb]
      rw [hd, Bool.and_true]
      cases pr b
      · simpa using this
      · simp only [if_true, List.length_cons]
        omega

theorem ready_count (F : Nat) (p : Pool) (rs : List Bool) (hinv : PoolInv F p) (hm : Mirror p)
    (hsub : ∀ fd, FD_ISSET fd rs = true → FD_ISSET fd p.read_set = true) :
    ((List.range F).filter (fun (i : Nat) => FD_ISSET (i : Int) rs)).length =
      (ready_fds p rs).length + (if FD_ISSET p.listen_fd rs then 1 else 0) := by
  have hl0 := hinv.listen_lo
  have hl1 := hinv.listen_hi
  have hmem : p.listen_fd.toNat ∈ List.range F := List.mem_range.mpr (by omega)
  rw [filter_length_split (List.range F) p.listen_fd.toNat _ (List.nodup_range F) hmem]
  have hcast : ((p.listen_fd.toNat : Nat) : Int) = p.listen_fd := by omega
  rw [hcast]
  congr 1
  unfold ready_fds live_fds
  rw [hinv.clients_len, List.filter_filter, List.filter_map, List.length_map]
  congr 1
  apply List.filter_congr
  intro i _
  simp only [Function.comp]
  cases hrd : FD_ISSET (i : Int) rs with
  | false => simp
  | true =>
    simp only [Bool.true_and]
    by_cases hi : i = p.listen_fd.toNat
    · have hil : (i : Int) = p.listen_fd := by omega
      have hs : p.slot (i : Int) = none := by
        cases h : p.slot (i : Int) with
        | none => rfl
        | some c =>
          have := (hinv.live i c h).1
          omega
      rw [hil] at hs
      simp [hi, hs, hcast]
    · have hil : (i : Int) ≠ p.listen_fd := by omega
      have := (hm i).mp (hsub i hrd)
      rcases this with e | e
      · exact absurd e hil
      · cases h : p.slot (i : Int) with
        | none => exact absurd h e
        | some c => simp [hi]

theorem first_k_length (l : List Int) : first_k (l.length : Int) l = l := by
  unfold first_k
  simp

/-! ## C18: no ready client is starved -/

/-- C18. In every reachable pool, when the ready set is contained in the
readiness set of the pool, `n_ready` is the number of descriptors in the ready
set, and `perform` succeeds, the clients read in the tick are exactly the
clients that were live and ready at its start, each once, in ascending
descriptor order, whatever the reads return (also when sessions are removed
and `max_fd` is lowered during the scan). -/
theorem perform_no_starvation (F : Nat) (lfd : Int) (p : Pool) (connfd : Int)
    (recv : Int → Int × List Char) (rs : List Bool) (n : Int)
    (hr : Reachable F lfd p) (hok : (Op.accept connfd).ok p = true)
    (hsub : ∀ fd, FD_ISSET fd rs = true → FD_ISSET fd p.read_set = true)
    (hcount : n = (((List.range F).filter (fun (i : Nat) => FD_ISSET (i : Int) rs)).length : Nat))
    (hsucc : (perform F connfd recv p rs n).1 ≠ -1) :
    reads (perform F connfd recv p rs n).2.2 = ready_fds p rs ∧
    (ready_fds p rs).Pairwise (fun a b => a < b) ∧
    (∀ fd, fd ∈ ready_fds p rs ↔ p.slot fd ≠ none ∧ FD_ISSET fd rs = true) := by
  have hinv := hr.inv
  have hw := Reachable.well_formed F lfd p hr
  have hc := ready_count F p rs hinv hw.2 hsub
  obtain ⟨_, r2, r3⟩ := perform_reads F p connfd recv rs n hinv hok
  refine ⟨?_, ready_fds_sorted p rs, mem_ready_fds p rs⟩
  cases hl : FD_ISSET p.listen_fd rs with
  | true =>
    have hrej : ¬ (connfd = -1 ∨ connfd ≥ F) := by
      intro h
      rw [perform_reject_eq F p connfd recv rs n hl h] at hsucc
      exact hsucc rfl
    have h13 : p.listen_fd < connfd ∧ p.slot connfd = none := by
      rcases Op.ok_accept p connfd hok with h | h
      · exact absurd (Or.inl h) hrej
      · exact h
    have hnr := not_ready_of_fresh p rs connfd hw.2 hsub h13.1 h13.2
    rw [r2 hl hrej, ready_fds_add_client F p rs connfd hinv h13.1 (by omega) hnr]
    rw [hl] at hc
    have hn : n - 1 = ((ready_fds p rs).length : Int) := by
      rw [hcount, hc]
      simp
    rw [hn, budget_cut, if_neg (by omega), first_k_length]
  | false =>
    rw [r3 hl]
    rw [hl] at hc
    have hn : n = ((ready_fds p rs).length : Int) := by
      rw [hcount, hc]
      simp
    rw [hn, budget_cut, if_neg (by omega), first_k_length]

/-- C18 at a concrete input: listener, 4 and 5 ready, `n_ready` 3, every read
returning zero bytes: both clients are read and removed. -/
theorem perform_no_starvation_witness :
    reads (perform 8 6 no_data pool_AB ready_all 3).2.2 = [4, 5] ∧
    reads (perform 8 6 no_data pool_AB ready_all 3).2.2 = ready_fds pool_AB ready_all := by
  have h := perform_no_starvation 8 3 pool_AB 6 no_data ready_all 3
    ⟨by decide, by decide, [Op.accept 4, Op.accept 5], by decide⟩ (by decide)
    ready_all_monitored (by decide) (by decide)
  exact ⟨by decide, h.1⟩

/-! ### Bounds of the buffer -/

theorem expand_bounds (v : Vla) (h : VlaBounds v) :
    VlaBounds (expand_buf_if_needed v) ∧ (expand_buf_if_needed v).size = v.size ∧
    (expand_buf_if_needed v).buf.take v.size = v.buf.take v.size ∧
    (expand_buf_if_needed v).size < (expand_buf_if_needed v).cap ∧
    ((expand_buf_if_needed v).cap = v.cap ∨
      (v.size = v.cap ∧ (expand_buf_if_needed v).cap = 2 * v.cap)) := by
  obtain ⟨hl, hp, hf⟩ := h
  unfold expand_buf_if_needed
  by_cases hlt : v.size < v.cap
  · rw [if_pos hlt]
    exact ⟨⟨hl, hp, hf⟩, rfl, rfl, hlt, Or.inl rfl⟩
  · have hsz : v.size = v.cap := by omega
    rw [if_neg hlt]
    have hcpy := ft_memcpy_eq (ft_xmalloc (v.cap * 2)) v.buf v.size (by omega)
      (by simp [ft_xmalloc]; omega)
    simp only [hcpy]
    refine ⟨⟨?_, ?_, ?_⟩, ?_, ?_, ?_, ?_⟩
    · simp [ft_xmalloc]; omega
    · show 1 ≤ v.cap * 2
      omega
    · show v.size ≤ v.cap * 2
      omega
    · trivial
    · show List.take v.size (List.take v.size v.buf ++ _) = List.take v.size v.buf
      rw [List.take_append_of_le_length (by simp; omega)]
      simp
    · show v.size < v.cap * 2
      omega
    · right
      exact ⟨hsz, by show v.cap * 2 = 2 * v.cap; omega⟩

theorem push_back_bounds (v : Vla) (c : Char) (h : VlaBounds v) :
    VlaBounds (push_back v c) ∧
    (push_back v c).size = v.size + 1 ∧
    (expand_buf_if_needed v).size < (expand_buf_if_needed v).buf.length ∧
    (push_back v c).buf.get? v.size = some c ∧
    (push_back v c).buf.take v.size = v.buf.take v.size ∧
    ((push_back v c).cap = v.cap ∨ (v.size = v.cap ∧ (push_back v c).cap = 2 * v.cap)) := by
  obtain ⟨⟨hl, hp, hf⟩, hs, hc, hlt, hcap⟩ := expand_bounds v h
  unfold push_back
  generalize expand_buf_if_needed v = w at *
  have hw : w.size < w.buf.length := by omega
  refine ⟨⟨?_, hp, ?_⟩, ?_, hw, ?_, ?_, hcap⟩
  · show (w.buf.set w.size c).length = w.cap
    simpa using hl
  · show w.size + 1 ≤ w.cap
    omega
  · show w.size + 1 = v.size + 1
    omega
  · show (w.buf.set w.size c).get? v.size = some c
    rw [← hs, List.get?_eq_getElem?, List.getElem?_set_self hw]
  · show (w.buf.set w.size c).take v.size = _
    rw [← hc, ← hs]
    apply List.ext_getElem
    · simp
    · intro i h1 h2
      simp at h1
      simp [List.getElem_take, List.getElem_set]
      omega

theorem push_back_tight (v : Vla) (c : Char) (h : VlaBounds v)
    (ht : (v.size = 0 ∧ v.cap = 1) ∨ v.cap < 2 * v.size) :
    (push_back v c).cap < 2 * (push_back v c).size := by
  obtain ⟨_, hs, _, _, _, hcap⟩ := push_back_bounds v c h
  have := h.fits
  rcases hcap with e | ⟨e1, e2⟩ <;> rcases ht with ⟨t1, t2⟩ | t <;> omega

theorem foldl_push_back_tight (bytes : List Char) (v : Vla) (h : VlaBounds v)
    (ht : (v.size = 0 ∧ v.cap = 1) ∨ v.cap < 2 * v.size) (hne : bytes ≠ []) :
    (bytes.foldl push_back v).cap < 2 * (bytes.foldl push_back v).size := by
  induction bytes generalizing v with
  | nil => exact absurd rfl hne
  | cons b rest ih =>
    rw [List.foldl_cons]
    have hb := (push_back_bounds v b h).1
    have htb := push_back_tight v b h ht
    cases rest with
    | nil => exact htb
    | cons b2 rest2 => exact ih (push_back v b) hb (Or.inr htb) (List.cons_ne_nil _ _)

theorem pow_two_least (k j N : Nat) (h1 : 2 ^ k < 2 * N) (h2 : N ≤ 2 ^ j) : 2 ^ k ≤ 2 ^ j := by
  by_contra hc
  have hlt : 2 ^ j < 2 ^ k := by omega
  have hjk : j < k := (Nat.pow_lt_pow_iff_right (by omega)).mp hlt
  have : 2 ^ (j + 1) ≤ 2 ^ k := Nat.pow_le_pow_right (by omega) hjk
  rw [pow_succ] at this
  omega

/-! ## C19: the buffer stays in bounds -/

/-- C19. For a buffer whose block has `cap` bytes with `1 <= cap` and
`size <= cap`, `push_back` keeps these bounds and adds one to `size`; the byte
is written at the index `size` of the possibly reallocated buffer, which is
strictly below its capacity and inside its block; the bytes present before the
append are unchanged, also across a reallocation; and the capacity is kept or
doubled, doubled only when the buffer was full.  The initial buffer of
`send_msg` has these bounds, and so has the buffer `send_msg` assembles.  After
N >= 1 appends to the initial buffer the capacity is a power of two, at least
N, below 2N, and at most every power of two that is at least N: the least
power of two that is at least N. -/
theorem push_back_in_bounds :
    (∀ (v : Vla) (c : Char), VlaBounds v →
      VlaBounds (push_back v c) ∧
      (push_back v c).size = v.size + 1 ∧
      (expand_buf_if_needed v).size < (expand_buf_if_needed v).cap ∧
      (expand_buf_if_needed v).size < (expand_buf_if_needed v).buf.length ∧
      (push_back v c).buf.get? v.size = some c ∧
      (push_back v c).buf.take v.size = v.buf.take v.size ∧
      ((push_back v c).cap = v.cap ∨ (v.size = v.cap ∧ (push_back v c).cap = 2 * v.cap))) ∧
    VlaBounds Vla.init ∧
    (∀ c : Client, VlaBounds (send_msg_loop c).2) ∧
    (∀ bytes : List Char, bytes ≠ [] →
      (∃ k, (bytes.foldl push_back Vla.init).cap = 2 ^ k) ∧
      bytes.length ≤ (bytes.foldl push_back Vla.init).cap ∧
      (bytes.foldl push_back Vla.init).cap < 2 * bytes.length ∧
      (∀ j, bytes.length ≤ 2 ^ j → (bytes.foldl push_back Vla.init).cap ≤ 2 ^ j)) := by
  have hinit : VlaBounds Vla.init :=
    ⟨by simp [Vla.init, ft_xmalloc], by simp [Vla.init], by simp [Vla.init]⟩
  refine ⟨?_, hinit, ?_, ?_⟩
  · intro v c h
    obtain ⟨a1, a2, a3, a4, a5, a6⟩ := push_back_bounds v c h
    exact ⟨a1, a2, (expand_bounds v h).2.2.2.1, a3, a4, a5, a6⟩
  · intro c
    have h := send_msg_fold c (List.range c.recv_data.size.toNat) c Vla.init Vla.init_ok rfl rfl
    simp only at h
    obtain ⟨_, h2, _⟩ := h
    change VlaOk (send_msg_loop c).2 at h2
    obtain ⟨k, hk⟩ := h2.pow
    exact ⟨h2.len, by rw [hk]; exact Nat.one_le_two_pow, h2.fits⟩
  · intro bytes hne
    obtain ⟨⟨hl, hf, k, hk⟩, hs, _⟩ := foldl_push_back_ok bytes Vla.init Vla.init_ok
    have hsz : (bytes.foldl push_back Vla.init).size = bytes.length := by
      rw [hs]; simp [Vla.init]
    have ht := foldl_push_back_tight bytes Vla.init hinit (Or.inl ⟨rfl, rfl⟩) hne
    rw [hsz] at ht hf
    refine ⟨⟨k, hk⟩, hf, ht, ?_⟩
    intro j hj
    rw [hk] at ht ⊢
    exact pow_two_least k j bytes.length ht hj

/-- C19 at concrete inputs: three appends give capacity 4, five give 8. -/
theorem push_back_in_bounds_witness :
    ("abc".toList.foldl push_back Vla.init).cap = 4 ∧
    ("abcde".toList.foldl push_back Vla.init).cap = 8 ∧
    ("abcde".toList.foldl push_back Vla.init).cap < 2 * "abcde".toList.length ∧
    VlaBounds (push_back Vla.init 'a') := by
  have h := push_back_in_bounds
  exact ⟨by decide, by decide, (h.2.2.2 "abcde".toList (by decide)).2.2.1,
    (h.1 Vla.init 'a' h.2.1).1⟩

/-! ### No table access of the event loop leaves its table -/

theorem tbl_get_clients (p : Pool) (i : Int) (h0 : 0 ≤ i) (h1 : i < p.clients.length) :
    tbl_get p.clients i = some (p.slot i) := by
  unfold Pool.slot tbl_get
  rw [if_neg (by omega)]
  have : i.toNat < p.clients.length := by omega
  rw [List.get?_eq_getElem?, List.getElem?_eq_getElem this]
  rfl

theorem tbl_get_bits (rs : List Bool) (i : Int) (h0 : 0 ≤ i) (h1 : i < rs.length) :
    tbl_get rs i = some (FD_ISSET i rs) := by
  unfold FD_ISSET tbl_get
  rw [if_neg (by omega)]
  have : i.toNat < rs.length := by omega
  rw [List.get?_eq_getElem?, List.getElem?_eq_getElem this]
  rfl

theorem tbl_set_checked_in {α : Type} (t : List α) (i : Int) (v : α) (h0 : 0 ≤ i)
    (h1 : i < t.length) : tbl_set_checked t i v = some (tbl_set t i v) := by
  unfold tbl_set_checked
  rw [if_pos ⟨h0, h1⟩]

theorem construct_pool_checked_eq (F : Nat) (lfd : Int) (h0 : 0 ≤ lfd) (h1 : lfd < F) :
    construct_pool_checked F lfd = some (construct_pool F lfd) ∧
    TableBounds F (construct_pool F lfd) := by
  constructor
  · unfold construct_pool_checked
    rw [tbl_set_checked_in _ _ _ h0 (by simp [FD_ZERO]; exact h1)]
    rfl
  · exact ⟨by simp [construct_pool], by simp [construct_pool, FD_SET, FD_ZERO, tbl_set_length],
      h0, le_refl _, h1⟩

theorem add_client_checked_eq (F : Nat) (p : Pool) (connfd : Int) (hb : TableBounds F p)
    (hc : connfd = -1 ∨ 0 ≤ connfd) :
    add_client_checked F p connfd = some (add_client F p connfd) ∧
    TableBounds F (add_client F p connfd).2.1 := by
  by_cases hrej : connfd = -1 ∨ connfd ≥ F
  · constructor
    · unfold add_client_checked add_client
      rw [if_pos hrej, if_pos hrej]
    · rw [add_client_reject F p connfd hrej]
      exact hb
  · have h0 : 0 ≤ connfd := by omega
    have h1 : connfd < F := by omega
    constructor
    · unfold add_client_checked add_client
      rw [if_neg hrej, if_neg hrej]
      by_cases hm : connfd > p.max_fd
      · simp only [if_pos hm]
        rw [tbl_set_checked_in _ _ _ h0 (by rw [hb.set_len]; exact h1)]
        simp only []
        rw [tbl_set_checked_in _ _ _ h0 (by rw [hb.clients_len]; exact h1)]
        rfl
      · simp only [if_neg hm]
        rw [tbl_set_checked_in _ _ _ h0 (by rw [hb.set_len]; exact h1)]
        simp only []
        rw [tbl_set_checked_in _ _ _ h0 (by rw [hb.clients_len]; exact h1)]
        rfl
    · obtain ⟨_, _, hmax, hlis, hset, _, hcl⟩ := add_client_accept F p connfd hrej
      have := hb.max_lo
      have := hb.max_hi
      exact ⟨by rw [hcl, tbl_set_length, hb.clients_len],
        by rw [hset, FD_SET, tbl_set_length, hb.set_len],
        by rw [hlis]; exact hb.listen_lo, by rw [hlis, hmax]; omega, by rw [hmax]; omega⟩

theorem broadcast_checked_loop_eq (x : Nat) (p : Pool) (data : List Char) (size : Nat)
    (l : List Nat) (hl : ∀ i ∈ l, (i : Int) < p.clients.length) :
    broadcast_checked_loop x p data size l =
      some (l.filterMap (fun (i : Nat) =>
        match p.slot (i : Int) with
        | none => none
        | some c => if c.id = x then none else some (Event.send c.fd (mem_read data size)))) := by
  induction l with
  | nil => rfl
  | cons i rest ih =>
    have hi := hl i (List.mem_cons_self _ _)
    have hr := ih (fun j hj => hl j (List.mem_cons_of_mem _ hj))
    rw [broadcast_checked_loop, tbl_get_clients p i (by omega) hi, List.filterMap_cons]
    cases hs : p.slot (i : Int) with
    | none => exact hr
    | some c =>
      simp only []
      by_cases hx : c.id = x
      · rw [if_pos hx, if_pos hx]
        exact hr
      · rw [if_neg hx, if_neg hx, hr]

theorem broadcast_checked_eq (F : Nat) (p : Pool) (hb : TableBounds F p) (x : Nat)
    (data : List Char) (size : Nat) :
    broadcast_checked x p data size = some (broadcast x p data size) := by
  unfold broadcast_checked broadcast
  apply broadcast_checked_loop_eq
  intro i hi
  have := List.mem_range.mp hi
  have := hb.max_hi
  have := hb.clients_len
  omega

theorem update_max_fd_checked_loop_eq (n : Nat) (p : Pool) (h0 : 0 ≤ p.listen_fd)
    (h1 : p.max_fd < p.clients.length) :
    update_max_fd_checked_loop n p = some (update_max_fd_loop n p) := by
  induction n generalizing p with
  | zero => rfl
  | succ k ih =>
    rw [update_max_fd_checked_loop, update_max_fd_loop]
    by_cases hm : p.max_fd > p.listen_fd
    · rw [if_pos hm, tbl_get_clients p p.max_fd (by omega) h1]
      cases hs : p.slot p.max_fd with
      | none =>
        rw [if_pos ⟨hm, rfl⟩]
        exact ih { p with max_fd := p.max_fd - 1 } h0
          (by show p.max_fd - 1 < (p.clients.length : Int); omega)
      | some c =>
        rw [if_neg (fun h => Option.noConfusion h.2)]
    · rw [if_neg hm, if_neg (fun h => hm h.1)]

theorem update_max_fd_checked_eq (p : Pool) (h0 : 0 ≤ p.listen_fd)
    (h1 : p.max_fd < p.clients.length) :
    update_max_fd_checked p = some (update_max_fd p) :=
  update_max_fd_checked_loop_eq _ p h0 h1

theorem remove_client_checked_eq (F : Nat) (p : Pool) (d : Int) (hb : TableBounds F p)
    (h0 : 0 ≤ d) (h1 : d < F) :
    remove_client_checked p d = some (remove_client p d) ∧
    TableBounds F (remove_client p d).1 := by
  constructor
  · unfold remove_client_checked remove_client
    rw [tbl_set_checked_in _ _ _ h0 (by rw [hb.set_len]; exact h1)]
    simp only []
    rw [tbl_set_checked_in _ _ _ h0 (by rw [hb.clients_len]; exact h1)]
    simp only []
    have hu := update_max_fd_checked_eq
      { p with read_set := tbl_set p.read_set d false, clients := tbl_set p.clients d none }
      hb.listen_lo
      (by
        show p.max_fd < ((tbl_set p.clients d none).length : Int)
        rw [tbl_set_length, hb.clients_len]
        exact hb.max_hi)
    rw [hu]
    rfl
  · obtain ⟨_, b1, b2, _, b4, _, b6, b7, _⟩ := remove_client_spec p d
    have := hb.max_hi
    exact ⟨by rw [b4, tbl_set_length, hb.clients_len],
      by rw [b2, FD_CLR, tbl_set_length, hb.set_len],
      by rw [b1]; exact hb.listen_lo, by rw [b1]; exact b7 hb.max_lo, by omega⟩

theorem store_bounds (F : Nat) (p : Pool) (i : Int) (c : Client) (hb : TableBounds F p) :
    TableBounds F (p.store i c) :=
  ⟨by show (tbl_set p.clients i (some c)).length = F
      rw [tbl_set_length, hb.clients_len],
    hb.set_len, hb.listen_lo, hb.max_lo, hb.max_hi⟩

theorem send_msg_checked_eq (F : Nat) (p : Pool) (i : Int) (c : Client) (hb : TableBounds F p)
    (hs : p.slot i = some c) :
    send_msg_checked i p = some (send_msg i p) ∧ TableBounds F (send_msg i p).1 := by
  have hr := slot_range p i c hs
  constructor
  · unfold send_msg_checked send_msg
    rw [tbl_get_clients p i hr.1 hr.2, hs]
    simp only []
    rw [tbl_set_checked_in _ _ _ hr.1 hr.2]
    simp only []
    have := broadcast_checked_eq F (p.store i (send_msg_loop c).1)
      (store_bounds F p i _ hb) (send_msg_loop c).1.id (send_msg_loop c).2.buf
      (send_msg_loop c).2.size
    unfold Pool.store at this
    rw [this]
    rfl
  · unfold send_msg
    rw [hs]
    exact store_bounds F p i _ hb

theorem communicate_service_checked_eq (F : Nat) (p : Pool) (i : Int) (c : Client) (n : Int)
    (data : List Char) (hb : TableBounds F p) (hs : p.slot i = some c) :
    communicate_service_checked i p n data = some (communicate_service i p n data) ∧
    TableBounds F (communicate_service i p n data).1 ∧
    (communicate_service i p n data).1.max_fd ≤ p.max_fd := by
  have hr := slot_range p i c hs
  have hi1 : i < F := by have := hb.clients_len; omega
  have hb1 := store_bounds F p i (recv_msg c n data).2.1 hb
  have hs1 : (p.store i (recv_msg c n data).2.1).slot i = some (recv_msg c n data).2.1 := by
    rw [slot_set_some p i i _ _ rfl _ rfl, if_pos ⟨rfl, hr.1, hr.2⟩]
  unfold communicate_service_checked communicate_service
  rw [tbl_get_clients p i hr.1 hr.2, hs]
  simp only []
  rw [tbl_set_checked_in _ _ _ hr.1 hr.2]
  simp only []
  by_cases hn : (recv_msg c n data).1 = 0
  · rw [if_pos hn, if_pos hn]
    have hbc := broadcast_checked_eq F (p.store i (recv_msg c n data).2.1) hb1
      (recv_msg c n data).2.1.id (recv_msg c n data).2.1.last_msg.buf
      (recv_msg c n data).2.1.last_msg.size.toNat
    have hrc := remove_client_checked_eq F (p.store i (recv_msg c n data).2.1) i hb1 hr.1 hi1
    unfold Pool.store at hbc hrc
    rw [hbc]
    simp only []
    rw [hrc.1]
    refine ⟨rfl, hrc.2, ?_⟩
    exact (remove_client_spec _ i).2.2.2.2.2.2.1
  · rw [if_neg hn, if_neg hn]
    have hsm := send_msg_checked_eq F (p.store i (recv_msg c n data).2.1) i _ hb1 hs1
    unfold Pool.store at hsm
    rw [hsm.1]
    refine ⟨rfl, hsm.2, ?_⟩
    show (send_msg i (p.store i (recv_msg c n data).2.1)).1.max_fd ≤ p.max_fd
    unfold send_msg
    rw [hs1]
    exact le_refl _

theorem communicate_checked_loop_eq (F : Nat) (recv : Int → Int × List Char) (rs : List Bool)
    (fuel : Nat) (i n : Int) (p : Pool) (hb : TableBounds F p) (hi : 0 ≤ i)
    (hrs : rs.length = F) :
    communicate_checked_loop recv rs fuel i n p = some (communicate_loop recv rs fuel i n p) ∧
    TableBounds F (communicate_loop recv rs fuel i n p).1 := by
  induction fuel generalizing i n p with
  | zero => exact ⟨rfl, hb⟩
  | succ k ih =>
    rw [communicate_checked_loop, communicate_loop_succ]
    by_cases hg : i ≤ p.max_fd ∧ n ≠ 0
    · have hiF : i < F := by have := hb.max_hi; omega
      rw [if_pos hg, if_pos hg, tbl_get_clients p i hi (by rw [hb.clients_len]; exact hiF)]
      cases hs : p.slot i with
      | none => exact ih (i + 1) n p hb (by omega)
      | some c =>
        simp only []
        rw [tbl_get_bits rs i hi (by rw [hrs]; exact hiF)]
        cases hrd : FD_ISSET i rs with
        | false =>
          simp only [Bool.not_false, if_true]
          exact ih (i + 1) n p hb (by omega)
        | true =>
          simp only [Bool.not_true, Bool.false_eq_true, if_false]
          obtain ⟨e1, e2, _⟩ := communicate_service_checked_eq F p i c (recv c.fd).1
            (recv c.fd).2 hb hs
          rw [e1]
          simp only []
          obtain ⟨f1, f2⟩ := ih (i + 1) (n - 1) _ e2 (by omega)
          rw [f1]
          exact ⟨rfl, f2⟩
    · rw [if_neg hg, if_neg hg]
      exact ⟨rfl, hb⟩

theorem perform_checked_eq (F : Nat) (p : Pool) (connfd : Int) (recv : Int → Int × List Char)
    (rs : List Bool) (n : Int) (hb : TableBounds F p) (hc : connfd = -1 ∨ 0 ≤ connfd)
    (hrs : rs.length = F) :
    perform_checked F connfd recv p rs n = some (perform F connfd recv p rs n) ∧
    TableBounds F (perform F connfd recv p rs n).2.1 := by
  have hl1 : p.listen_fd < F := by have := hb.max_lo; have := hb.max_hi; omega
  unfold perform_checked perform
  rw [tbl_get_bits rs p.listen_fd hb.listen_lo (by rw [hrs]; exact hl1)]
  cases hl : FD_ISSET p.listen_fd rs with
  | false =>
    simp only [Bool.false_eq_true, if_false]
    obtain ⟨e1, e2⟩ := communicate_checked_loop_eq F recv rs (p.max_fd + 1).toNat 0 n p hb
      (le_refl _) hrs
    unfold communicate_checked communicate
    rw [e1]
    exact ⟨rfl, e2⟩
  | true =>
    simp only [if_true]
    obtain ⟨a1, a2⟩ := add_client_checked_eq F p connfd hb hc
    rw [a1]
    simp only []
    by_cases hrej : (add_client F p connfd).1 = -1
    · rw [if_pos hrej, if_pos hrej]
      exact ⟨rfl, a2⟩
    · rw [if_neg hrej, if_neg hrej]
      have hnr : ¬ (connfd = -1 ∨ connfd ≥ F) := by
        intro h
        rw [add_client_reject F p connfd h] at hrej
        exact hrej rfl
      have hfst : (add_client F p connfd).1 = connfd := (add_client_accept F p connfd hnr).1
      have hcl := (add_client_accept F p connfd hnr).2.2.2.2.2.2
      have h0 : 0 ≤ connfd := by omega
      have hslot : (add_client F p connfd).2.1.slot connfd =
          some (create_client connfd p.next_id) := by
        rw [slot_set_some p connfd connfd _ _ rfl _ hcl,
          if_pos ⟨rfl, h0, by rw [hb.clients_len]; omega⟩]
      rw [hfst, tbl_get_clients _ connfd h0 (by rw [a2.clients_len]; omega), hslot]
      simp only []
      rw [broadcast_checked_eq F _ a2]
      simp only []
      obtain ⟨e1, e2⟩ := communicate_checked_loop_eq F recv rs
        ((add_client F p connfd).2.1.max_fd + 1).toNat 0 (n - 1) _ a2 (le_refl _) hrs
      unfold communicate_checked communicate
      rw [e1]
      exact ⟨rfl, e2⟩

theorem run_loop_checked_eq (F : Nat) (ticks : List Tick) (p : Pool) (hb : TableBounds F p)
    (ht : ∀ t ∈ ticks, Tick.valid F t) :
    run_loop_checked F p ticks = some (run_loop F p ticks) ∧
    ∀ q, (run_loop F p ticks).1 = Outcome.next q → TableBounds F q := by
  induction ticks generalizing p with
  | nil =>
    refine ⟨rfl, ?_⟩
    intro q hq
    have : p = q := by injection hq
    rw [← this]
    exact hb
  | cons t ts ih =>
    have hv := ht t (List.mem_cons_self _ _)
    obtain ⟨e1, e2⟩ := perform_checked_eq F p t.connfd t.recv t.ready_set t.n_ready hb hv.1 hv.2
    have hit : run_iteration_checked F p t = some (run_iteration F p t) := by
      unfold run_iteration_checked run_iteration
      by_cases hn : t.n_ready = -1
      · rw [if_pos hn, if_pos hn]
      · rw [if_neg hn, if_neg hn, e1]
        simp only []
        split <;> rfl
    rw [run_loop_checked, run_loop, hit]
    by_cases hn : t.n_ready = -1
    · have hi : run_iteration F p t =
          (Outcome.exit_failure, [Event.write STDERR_FILENO E_FATAL_ERROR]) := by
        unfold run_iteration
        rw [if_pos hn]
      rw [hi]
      exact ⟨rfl, fun q hq => Outcome.noConfusion hq⟩
    · by_cases hr : (perform F t.connfd t.recv p t.ready_set t.n_ready).1 = -1
      · have hi : run_iteration F p t =
            (Outcome.exit_failure, (perform F t.connfd t.recv p t.ready_set t.n_ready).2.2 ++
              [Event.write STDERR_FILENO E_FATAL_ERROR]) := by
          unfold run_iteration
          rw [if_neg hn]
          simp only [if_pos hr]
        rw [hi]
        exact ⟨rfl, fun q hq => Outcome.noConfusion hq⟩
      · have hi : run_iteration F p t =
            (Outcome.next (perform F t.connfd t.recv p t.ready_set t.n_ready).2.1,
              (perform F t.connfd t.recv p t.ready_set t.n_ready).2.2) := by
          unfold run_iteration
          rw [if_neg hn]
          simp only [if_neg hr]
        rw [hi]
        obtain ⟨f1, f2⟩ := ih _ e2 (fun u hu => ht u (List.mem_cons_of_mem _ hu))
        simp only []
        rw [f1]
        exact ⟨rfl, f2⟩


/-! ## C16: descriptor indices stay inside the tables -/

/-- C16. For a listener descriptor with `0 <= listen_fd < FD_SETSIZE`, and ticks
in which `accept` returns -1 or a descriptor that is not negative (the ready
set being an `fd_set` of `FD_SETSIZE` bits), the run with every table access
checked never takes the out-of-range branch: it returns the result of the
plain run.  In every pool the loop reaches, `0 <= max_fd < FD_SETSIZE`, and
from it `add_client`, `broadcast`, `update_max_fd`, `remove_client` of a live
slot, `communicate` and `perform` with checked accesses return the results of
the plain operations: every index they use on `clients` or on the readiness
sets lies in the table. -/
theorem indices_in_table (F : Nat) (lfd : Int) (ticks : List Tick) (h0 : 0 ≤ lfd)
    (h1 : lfd < F) (ht : ∀ t ∈ ticks, Tick.valid F t) :
    run_checked F lfd ticks = some (run F lfd ticks) ∧
    ∀ q, (run F lfd ticks).1 = Outcome.next q →
      0 ≤ q.max_fd ∧ q.max_fd < F ∧
      (∀ connfd, connfd = -1 ∨ 0 ≤ connfd →
        add_client_checked F q connfd = some (add_client F q connfd)) ∧
      (∀ x data size, broadcast_checked x q data size = some (broadcast x q data size)) ∧
      update_max_fd_checked q = some (update_max_fd q) ∧
      (∀ d c, q.slot d = some c → remove_client_checked q d = some (remove_client q d)) ∧
      (∀ recv rs n, rs.length = F →
        communicate_checked recv q rs n = some (communicate recv q rs n)) ∧
      (∀ connfd recv rs n, connfd = -1 ∨ 0 ≤ connfd → rs.length = F →
        perform_checked F connfd recv q rs n = some (perform F connfd recv q rs n)) := by
  obtain ⟨c1, c2⟩ := construct_pool_checked_eq F lfd h0 h1
  obtain ⟨r1, r2⟩ := run_loop_checked_eq F ticks (construct_pool F lfd) c2 ht
  constructor
  · unfold run_checked run
    rw [c1]
    exact r1
  · intro q hq
    have hb := r2 q hq
    have hlo := hb.listen_lo
    have hml := hb.max_lo
    refine ⟨by omega, hb.max_hi, ?_, ?_, ?_, ?_, ?_, ?_⟩
    · intro connfd hc
      exact (add_client_checked_eq F q connfd hb hc).1
    · intro x data size
      exact broadcast_checked_eq F q hb x data size
    · exact update_max_fd_checked_eq q hb.listen_lo (by rw [hb.clients_len]; exact hb.max_hi)
    · intro d c hs
      have hr := slot_range q d c hs
      exact (remove_client_checked_eq F q d hb hr.1 (by have := hb.clients_len; omega)).1
    · intro recv rs n hrs
      exact (communicate_checked_loop_eq F recv rs _ 0 n q hb (le_refl _) hrs).1
    · intro connfd recv rs n hc hrs
      exact (perform_checked_eq F q connfd recv rs n hb hc hrs).1

/-- C16 at a concrete input: a client arrives on descriptor 4, then a second one
on 5 while the first leaves. -/
theorem indices_in_table_witness :
    run_checked 8 3 [tick_accept, tick_leave] = some (run 8 3 [tick_accept, tick_leave]) ∧
    (run 8 3 [tick_accept, tick_leave]).2 =
      [Event.accept 3 4, Event.accept 3 5,
        Event.send 4 "server: client 1 just arrived\n".toList, Event.recv 4 0,
        Event.send 5 "server: client 0 just left\n".toList, Event.close 4] := by
  have h := indices_in_table 8 3 [tick_accept, tick_leave] (by decide) (by decide)
    (by
      intro t ht
      rcases List.mem_cons.mp ht with e | e
      · rw [e]; exact ⟨Or.inr (by decide), rfl⟩
      · rcases List.mem_cons.mp e with e2 | e2
        · rw [e2]; exact ⟨Or.inr (by decide), rfl⟩
        · exact absurd e2 (List.not_mem_nil _))
  exact ⟨h.1, by decide⟩

end MiniServ
